import Mathlib

/-!
# Verification of the OS process-scheduling simulator

A shallow embedding of the discrete-time CPU-scheduling simulator
(`Process`, the abstract `Scheduler` engine, and the four concrete
policies FCFS, SJF, Round-Robin and Priority), translated from the
C++ sources in `src/`, together with proofs of the specification's
claims about it.

Modelling conventions:
* C++ `int` fields are modelled as `Int`.
* `shared_ptr<Process>` references held by the ready queue and the
  `currentProcess` member are modelled by the process id (`pid`);
  the engine state stores the authoritative `List Process` and all
  updates through a reference are keyed on the pid.  Pids are unique
  in every state produced by `addProcess`, which rejects duplicates,
  so pid-keyed update coincides with pointer-keyed update there.
* a possibly-null `shared_ptr` argument (to `addProcess`, or the
  registered list as validated by `validateProcessSet`) is modelled
  as `Option Process`.
* the `while (true)` simulation loops are modelled with explicit
  fuel (`runLoop`); the loop exits exactly when every process is
  `TERMINATED`, matching the `allCompleted` break at the end of each
  C++ loop body.
* the `double` statistics accumulators are modelled as `Rat`; the
  only claim about them concerns the guarded zero-process branch of
  the average accessors, which involves no floating-point rounding.
-/

set_option linter.unusedVariables false

namespace OSSched

/-- Process lifecycle states, from `Process.h` (`enum class ProcessState`). -/
inductive ProcessState where
  | NEW
  | READY
  | RUNNING
  | WAITING
  | TERMINATED
deriving DecidableEq, Repr

/-- Priority levels, from `Process.h` (`enum class Priority`); lower
numeric value means higher urgency. -/
inductive PriorityLevel where
  | HIGH
  | MEDIUM
  | LOW
deriving DecidableEq, Repr

/-- Numeric value of a priority level (`HIGH = 1`, `MEDIUM = 2`, `LOW = 3`),
used by the `<` comparison in `PriorityScheduler::schedule`. -/
def prioVal : PriorityLevel → Int
  | .HIGH => 1
  | .MEDIUM => 2
  | .LOW => 3

/-- The Process Control Block, from `Process.h`.  The static pid counter is
not modelled; each process simply carries its pid. -/
structure Process where
  pid : Nat
  name : String
  state : ProcessState
  priority : PriorityLevel
  arrivalTime : Int
  burstTime : Int
  remainingTime : Int
  waitingTime : Int
  turnaroundTime : Int
  responseTime : Int
  startTime : Int
  hasStarted : Bool
deriving DecidableEq, Repr

/-- `Process::Process` (constructor): initial field values, including the
clamping of a negative arrival time to 0 and of a non-positive burst time
to 1. -/
def mkProcess (pid : Nat) (name : String) (arrival burst : Int)
    (prio : PriorityLevel) : Process :=
  let a := if arrival < 0 then 0 else arrival
  let b := if burst ≤ 0 then 1 else burst
  { pid := pid, name := name, state := .NEW, priority := prio,
    arrivalTime := a, burstTime := b, remainingTime := b,
    waitingTime := 0, turnaroundTime := 0, responseTime := -1,
    startTime := -1, hasStarted := false }

/-- `Process::reset`: back to `NEW` with full burst and cleared metrics. -/
def resetP (p : Process) : Process :=
  { p with state := .NEW, remainingTime := p.burstTime, waitingTime := 0,
           turnaroundTime := 0, responseTime := -1, startTime := -1,
           hasStarted := false }

/-- `Process::updateStatistics` (only reachable through
`Scheduler::completeProcessExecution`; the four concrete `schedule`
implementations write the fields directly instead, see `execOne`). -/
def updateStatistics (completionTime : Int) (p : Process) : Process :=
  let ta := completionTime - p.arrivalTime
  let w0 := ta - p.burstTime
  let w := if w0 < 0 then 0 else w0
  let r := if p.responseTime = -1 then
             (if p.startTime ≠ -1 then p.startTime - p.arrivalTime else 0)
           else p.responseTime
  { p with turnaroundTime := ta, waitingTime := w, responseTime := r,
           state := .TERMINATED, remainingTime := 0 }

/-- The engine state: the protected members of `Scheduler` that the
simulation loop reads and writes.  `timeQuantum`/`quantumRemaining` are the
members of `RoundRobinScheduler`; the other three policies never touch
them. -/
structure SchedulerState where
  processes : List Process
  readyQueue : List Nat
  current : Option Nat
  currentTime : Int
  timeQuantum : Int
  quantumRemaining : Int
  totalProcesses : Int
  totalWaitingTime : Rat
  totalTurnaroundTime : Rat
  totalResponseTime : Rat
deriving DecidableEq, Repr

/-- Dereference a process id in the engine's process list
(`shared_ptr` dereference in the C++). -/
def procOf (s : SchedulerState) (i : Nat) : Option Process :=
  s.processes.find? (fun p => p.pid == i)

/-- `remainingTime` of the process referenced by `i` (0 if the reference is
dangling, which never happens in a well-formed state). -/
def remOf (s : SchedulerState) (i : Nat) : Int :=
  (procOf s i).elim 0 (fun p => p.remainingTime)

/-- `burstTime` of the process referenced by `i`. -/
def burstOf (s : SchedulerState) (i : Nat) : Int :=
  (procOf s i).elim 0 (fun p => p.burstTime)

/-- numeric priority of the process referenced by `i`. -/
def prioOf (s : SchedulerState) (i : Nat) : Int :=
  (procOf s i).elim 0 (fun p => prioVal p.priority)

/-- `state` of the process referenced by `i` (`WAITING` as a dangling
default; the simulator never puts a process in `WAITING`). -/
def stateOf (s : SchedulerState) (i : Nat) : ProcessState :=
  (procOf s i).elim .WAITING (fun p => p.state)

/-- `waitingTime` of the process referenced by `i`. -/
def waitingOf (s : SchedulerState) (i : Nat) : Int :=
  (procOf s i).elim 0 (fun p => p.waitingTime)

/-- `turnaroundTime` of the process referenced by `i`. -/
def turnaroundOf (s : SchedulerState) (i : Nat) : Int :=
  (procOf s i).elim 0 (fun p => p.turnaroundTime)

/-- `startTime` of the process referenced by `i`. -/
def startOf (s : SchedulerState) (i : Nat) : Int :=
  (procOf s i).elim 0 (fun p => p.startTime)

/-- `responseTime` of the process referenced by `i`. -/
def responseOf (s : SchedulerState) (i : Nat) : Int :=
  (procOf s i).elim 0 (fun p => p.responseTime)

/-- Update (through the pid-keyed reference) the process referenced by `i`. -/
def updateProc (s : SchedulerState) (i : Nat) (f : Process → Process) :
    SchedulerState :=
  { s with processes := s.processes.map (fun p => if p.pid = i then f p else p) }

/-- The per-process effect of `Scheduler::checkArrivals` at time `t`:
a `NEW` process whose arrival time has been reached becomes `READY`. -/
def arriveP (t : Int) (p : Process) : Process :=
  if p.state = .NEW ∧ p.arrivalTime ≤ t then { p with state := .READY } else p

/-- Pids of the processes admitted by `Scheduler::checkArrivals` at time `t`,
in traversal order of the registered list. -/
def newlyArrived (t : Int) (ps : List Process) : List Nat :=
  (ps.filter (fun p => decide (p.state = .NEW ∧ p.arrivalTime ≤ t))).map
    (fun p => p.pid)

/-- `Scheduler::checkArrivals`: every `NEW` process with
`arrivalTime ≤ currentTime` becomes `READY` and is pushed onto the ready
queue, in registered order. -/
def checkArrivals (s : SchedulerState) : SchedulerState :=
  { s with processes := s.processes.map (arriveP s.currentTime),
           readyQueue := s.readyQueue ++ newlyArrived s.currentTime s.processes }

/-- Dispatch bookkeeping common to all four `schedule` implementations:
the chosen process becomes `RUNNING`, and on its first-ever dispatch its
start time and response time are fixed. -/
def startP (t : Int) (p : Process) : Process :=
  let p := { p with state := ProcessState.RUNNING }
  if p.hasStarted then p
  else { p with startTime := t, responseTime := t - p.arrivalTime,
                hasStarted := true }

/-- The execution step shared by all four `schedule` implementations:
decrement `remainingTime`; when it reaches 0, the process is terminated and
`turnaroundTime = currentTime + 1 - arrivalTime`,
`waitingTime = turnaroundTime - burstTime` are written. -/
def execOne (t : Int) (p : Process) : Process :=
  let p := { p with remainingTime := p.remainingTime - 1 }
  if p.remainingTime = 0 then
    { p with state := .TERMINATED,
             turnaroundTime := t + 1 - p.arrivalTime,
             waitingTime := (t + 1 - p.arrivalTime) - p.burstTime }
  else p

/-- The "execute current process for one time unit" block of
`FCFSScheduler::schedule`, `SJFScheduler::schedule` and
`PriorityScheduler::schedule`. -/
def executePlain (s : SchedulerState) : SchedulerState :=
  match s.current with
  | none => s
  | some c =>
    let done := remOf s c - 1 = 0
    { s with processes := s.processes.map (fun p => if p.pid = c then execOne s.currentTime p else p),
             current := if done then none else s.current }

/-- The "execute current process for one unit" block of
`RoundRobinScheduler::schedule`: additionally decrements the quantum
counter, and resets it to the full quantum when the process completes. -/
def executeRR (s : SchedulerState) : SchedulerState :=
  match s.current with
  | none => s
  | some c =>
    let done := remOf s c - 1 = 0
    { s with processes := s.processes.map (fun p => if p.pid = c then execOne s.currentTime p else p),
             current := if done then none else s.current,
             quantumRemaining := if done then s.timeQuantum
                                 else s.quantumRemaining - 1 }

/-- `Scheduler::updateWaitingTimes` per-process effect: one unit of waiting
is added to every process in `READY` state. -/
def ageP (p : Process) : Process :=
  if p.state = .READY then { p with waitingTime := p.waitingTime + 1 } else p

/-- `Scheduler::updateWaitingTimes`. -/
def agePhase (s : SchedulerState) : SchedulerState :=
  { s with processes := s.processes.map ageP }

/-- `currentTime++` at the end of each loop iteration. -/
def tickClock (s : SchedulerState) : SchedulerState :=
  { s with currentTime := s.currentTime + 1 }

/-- The dispatch block of `FCFSScheduler::schedule`: if the CPU is idle,
pop the front of the ready queue. -/
def dispatchFCFS (s : SchedulerState) : SchedulerState :=
  if s.current = none then
    match s.readyQueue with
    | [] => s
    | i :: rest =>
      { (updateProc s i (startP s.currentTime)) with
          current := some i, readyQueue := rest }
  else s

/-- The scan loop shared by `SJFScheduler::schedule` and
`PriorityScheduler::schedule`: pops every queue entry, keeps the running
best (strict `<` on the key, so the first entry attaining the minimum
wins), and pushes the rejected entries back in the order they were set
aside. -/
def selectGo (key : Nat → Int) (cand : Nat) (temp : List Nat) :
    List Nat → Nat × List Nat
  | [] => (cand, temp)
  | i :: rest =>
    if key i < key cand then selectGo key i (temp ++ [cand]) rest
    else selectGo key cand (temp ++ [i]) rest

/-- Run the scan on a whole queue: the first entry seeds the candidate
(the C++ starts from a null candidate, which the first iteration always
replaces). -/
def selectFrom (key : Nat → Int) : List Nat → Option (Nat × List Nat)
  | [] => none
  | i :: rest => some (selectGo key i [] rest)

/-- The dispatch block of `SJFScheduler::schedule`: if the CPU is idle and
the ready queue is non-empty, scan the queue for the process with the
smallest `burstTime`, remove it, restore the rest, and start it. -/
def dispatchSJF (s : SchedulerState) : SchedulerState :=
  if s.current = none ∧ s.readyQueue ≠ [] then
    match selectFrom (burstOf s) s.readyQueue with
    | none => s
    | some (i, rest) =>
      { (updateProc s i (startP s.currentTime)) with
          current := some i, readyQueue := rest }
  else s

/-- The dispatch block of `PriorityScheduler::schedule`: same scan keyed on
the numeric priority (lower value = more urgent). -/
def dispatchPrio (s : SchedulerState) : SchedulerState :=
  if s.current = none ∧ s.readyQueue ≠ [] then
    match selectFrom (prioOf s) s.readyQueue with
    | none => s
    | some (i, rest) =>
      { (updateProc s i (startP s.currentTime)) with
          current := some i, readyQueue := rest }
  else s

/-- The preemption sub-block of `RoundRobinScheduler::schedule`'s switch
logic: a running process whose quantum counter is exactly 0 and which still
has work left is set back to `READY` and pushed at the tail of the ready
queue. -/
def rrPreempt (s : SchedulerState) : SchedulerState :=
  match s.current with
  | some c =>
    if s.quantumRemaining = 0 ∧ 0 < remOf s c then
      { (updateProc s c (fun p => { p with state := .READY })) with
          readyQueue := s.readyQueue ++ [c] }
    else s
  | none => s

/-- The process-switch block of `RoundRobinScheduler::schedule`: when no
process is running or the quantum counter is exactly 0, and the ready queue
is non-empty, the preemption sub-block runs and then the front of the queue
is popped, started, and granted a fresh quantum. -/
def rrSwitch (s : SchedulerState) : SchedulerState :=
  if (s.current = none ∨ s.quantumRemaining = 0) ∧ s.readyQueue ≠ [] then
    match (rrPreempt s).readyQueue with
    | [] => rrPreempt s
    | i :: rest =>
      { (updateProc (rrPreempt s) i (startP (rrPreempt s).currentTime)) with
          current := some i, readyQueue := rest,
          quantumRemaining := (rrPreempt s).timeQuantum }
  else s

/-- One iteration of the `while (true)` loop of `FCFSScheduler::schedule`. -/
def fcfsStep (s : SchedulerState) : SchedulerState :=
  tickClock (agePhase (executePlain (dispatchFCFS (checkArrivals s))))

/-- One iteration of the loop of `SJFScheduler::schedule`. -/
def sjfStep (s : SchedulerState) : SchedulerState :=
  tickClock (agePhase (executePlain (dispatchSJF (checkArrivals s))))

/-- One iteration of the loop of `PriorityScheduler::schedule`. -/
def prioStep (s : SchedulerState) : SchedulerState :=
  tickClock (agePhase (executePlain (dispatchPrio (checkArrivals s))))

/-- One iteration of the loop of `RoundRobinScheduler::schedule`. -/
def rrStep (s : SchedulerState) : SchedulerState :=
  tickClock (agePhase (executeRR (rrSwitch (checkArrivals s))))

/-- The `allCompleted` check at the end of each loop body. -/
def allTerminated (s : SchedulerState) : Bool :=
  s.processes.all (fun p => decide (p.state = .TERMINATED))

/-- The `while (true) { ...; if (allCompleted) break; }` loop, with fuel:
each iteration runs one step and exits as soon as every process is
terminated. -/
def runLoop (step : SchedulerState → SchedulerState) :
    Nat → SchedulerState → SchedulerState
  | 0, s => s
  | n + 1, s =>
    if allTerminated (step s) then step s else runLoop step n (step s)

/-- Plain iteration of a step function (to address the state reached after
`m` loop iterations, before the completion check has exited). -/
def stepN (step : SchedulerState → SchedulerState) :
    Nat → SchedulerState → SchedulerState
  | 0, s => s
  | n + 1, s => stepN step n (step s)

/-- Insertion of a process into an arrival-time-sorted list, used to model
the `sort` by `arrivalTime <` at the top of `FCFSScheduler::schedule`. -/
def insertByArrival (p : Process) : List Process → List Process
  | [] => [p]
  | q :: qs =>
    if p.arrivalTime < q.arrivalTime then p :: q :: qs
    else q :: insertByArrival p qs

/-- The pre-loop `sort` of `FCFSScheduler::schedule` (ascending arrival
time; ties keep registration order). -/
def sortByArrival (ps : List Process) : List Process :=
  ps.foldr insertByArrival []

/-- A freshly reset engine state over a given (already reset) process list:
`Scheduler::reset` zeroes the clock, clears the ready queue and the current
process, and `resetProcessStates` resets every process. -/
def mkState (ps : List Process) (tq qr : Int) : SchedulerState :=
  { processes := ps, readyQueue := [], current := none, currentTime := 0,
    timeQuantum := tq, quantumRemaining := qr,
    totalProcesses := (ps.length : Int),
    totalWaitingTime := 0, totalTurnaroundTime := 0, totalResponseTime := 0 }

/-- Initial state of `FCFSScheduler::schedule`: processes reset, then
sorted by arrival time. -/
def fcfsInit (ps : List Process) : SchedulerState :=
  mkState (sortByArrival (ps.map resetP)) 0 0

/-- Initial state of `SJFScheduler::schedule` / `PriorityScheduler::schedule`:
processes reset, no pre-sort. -/
def plainInit (ps : List Process) : SchedulerState :=
  mkState (ps.map resetP) 0 0

/-- Initial state of `RoundRobinScheduler::schedule` with quantum `tq`:
processes reset and `quantumRemaining = timeQuantum`. -/
def rrInit (tq : Int) (ps : List Process) : SchedulerState :=
  mkState (ps.map resetP) tq tq

/-- A complete FCFS run (`schedule` after `runSimulation`'s reset). -/
def fcfsRun (fuel : Nat) (ps : List Process) : SchedulerState :=
  runLoop fcfsStep fuel (fcfsInit ps)

/-- A complete SJF run. -/
def sjfRun (fuel : Nat) (ps : List Process) : SchedulerState :=
  runLoop sjfStep fuel (plainInit ps)

/-- A complete Priority run. -/
def prioRun (fuel : Nat) (ps : List Process) : SchedulerState :=
  runLoop prioStep fuel (plainInit ps)

/-- A complete Round-Robin run with quantum `tq`. -/
def rrRun (fuel : Nat) (tq : Int) (ps : List Process) : SchedulerState :=
  runLoop rrStep fuel (rrInit tq ps)

/-- `Scheduler::addProcess`: rejects a null pointer and a duplicate pid,
otherwise appends and increments the registered count. -/
def addProcess (s : SchedulerState) (op : Option Process) :
    Bool × SchedulerState :=
  match op with
  | none => (false, s)
  | some p =>
    if s.processes.any (fun q => q.pid == p.pid) then (false, s)
    else (true, { s with processes := s.processes ++ [p],
                         totalProcesses := s.totalProcesses + 1 })

/-- `Scheduler::validateProcessSet` over the registered list of
(possibly null) process handles: non-empty, no null entry, every process
with positive burst and non-negative arrival. -/
def validP (op : Option Process) : Bool :=
  match op with
  | none => false
  | some p => decide (0 < p.burstTime) && decide (0 ≤ p.arrivalTime)

/-- `Scheduler::validateProcessSet`. -/
def validateProcessSet (regs : List (Option Process)) : Bool :=
  !regs.isEmpty && regs.all validP

/-- `Scheduler::calculateStatistics`: sums the per-process metrics into the
`double` accumulators. -/
def calculateStatistics (s : SchedulerState) : SchedulerState :=
  { s with
      totalWaitingTime := (s.processes.map (fun p => (p.waitingTime : Rat))).sum,
      totalTurnaroundTime := (s.processes.map (fun p => (p.turnaroundTime : Rat))).sum,
      totalResponseTime := (s.processes.map (fun p => (p.responseTime : Rat))).sum }

/-- `Scheduler::runSimulation`: validate, reset, run the policy loop
(`schedule`), and compute the final statistics on success.  `none` models
the `return false` of a failed validation (no simulation is performed);
`some` carries the final engine state. -/
def runSimulation (step : SchedulerState → SchedulerState)
    (initOf : List Process → SchedulerState) (fuel : Nat)
    (regs : List (Option Process)) : Option SchedulerState :=
  if validateProcessSet regs then
    let final := runLoop step fuel (initOf (regs.filterMap id))
    some (if allTerminated final then calculateStatistics final else final)
  else none

/-- `Scheduler::getAverageWaitingTime`. -/
def getAverageWaitingTime (s : SchedulerState) : Rat :=
  if 0 < s.totalProcesses then s.totalWaitingTime / (s.totalProcesses : Rat)
  else 0

/-- `Scheduler::getAverageTurnaroundTime`. -/
def getAverageTurnaroundTime (s : SchedulerState) : Rat :=
  if 0 < s.totalProcesses then s.totalTurnaroundTime / (s.totalProcesses : Rat)
  else 0

/-- `Scheduler::getAverageResponseTime`. -/
def getAverageResponseTime (s : SchedulerState) : Rat :=
  if 0 < s.totalProcesses then s.totalResponseTime / (s.totalProcesses : Rat)
  else 0

/-- The process that executes during the loop iteration starting at state
`s` under FCFS (the `currentProcess` right after the dispatch block). -/
def whoRunsFCFS (s : SchedulerState) : Option Nat :=
  (dispatchFCFS (checkArrivals s)).current

/-- The process that executes during the loop iteration starting at state
`s` under Round-Robin. -/
def whoRunsRR (s : SchedulerState) : Option Nat :=
  (rrSwitch (checkArrivals s)).current

/-! ### Invariants -/

/-- Per-process conservation property: a terminated process satisfies
`turnaroundTime = waitingTime + burstTime`. -/
def ConsP (p : Process) : Prop :=
  p.state = .TERMINATED → p.turnaroundTime = p.waitingTime + p.burstTime

/-- Conservation invariant over a whole engine state. -/
def ConservationInv (s : SchedulerState) : Prop :=
  ∀ p ∈ s.processes, ConsP p

/-- The queue-and-process components of the engine's well-formedness
invariant, at NEW-slack `k`: a `NEW` process has not arrived for at least
`k` more ticks (`k = 0` at a loop-iteration boundary, `k = 1` right after
the arrival phase of the current iteration). -/
structure QueueInv (k : Int) (s : SchedulerState) : Prop where
  pidNodup : (s.processes.map Process.pid).Nodup
  queueRes : ∀ i ∈ s.readyQueue,
    ∃ p ∈ s.processes, p.pid = i ∧ p.state = ProcessState.READY
  queueNodup : s.readyQueue.Nodup
  readyInQueue : ∀ p ∈ s.processes,
    p.state = ProcessState.READY → p.pid ∈ s.readyQueue
  readyRem : ∀ p ∈ s.processes,
    p.state = ProcessState.READY → 1 ≤ p.remainingTime
  newBound : ∀ p ∈ s.processes, p.state = ProcessState.NEW →
    s.currentTime + k ≤ p.arrivalTime ∧ p.remainingTime = p.burstTime ∧
    p.waitingTime = 0
  noWaiting : ∀ p ∈ s.processes, p.state ≠ ProcessState.WAITING
  validFields : ∀ p ∈ s.processes, 1 ≤ p.burstTime ∧ 0 ≤ p.arrivalTime
  arrived : ∀ p ∈ s.processes,
    (p.state = ProcessState.READY ∨ p.state = ProcessState.RUNNING) →
    p.arrivalTime ≤ s.currentTime
  termRem : ∀ p ∈ s.processes, p.state = ProcessState.TERMINATED →
    p.remainingTime = 0 ∧ p.arrivalTime < s.currentTime
  acct : ∀ p ∈ s.processes,
    (p.state = ProcessState.READY ∨ p.state = ProcessState.RUNNING) →
    p.waitingTime = (s.currentTime - p.arrivalTime) -
      (p.burstTime - p.remainingTime)

/-- The full well-formedness invariant (queue components plus the
`currentProcess` components). -/
structure InvAt (k : Int) (s : SchedulerState)
    extends QueueInv k s : Prop where
  curRes : ∀ c, s.current = some c →
    ∃ p ∈ s.processes, p.pid = c ∧ p.state = ProcessState.RUNNING ∧
      1 ≤ p.remainingTime
  curNotInQueue : ∀ c, s.current = some c → c ∉ s.readyQueue
  runningCur : ∀ p ∈ s.processes,
    p.state = ProcessState.RUNNING → s.current = some p.pid

/-- Well-formedness at a loop-iteration boundary. -/
abbrev EngineInv (s : SchedulerState) : Prop := InvAt 0 s

/-- Well-formedness right after the arrival phase: remaining `NEW`
processes arrive strictly in the future. -/
abbrev MidInv (s : SchedulerState) : Prop := InvAt 1 s

/-- Well-formedness after the dispatch phase: additionally, when nobody is
current the ready queue must be empty (the dispatch block always installs a
process when one is ready). -/
abbrev MidInvB (s : SchedulerState) : Prop :=
  MidInv s ∧ (s.current = none → s.readyQueue = [])

/-- Total remaining work, the decreasing part of the termination measure. -/
def sumRem (s : SchedulerState) : Nat :=
  (s.processes.map (fun p => p.remainingTime.toNat)).sum

/-- Largest arrival time among the registered processes. -/
def maxArrival (s : SchedulerState) : Int :=
  List.foldr max (0 : Int) (s.processes.map (fun p => p.arrivalTime))

/-- Termination measure: slack until the last arrival plus total
remaining work; it strictly decreases at every loop iteration that does
not end with all processes terminated. -/
def measureM2 (s : SchedulerState) : Nat :=
  (maxArrival s - s.currentTime).toNat + sumRem s

/-- Fuel bound sufficient for a whole run over process list `ps`. -/
def termBound (ps : List Process) : Nat :=
  (List.foldr max (0 : Int) (ps.map (fun p => p.arrivalTime))).toNat +
    (ps.map (fun p => p.burstTime.toNat)).sum

/-- Spec-side predicate (claim C4, "aging is the sole accrual
mechanism"): the incrementally aged waiting time of every live process
equals elapsed-time-since-arrival minus executed time — exactly the
number of ticks spent in `READY`. -/
abbrev AgedWaiting (s : SchedulerState) : Prop :=
  ∀ p ∈ s.processes,
    (p.state = ProcessState.READY ∨ p.state = ProcessState.RUNNING) →
    p.waitingTime = (s.currentTime - p.arrivalTime) -
      (p.burstTime - p.remainingTime)

/-- Spec-side predicate (claim C4, "both computations agree"): when the
running process is about to complete, the derived value
`turnaround - burst` that `updateStatistics` writes coincides with the
waiting time already accrued by per-tick aging, so the completion write
does not change it. -/
abbrev CompletionNoop (sB : SchedulerState) : Prop :=
  ∀ c p, sB.current = some c → p ∈ sB.processes → p.pid = c →
    remOf sB c = 1 →
    (execOne sB.currentTime p).waitingTime = p.waitingTime

/-- The observable effect of `Process::reset` on one process: state back
to `NEW`, remaining time restored to the burst, all metrics cleared. -/
abbrev IsReset (q : Process) : Prop :=
  q.state = ProcessState.NEW ∧ q.remainingTime = q.burstTime ∧
  q.waitingTime = 0 ∧ q.turnaroundTime = 0 ∧ q.startTime = -1 ∧
  q.responseTime = -1 ∧ q.hasStarted = false

/-! ### Sample inputs used by the concrete theorems -/

/-- `P1(arrival 0, burst 5)` of the spec's FCFS end-to-end scenario. -/
def demoP1 : Process := mkProcess 1 "P1" 0 5 .MEDIUM

/-- `P2(arrival 1, burst 3)` of the spec's FCFS end-to-end scenario. -/
def demoP2 : Process := mkProcess 2 "P2" 1 3 .MEDIUM

/-- The two-process set of the FCFS end-to-end scenario. -/
def demoPs : List Process := [demoP1, demoP2]

/-- The registration list (as held by `Scheduler::processes`) for the
demo set: two non-null handles. -/
def demoRegs : List (Option Process) := [some demoP1, some demoP2]

/-- Round-Robin scenario exhibiting the quantum-expiry-with-empty-queue
behaviour: `P1(arrival 0, burst 6)` and `P2(arrival 3, burst 2)`. -/
def rrDemoPs : List Process :=
  [mkProcess 1 "P1" 0 6 .MEDIUM, mkProcess 2 "P2" 3 2 .MEDIUM]

/-- State after two Round-Robin (quantum 2) iterations on `rrDemoPs`:
`P1` has just exhausted its quantum with 4 units of work left. -/
def rrDemoS2 : SchedulerState := stepN rrStep 2 (rrInit 2 rrDemoPs)

/-- State after four Round-Robin (quantum 2) iterations on `rrDemoPs`:
`P2` is ready but `P1` is still running on a negative quantum counter. -/
def rrDemoS4 : SchedulerState := stepN rrStep 4 (rrInit 2 rrDemoPs)

/-- Round-Robin scenario for the fairness bound: `P1(arrival 0, burst 4)`
and `P2(arrival 0, burst 9)` with quantum 2; `P1` is preempted at time 2. -/
def fairPs : List Process :=
  [mkProcess 1 "P1" 0 4 .MEDIUM, mkProcess 2 "P2" 0 9 .MEDIUM]

/-- State after two Round-Robin (quantum 2) iterations on `fairPs`, at which
`P1`'s quantum is exhausted while `P2` waits. -/
def fairS2 : SchedulerState := stepN rrStep 2 (rrInit 2 fairPs)

/-- Three simultaneous arrivals with bursts 5, 3, 3, to exercise the SJF
scan (pids 2 and 3 tie on the minimum burst; pid 2 comes first). -/
def sjfDemo : List Process :=
  [mkProcess 1 "A" 0 5 .MEDIUM, mkProcess 2 "B" 0 3 .HIGH,
   mkProcess 3 "C" 0 3 .LOW]

/-! ## Basic lemmas about the per-process transformers -/

@[simp]
theorem arriveP_pid (t : Int) (p : Process) : (arriveP t p).pid = p.pid := by
  unfold arriveP; split <;> rfl

@[simp]
theorem arriveP_arrivalTime (t : Int) (p : Process) :
    (arriveP t p).arrivalTime = p.arrivalTime := by
  unfold arriveP; split <;> rfl

@[simp]
theorem arriveP_burstTime (t : Int) (p : Process) :
    (arriveP t p).burstTime = p.burstTime := by
  unfold arriveP; split <;> rfl

@[simp]
theorem arriveP_remainingTime (t : Int) (p : Process) :
    (arriveP t p).remainingTime = p.remainingTime := by
  unfold arriveP; split <;> rfl

@[simp]
theorem arriveP_waitingTime (t : Int) (p : Process) :
    (arriveP t p).waitingTime = p.waitingTime := by
  unfold arriveP; split <;> rfl

@[simp]
theorem startP_pid (t : Int) (p : Process) : (startP t p).pid = p.pid := by
  simp only [startP]; split <;> rfl

@[simp]
theorem startP_arrivalTime (t : Int) (p : Process) :
    (startP t p).arrivalTime = p.arrivalTime := by
  simp only [startP]; split <;> rfl

@[simp]
theorem startP_burstTime (t : Int) (p : Process) :
    (startP t p).burstTime = p.burstTime := by
  simp only [startP]; split <;> rfl

@[simp]
theorem startP_remainingTime (t : Int) (p : Process) :
    (startP t p).remainingTime = p.remainingTime := by
  simp only [startP]; split <;> rfl

@[simp]
theorem startP_waitingTime (t : Int) (p : Process) :
    (startP t p).waitingTime = p.waitingTime := by
  simp only [startP]; split <;> rfl

@[simp]
theorem startP_state (t : Int) (p : Process) :
    (startP t p).state = ProcessState.RUNNING := by
  simp only [startP]; split <;> rfl

@[simp]
theorem execOne_pid (t : Int) (p : Process) : (execOne t p).pid = p.pid := by
  simp only [execOne]; split <;> rfl

@[simp]
theorem execOne_arrivalTime (t : Int) (p : Process) :
    (execOne t p).arrivalTime = p.arrivalTime := by
  simp only [execOne]; split <;> rfl

@[simp]
theorem execOne_burstTime (t : Int) (p : Process) :
    (execOne t p).burstTime = p.burstTime := by
  simp only [execOne]; split <;> rfl

@[simp]
theorem execOne_remainingTime (t : Int) (p : Process) :
    (execOne t p).remainingTime = p.remainingTime - 1 := by
  simp only [execOne]; split <;> rfl

@[simp]
theorem ageP_pid (p : Process) : (ageP p).pid = p.pid := by
  unfold ageP; split <;> rfl

@[simp]
theorem ageP_arrivalTime (p : Process) :
    (ageP p).arrivalTime = p.arrivalTime := by
  unfold ageP; split <;> rfl

@[simp]
theorem ageP_burstTime (p : Process) : (ageP p).burstTime = p.burstTime := by
  unfold ageP; split <;> rfl

@[simp]
theorem ageP_remainingTime (p : Process) :
    (ageP p).remainingTime = p.remainingTime := by
  unfold ageP; split <;> rfl

@[simp]
theorem ageP_state (p : Process) : (ageP p).state = p.state := by
  unfold ageP; split <;> rfl

@[simp]
theorem resetP_pid (p : Process) : (resetP p).pid = p.pid := rfl

@[simp]
theorem resetP_state (p : Process) : (resetP p).state = ProcessState.NEW := rfl

/-! ## Shape lemmas: explicit descriptions of each phase's branches -/

@[simp]
theorem checkArrivals_readyQueue (s : SchedulerState) :
    (checkArrivals s).readyQueue =
      s.readyQueue ++ newlyArrived s.currentTime s.processes := rfl

@[simp]
theorem checkArrivals_processes (s : SchedulerState) :
    (checkArrivals s).processes = s.processes.map (arriveP s.currentTime) := rfl

@[simp]
theorem checkArrivals_current (s : SchedulerState) :
    (checkArrivals s).current = s.current := rfl

@[simp]
theorem checkArrivals_currentTime (s : SchedulerState) :
    (checkArrivals s).currentTime = s.currentTime := rfl

@[simp]
theorem checkArrivals_timeQuantum (s : SchedulerState) :
    (checkArrivals s).timeQuantum = s.timeQuantum := rfl

@[simp]
theorem checkArrivals_quantumRemaining (s : SchedulerState) :
    (checkArrivals s).quantumRemaining = s.quantumRemaining := rfl

@[simp]
theorem updateProc_readyQueue (s : SchedulerState) (i : Nat) (f : Process → Process) :
    (updateProc s i f).readyQueue = s.readyQueue := rfl

@[simp]
theorem updateProc_current (s : SchedulerState) (i : Nat) (f : Process → Process) :
    (updateProc s i f).current = s.current := rfl

@[simp]
theorem updateProc_currentTime (s : SchedulerState) (i : Nat) (f : Process → Process) :
    (updateProc s i f).currentTime = s.currentTime := rfl

@[simp]
theorem updateProc_timeQuantum (s : SchedulerState) (i : Nat) (f : Process → Process) :
    (updateProc s i f).timeQuantum = s.timeQuantum := rfl

@[simp]
theorem updateProc_quantumRemaining (s : SchedulerState) (i : Nat) (f : Process → Process) :
    (updateProc s i f).quantumRemaining = s.quantumRemaining := rfl

@[simp]
theorem updateProc_processes (s : SchedulerState) (i : Nat) (f : Process → Process) :
    (updateProc s i f).processes =
      s.processes.map (fun p => if p.pid = i then f p else p) := rfl

@[simp]
theorem agePhase_processes (s : SchedulerState) :
    (agePhase s).processes = s.processes.map ageP := rfl

@[simp]
theorem agePhase_readyQueue (s : SchedulerState) :
    (agePhase s).readyQueue = s.readyQueue := rfl

@[simp]
theorem agePhase_current (s : SchedulerState) :
    (agePhase s).current = s.current := rfl

@[simp]
theorem agePhase_currentTime (s : SchedulerState) :
    (agePhase s).currentTime = s.currentTime := rfl

@[simp]
theorem agePhase_timeQuantum (s : SchedulerState) :
    (agePhase s).timeQuantum = s.timeQuantum := rfl

@[simp]
theorem agePhase_quantumRemaining (s : SchedulerState) :
    (agePhase s).quantumRemaining = s.quantumRemaining := rfl

@[simp]
theorem tickClock_processes (s : SchedulerState) :
    (tickClock s).processes = s.processes := rfl

@[simp]
theorem tickClock_readyQueue (s : SchedulerState) :
    (tickClock s).readyQueue = s.readyQueue := rfl

@[simp]
theorem tickClock_current (s : SchedulerState) :
    (tickClock s).current = s.current := rfl

@[simp]
theorem tickClock_currentTime (s : SchedulerState) :
    (tickClock s).currentTime = s.currentTime + 1 := rfl

@[simp]
theorem tickClock_timeQuantum (s : SchedulerState) :
    (tickClock s).timeQuantum = s.timeQuantum := rfl

@[simp]
theorem tickClock_quantumRemaining (s : SchedulerState) :
    (tickClock s).quantumRemaining = s.quantumRemaining := rfl

theorem dispatchFCFS_busy {s : SchedulerState} {c : Nat}
    (hc : s.current = some c) : dispatchFCFS s = s := by
  simp [dispatchFCFS, hc]

theorem dispatchFCFS_idle_empty {s : SchedulerState}
    (hc : s.current = none) (hq : s.readyQueue = []) : dispatchFCFS s = s := by
  simp [dispatchFCFS, hc, hq]

theorem dispatchFCFS_idle_pop {s : SchedulerState} {i : Nat} {rest : List Nat}
    (hc : s.current = none) (hq : s.readyQueue = i :: rest) :
    dispatchFCFS s =
      { (updateProc s i (startP s.currentTime)) with
          current := some i, readyQueue := rest } := by
  simp [dispatchFCFS, hc, hq]

theorem dispatchSJF_busy {s : SchedulerState} {c : Nat}
    (hc : s.current = some c) : dispatchSJF s = s := by
  simp [dispatchSJF, hc]

theorem dispatchSJF_empty {s : SchedulerState}
    (hq : s.readyQueue = []) : dispatchSJF s = s := by
  simp [dispatchSJF, hq]

theorem dispatchSJF_go {s : SchedulerState} {i : Nat} {rest : List Nat}
    (hc : s.current = none) (hq : s.readyQueue ≠ [])
    (hsel : selectFrom (burstOf s) s.readyQueue = some (i, rest)) :
    dispatchSJF s =
      { (updateProc s i (startP s.currentTime)) with
          current := some i, readyQueue := rest } := by
  simp [dispatchSJF, hc, hq, hsel]

theorem dispatchPrio_busy {s : SchedulerState} {c : Nat}
    (hc : s.current = some c) : dispatchPrio s = s := by
  simp [dispatchPrio, hc]

theorem dispatchPrio_empty {s : SchedulerState}
    (hq : s.readyQueue = []) : dispatchPrio s = s := by
  simp [dispatchPrio, hq]

theorem dispatchPrio_go {s : SchedulerState} {i : Nat} {rest : List Nat}
    (hc : s.current = none) (hq : s.readyQueue ≠ [])
    (hsel : selectFrom (prioOf s) s.readyQueue = some (i, rest)) :
    dispatchPrio s =
      { (updateProc s i (startP s.currentTime)) with
          current := some i, readyQueue := rest } := by
  simp [dispatchPrio, hc, hq, hsel]

theorem executePlain_none {s : SchedulerState}
    (hc : s.current = none) : executePlain s = s := by
  simp [executePlain, hc]

theorem executePlain_done {s : SchedulerState} {c : Nat}
    (hc : s.current = some c) (hd : remOf s c - 1 = 0) :
    executePlain s =
      { s with processes := s.processes.map
                 (fun p => if p.pid = c then execOne s.currentTime p else p),
               current := none } := by
  simp [executePlain, hc, hd]

theorem executePlain_cont {s : SchedulerState} {c : Nat}
    (hc : s.current = some c) (hd : remOf s c - 1 ≠ 0) :
    executePlain s =
      { s with processes := s.processes.map
                 (fun p => if p.pid = c then execOne s.currentTime p else p) } := by
  simp [executePlain, hc, hd]

theorem executeRR_none {s : SchedulerState}
    (hc : s.current = none) : executeRR s = s := by
  simp [executeRR, hc]

theorem executeRR_done {s : SchedulerState} {c : Nat}
    (hc : s.current = some c) (hd : remOf s c - 1 = 0) :
    executeRR s =
      { s with processes := s.processes.map
                 (fun p => if p.pid = c then execOne s.currentTime p else p),
               current := none, quantumRemaining := s.timeQuantum } := by
  simp [executeRR, hc, hd]

theorem executeRR_cont {s : SchedulerState} {c : Nat}
    (hc : s.current = some c) (hd : remOf s c - 1 ≠ 0) :
    executeRR s =
      { s with processes := s.processes.map
                 (fun p => if p.pid = c then execOne s.currentTime p else p),
               quantumRemaining := s.quantumRemaining - 1 } := by
  simp [executeRR, hc, hd]

theorem rrPreempt_none {s : SchedulerState}
    (hc : s.current = none) : rrPreempt s = s := by
  simp [rrPreempt, hc]

theorem rrPreempt_go {s : SchedulerState} {c : Nat}
    (hc : s.current = some c) (h0 : s.quantumRemaining = 0)
    (hrem : 0 < remOf s c) :
    rrPreempt s =
      { (updateProc s c (fun p => { p with state := ProcessState.READY })) with
          readyQueue := s.readyQueue ++ [c] } := by
  simp [rrPreempt, hc, h0, hrem]

theorem rrPreempt_skip {s : SchedulerState} {c : Nat}
    (hc : s.current = some c)
    (hg : ¬(s.quantumRemaining = 0 ∧ 0 < remOf s c)) :
    rrPreempt s = s := by
  simp only [rrPreempt, hc]
  rw [if_neg hg]

theorem rrSwitch_noswitch {s : SchedulerState}
    (h : ¬((s.current = none ∨ s.quantumRemaining = 0) ∧ s.readyQueue ≠ [])) :
    rrSwitch s = s := by
  simp only [rrSwitch]
  rw [if_neg h]

theorem rrSwitch_go_empty {s : SchedulerState}
    (hcond : (s.current = none ∨ s.quantumRemaining = 0) ∧ s.readyQueue ≠ [])
    (hq1 : (rrPreempt s).readyQueue = []) :
    rrSwitch s = rrPreempt s := by
  simp only [rrSwitch]
  rw [if_pos hcond]
  split
  · rfl
  · rename_i i rest heq
    rw [hq1] at heq
    exact absurd heq (by simp)

theorem rrSwitch_go_pop {s : SchedulerState} {i : Nat} {rest : List Nat}
    (hcond : (s.current = none ∨ s.quantumRemaining = 0) ∧ s.readyQueue ≠ [])
    (hq1 : (rrPreempt s).readyQueue = i :: rest) :
    rrSwitch s =
      { (updateProc (rrPreempt s) i (startP (rrPreempt s).currentTime)) with
          current := some i, readyQueue := rest,
          quantumRemaining := (rrPreempt s).timeQuantum } := by
  simp only [rrSwitch]
  rw [if_pos hcond]
  split
  · rename_i heq
    rw [hq1] at heq
    exact absurd heq (by simp)
  · rename_i i' rest' heq
    rw [hq1] at heq
    cases heq
    rfl

/-! ## Conservation invariant: preservation through every phase (claim C1) -/

theorem consP_arriveP (t : Int) (p : Process) (h : ConsP p) :
    ConsP (arriveP t p) := by
  unfold arriveP; split
  · intro hT; exact absurd hT (by simp)
  · exact h

theorem consP_startP (t : Int) (p : Process) : ConsP (startP t p) := by
  intro hT
  rw [startP_state] at hT
  exact absurd hT (by simp)

theorem consP_execOne (t : Int) (p : Process) (h : ConsP p) :
    ConsP (execOne t p) := by
  simp only [execOne]
  split
  · intro _; simp [sub_add_cancel]
  · exact h

theorem consP_ageP (p : Process) (h : ConsP p) : ConsP (ageP p) := by
  unfold ageP; split
  · intro hT; exact absurd hT (by simp_all)
  · exact h

theorem consP_readyP (p : Process) :
    ConsP { p with state := ProcessState.READY } := by
  intro hT; exact absurd hT (by simp)

/-- Transport of the conservation invariant through a state whose process
list is a pointwise image of another's. -/
theorem consInv_mapLike {s s' : SchedulerState} (F : Process → Process)
    (hss : s'.processes = s.processes.map F)
    (hF : ∀ p, ConsP p → ConsP (F p)) (h : ConservationInv s) :
    ConservationInv s' := by
  intro q hq
  rw [hss] at hq
  obtain ⟨p, hp, rfl⟩ := List.mem_map.1 hq
  exact hF p (h p hp)

theorem consInv_same {s s' : SchedulerState}
    (hss : s'.processes = s.processes) (h : ConservationInv s) :
    ConservationInv s' := by
  intro q hq; rw [hss] at hq; exact h q hq

theorem consInv_checkArrivals {s : SchedulerState} (h : ConservationInv s) :
    ConservationInv (checkArrivals s) :=
  consInv_mapLike (arriveP s.currentTime) rfl
    (fun p hp => consP_arriveP _ p hp) h

theorem consInv_dispatchFCFS {s : SchedulerState} (h : ConservationInv s) :
    ConservationInv (dispatchFCFS s) := by
  unfold dispatchFCFS
  split
  · match hq : s.readyQueue with
    | [] => exact h
    | i :: rest =>
      refine consInv_mapLike (fun p => if p.pid = i then startP s.currentTime p else p) rfl ?_ h
      intro p hp
      by_cases hpi : p.pid = i
      · simpa [hpi] using consP_startP s.currentTime p
      · simpa [hpi] using hp
  · exact h

theorem consInv_dispatchScan {s : SchedulerState} (key : Nat → Int)
    (sel : Option (Nat × List Nat)) (h : ConservationInv s) :
    ConservationInv
      (if s.current = none ∧ s.readyQueue ≠ [] then
        match sel with
        | none => s
        | some (i, rest) =>
          { (updateProc s i (startP s.currentTime)) with
              current := some i, readyQueue := rest }
       else s) := by
  split
  · match sel with
    | none => exact h
    | some (i, rest) =>
      refine consInv_mapLike (fun p => if p.pid = i then startP s.currentTime p else p) rfl ?_ h
      intro p hp
      by_cases hpi : p.pid = i
      · simpa [hpi] using consP_startP s.currentTime p
      · simpa [hpi] using hp
  · exact h

theorem consInv_dispatchSJF {s : SchedulerState} (h : ConservationInv s) :
    ConservationInv (dispatchSJF s) := by
  unfold dispatchSJF
  exact consInv_dispatchScan (burstOf s) (selectFrom (burstOf s) s.readyQueue) h

theorem consInv_dispatchPrio {s : SchedulerState} (h : ConservationInv s) :
    ConservationInv (dispatchPrio s) := by
  unfold dispatchPrio
  exact consInv_dispatchScan (prioOf s) (selectFrom (prioOf s) s.readyQueue) h

theorem consInv_rrPreempt {s : SchedulerState} (h : ConservationInv s) :
    ConservationInv (rrPreempt s) := by
  rcases hc : s.current with _ | c
  · rw [rrPreempt_none hc]; exact h
  · by_cases hg : s.quantumRemaining = 0 ∧ 0 < remOf s c
    · rw [rrPreempt_go hc hg.1 hg.2]
      refine consInv_mapLike
        (fun p => if p.pid = c then { p with state := ProcessState.READY } else p) rfl ?_ h
      intro p hp
      by_cases hpc : p.pid = c
      · simpa [hpc] using consP_readyP p
      · simpa [hpc] using hp
    · rw [rrPreempt_skip hc hg]; exact h

theorem consInv_rrSwitch {s : SchedulerState} (h : ConservationInv s) :
    ConservationInv (rrSwitch s) := by
  unfold rrSwitch
  split
  · have h1 := consInv_rrPreempt h
    match (rrPreempt s).readyQueue with
    | [] => exact h1
    | i :: rest =>
      refine consInv_mapLike
        (fun p => if p.pid = i then startP (rrPreempt s).currentTime p else p) rfl ?_ h1
      intro p hp
      by_cases hpi : p.pid = i
      · simpa [hpi] using consP_startP (rrPreempt s).currentTime p
      · simpa [hpi] using hp
  · exact h

theorem consInv_executePlain {s : SchedulerState} (h : ConservationInv s) :
    ConservationInv (executePlain s) := by
  unfold executePlain
  match s.current with
  | none => exact h
  | some c =>
    refine consInv_mapLike
      (fun p => if p.pid = c then execOne s.currentTime p else p) rfl ?_ h
    intro p hp
    by_cases hpc : p.pid = c
    · simpa [hpc] using consP_execOne s.currentTime p hp
    · simpa [hpc] using hp

theorem consInv_executeRR {s : SchedulerState} (h : ConservationInv s) :
    ConservationInv (executeRR s) := by
  unfold executeRR
  match s.current with
  | none => exact h
  | some c =>
    refine consInv_mapLike
      (fun p => if p.pid = c then execOne s.currentTime p else p) rfl ?_ h
    intro p hp
    by_cases hpc : p.pid = c
    · simpa [hpc] using consP_execOne s.currentTime p hp
    · simpa [hpc] using hp

theorem consInv_agePhase {s : SchedulerState} (h : ConservationInv s) :
    ConservationInv (agePhase s) :=
  consInv_mapLike ageP rfl (fun p hp => consP_ageP p hp) h

theorem consInv_tickClock {s : SchedulerState} (h : ConservationInv s) :
    ConservationInv (tickClock s) :=
  consInv_same rfl h

theorem consInv_fcfsStep {s : SchedulerState} (h : ConservationInv s) :
    ConservationInv (fcfsStep s) :=
  consInv_tickClock (consInv_agePhase (consInv_executePlain
    (consInv_dispatchFCFS (consInv_checkArrivals h))))

theorem consInv_sjfStep {s : SchedulerState} (h : ConservationInv s) :
    ConservationInv (sjfStep s) :=
  consInv_tickClock (consInv_agePhase (consInv_executePlain
    (consInv_dispatchSJF (consInv_checkArrivals h))))

theorem consInv_prioStep {s : SchedulerState} (h : ConservationInv s) :
    ConservationInv (prioStep s) :=
  consInv_tickClock (consInv_agePhase (consInv_executePlain
    (consInv_dispatchPrio (consInv_checkArrivals h))))

theorem consInv_rrStep {s : SchedulerState} (h : ConservationInv s) :
    ConservationInv (rrStep s) :=
  consInv_tickClock (consInv_agePhase (consInv_executeRR
    (consInv_rrSwitch (consInv_checkArrivals h))))

theorem consInv_runLoop (step : SchedulerState → SchedulerState)
    (hstep : ∀ s, ConservationInv s → ConservationInv (step s)) :
    ∀ (fuel : Nat) (s : SchedulerState), ConservationInv s →
      ConservationInv (runLoop step fuel s) := by
  intro fuel
  induction fuel with
  | zero => intro s h; exact h
  | succ n ih =>
    intro s h
    unfold runLoop
    split
    · exact hstep s h
    · exact ih (step s) (hstep s h)

theorem insertByArrival_perm (p : Process) (l : List Process) :
    (insertByArrival p l).Perm (p :: l) := by
  induction l with
  | nil => exact List.Perm.refl _
  | cons q qs ih =>
    unfold insertByArrival
    split
    · exact List.Perm.refl _
    · exact (ih.cons q).trans (List.Perm.swap p q qs)

theorem sortByArrival_perm (ps : List Process) :
    (sortByArrival ps).Perm ps := by
  induction ps with
  | nil => exact List.Perm.refl _
  | cons p qs ih =>
    exact (insertByArrival_perm p (sortByArrival qs)).trans (ih.cons p)

theorem mem_sortByArrival {q : Process} {ps : List Process} :
    q ∈ sortByArrival ps ↔ q ∈ ps :=
  (sortByArrival_perm ps).mem_iff

theorem consInv_fcfsInit (ps : List Process) : ConservationInv (fcfsInit ps) := by
  intro q hq
  have hq' : q ∈ (ps.map resetP) := by
    simpa [fcfsInit, mkState] using mem_sortByArrival.1 hq
  obtain ⟨p, _, rfl⟩ := List.mem_map.1 hq'
  intro hT
  exact absurd hT (by simp)

theorem consInv_plainInit (ps : List Process) : ConservationInv (plainInit ps) := by
  intro q hq
  obtain ⟨p, _, rfl⟩ := List.mem_map.1 (by simpa [plainInit, mkState] using hq)
  intro hT
  exact absurd hT (by simp)

theorem consInv_rrInit (tq : Int) (ps : List Process) :
    ConservationInv (rrInit tq ps) := by
  intro q hq
  obtain ⟨p, _, rfl⟩ := List.mem_map.1 (by simpa [rrInit, mkState] using hq)
  intro hT
  exact absurd hT (by simp)

/-- Claim C1: for every process set on which a run completes, and for each
of the four schedulers (FCFS, SJF, Round-Robin, Priority), every process
satisfies `turnaroundTime = waitingTime + burstTime` once it has reached
`TERMINATED`. -/
theorem spec_c1 (fuel : Nat) (tq : Int) (ps : List Process) :
    (allTerminated (fcfsRun fuel ps) = true →
      ∀ p ∈ (fcfsRun fuel ps).processes,
        p.turnaroundTime = p.waitingTime + p.burstTime) ∧
    (allTerminated (sjfRun fuel ps) = true →
      ∀ p ∈ (sjfRun fuel ps).processes,
        p.turnaroundTime = p.waitingTime + p.burstTime) ∧
    (allTerminated (rrRun fuel tq ps) = true →
      ∀ p ∈ (rrRun fuel tq ps).processes,
        p.turnaroundTime = p.waitingTime + p.burstTime) ∧
    (allTerminated (prioRun fuel ps) = true →
      ∀ p ∈ (prioRun fuel ps).processes,
        p.turnaroundTime = p.waitingTime + p.burstTime) := by
  refine ⟨fun hT p hp => ?_, fun hT p hp => ?_, fun hT p hp => ?_, fun hT p hp => ?_⟩
  · exact consInv_runLoop fcfsStep (fun _ h => consInv_fcfsStep h) fuel _
      (consInv_fcfsInit ps) p hp
      (by simpa using (List.all_eq_true.1 hT p hp))
  · exact consInv_runLoop sjfStep (fun _ h => consInv_sjfStep h) fuel _
      (consInv_plainInit ps) p hp
      (by simpa using (List.all_eq_true.1 hT p hp))
  · exact consInv_runLoop rrStep (fun _ h => consInv_rrStep h) fuel _
      (consInv_rrInit tq ps) p hp
      (by simpa using (List.all_eq_true.1 hT p hp))
  · exact consInv_runLoop prioStep (fun _ h => consInv_prioStep h) fuel _
      (consInv_plainInit ps) p hp
      (by simpa using (List.all_eq_true.1 hT p hp))

/-- Witness for C1: the FCFS end-to-end scenario completes within 12 ticks
and the conservation law holds for its final state. -/
theorem spec_c1_witness :
    allTerminated (fcfsRun 12 demoPs) = true ∧
    ∀ p ∈ (fcfsRun 12 demoPs).processes,
      p.turnaroundTime = p.waitingTime + p.burstTime :=
  ⟨by decide, (spec_c1 12 0 demoPs).1 (by decide)⟩

/-! ## Reference lookups through the phases -/

theorem find?_map_pid (F : Process → Process)
    (hF : ∀ p, (F p).pid = p.pid) (ps : List Process) (i : Nat) :
    (ps.map F).find? (fun p => p.pid == i) =
      (ps.find? (fun p => p.pid == i)).map F := by
  induction ps with
  | nil => rfl
  | cons q qs ih =>
    rw [List.map_cons, List.find?_cons, List.find?_cons, hF q]
    cases hqi : q.pid == i
    · simpa using ih
    · simp

theorem remOf_checkArrivals (s : SchedulerState) (i : Nat) :
    remOf (checkArrivals s) i = remOf s i := by
  unfold remOf procOf
  rw [checkArrivals_processes,
      find?_map_pid (arriveP s.currentTime) (arriveP_pid s.currentTime)]
  cases s.processes.find? (fun p => p.pid == i) <;> simp

/-! ## Claim C2: Round-Robin preemption discipline -/

/-- Counterexample for C2 as stated.  Under Round-Robin with quantum 2 on
`P1(arrival 0, burst 6)` and `P2(arrival 3, burst 2)`: after two iterations
`P1` has exhausted its quantum (counter 0) with 4 units of work left, so the
claim requires it to be preempted at that step; instead it keeps running
(its quantum counter goes negative), and two iterations later `P2` is ready
while `P1` is still `RUNNING` with counter `-2` — it has executed 4
consecutive units in a 2-unit slice and is never preempted at all (its
waiting time stays 0). -/
theorem spec_c2_counterexample :
    rrDemoS2.current = some 1 ∧
    rrDemoS2.quantumRemaining = 0 ∧
    remOf rrDemoS2 1 = 4 ∧
    (rrStep rrDemoS2).current = some 1 ∧
    stateOf (rrStep rrDemoS2) 1 = ProcessState.RUNNING ∧
    rrDemoS4.current = some 1 ∧
    rrDemoS4.quantumRemaining = -2 ∧
    remOf rrDemoS4 1 = 2 ∧
    rrDemoS4.readyQueue = [2] ∧
    stateOf rrDemoS4 2 = ProcessState.READY ∧
    waitingOf rrDemoS4 1 = 0 := by decide

/-- Claim C2 (amended): under Round-Robin, the running process is preempted
exactly when its quantum counter is 0 at the switch check, its remaining
time is > 0, **and the ready queue is non-empty**; the preempted process is
re-enqueued at the tail of the ready queue.  If the quantum counter is not 0
— in particular once it has gone negative after a quantum expired on an
empty ready queue — no preemption takes place and the process remains
current until the step in which its remaining time reaches 0. -/
theorem spec_c2_amended (s : SchedulerState) (c : Nat) :
    (∀ (h : Nat) (rest : List Nat),
      s.current = some c → s.quantumRemaining = 0 → 0 < remOf s c →
      (checkArrivals s).readyQueue = h :: rest →
      c ∉ (checkArrivals s).readyQueue →
        (rrSwitch (checkArrivals s)).readyQueue = rest ++ [c] ∧
        (rrSwitch (checkArrivals s)).current = some h ∧
        (∀ p ∈ (rrSwitch (checkArrivals s)).processes,
          p.pid = c → p.state = ProcessState.READY)) ∧
    (s.current = some c → s.quantumRemaining ≠ 0 →
        rrSwitch (checkArrivals s) = checkArrivals s) ∧
    (s.current = some c → (checkArrivals s).readyQueue = [] →
        rrSwitch (checkArrivals s) = checkArrivals s) ∧
    (s.current = some c → s.quantumRemaining < 0 →
        (remOf s c = 1 → (rrStep s).current = none) ∧
        (remOf s c ≠ 1 → (rrStep s).current = some c ∧
            (rrStep s).quantumRemaining = s.quantumRemaining - 1)) := by
  refine ⟨?_, ?_, ?_, ?_⟩
  · intro h rest hc h0 hrem hqa hnotin
    have hcond : ((checkArrivals s).current = none ∨
        (checkArrivals s).quantumRemaining = 0) ∧
        (checkArrivals s).readyQueue ≠ [] := by
      refine ⟨Or.inr ?_, ?_⟩
      · rw [checkArrivals_quantumRemaining]; exact h0
      · rw [hqa]; simp
    have hpre := rrPreempt_go
      (by rw [checkArrivals_current]; exact hc)
      (by rw [checkArrivals_quantumRemaining]; exact h0)
      (by rwa [remOf_checkArrivals])
    have hq1 : (rrPreempt (checkArrivals s)).readyQueue = h :: (rest ++ [c]) := by
      rw [hpre]
      show (checkArrivals s).readyQueue ++ [c] = h :: (rest ++ [c])
      rw [hqa]; rfl
    have hsw := rrSwitch_go_pop hcond hq1
    have hch : c ≠ h := by
      intro hch
      exact hnotin (by rw [hqa, hch]; exact List.mem_cons_self h rest)
    refine ⟨by rw [hsw], by rw [hsw], ?_⟩
    intro p hp hpc
    rw [hsw] at hp
    have hp' : p ∈ (rrPreempt (checkArrivals s)).processes.map
        (fun q => if q.pid = h then startP (rrPreempt (checkArrivals s)).currentTime q else q) := hp
    obtain ⟨q, hq, rfl⟩ := List.mem_map.1 hp'
    rw [hpre] at hq
    have hq'' : q ∈ (checkArrivals s).processes.map
        (fun r => if r.pid = c then { r with state := ProcessState.READY } else r) := hq
    obtain ⟨r, hr, rfl⟩ := List.mem_map.1 hq''
    by_cases hrc : r.pid = c
    · have h1 : (if r.pid = c then { r with state := ProcessState.READY } else r)
          = { r with state := ProcessState.READY } := by rw [if_pos hrc]
      rw [h1] at hpc ⊢
      have : ({ r with state := ProcessState.READY } : Process).pid ≠ h := by
        simpa using hrc ▸ hch
      rw [if_neg this]
    · have h1 : (if r.pid = c then { r with state := ProcessState.READY } else r) = r := by
        rw [if_neg hrc]
      rw [h1] at hpc ⊢
      by_cases hrh : r.pid = h
      · rw [if_pos hrh] at hpc
        exact absurd (by simpa using hpc) hrc
      · rw [if_neg hrh] at hpc
        exact absurd hpc hrc
  · intro hc hqr
    apply rrSwitch_noswitch
    rintro ⟨hor, -⟩
    rcases hor with hn | h0
    · rw [checkArrivals_current, hc] at hn; exact Option.noConfusion hn
    · rw [checkArrivals_quantumRemaining] at h0; exact hqr h0
  · intro hc hq
    apply rrSwitch_noswitch
    rintro ⟨-, hne⟩
    exact hne hq
  · intro hc hqr
    have hns : rrSwitch (checkArrivals s) = checkArrivals s := by
      apply rrSwitch_noswitch
      rintro ⟨hor, -⟩
      rcases hor with hn | h0
      · rw [checkArrivals_current, hc] at hn; exact Option.noConfusion hn
      · rw [checkArrivals_quantumRemaining] at h0; omega
    constructor
    · intro hone
      have hd : remOf (checkArrivals s) c - 1 = 0 := by
        rw [remOf_checkArrivals, hone]; decide
      have := executeRR_done
        (by rw [checkArrivals_current]; exact hc) hd
      show (tickClock (agePhase (executeRR (rrSwitch (checkArrivals s))))).current = none
      rw [hns, tickClock_current, agePhase_current, this]
    · intro hone
      have hd : remOf (checkArrivals s) c - 1 ≠ 0 := by
        rw [remOf_checkArrivals]; omega
      have hex := executeRR_cont
        (by rw [checkArrivals_current]; exact hc) hd
      constructor
      · show (tickClock (agePhase (executeRR (rrSwitch (checkArrivals s))))).current = some c
        rw [hns, tickClock_current, agePhase_current, hex,
            checkArrivals_current]
        exact hc
      · show (tickClock (agePhase (executeRR (rrSwitch (checkArrivals s))))).quantumRemaining
            = s.quantumRemaining - 1
        rw [hns, tickClock_quantumRemaining, agePhase_quantumRemaining, hex]
        rfl

/-- Witness for the amended C2: in the Round-Robin (quantum 2) run on
`P1(0,4)`, `P2(0,9)`, `P1`'s quantum expires at time 2 with `P2` ready, and
the step preempts `P1` to the tail of the queue while dispatching `P2`. -/
theorem spec_c2_amended_witness :
    fairS2.current = some 1 ∧ fairS2.quantumRemaining = 0 ∧
    0 < remOf fairS2 1 ∧
    (checkArrivals fairS2).readyQueue = [2] ∧
    (1 : Nat) ∉ (checkArrivals fairS2).readyQueue ∧
    ((rrSwitch (checkArrivals fairS2)).readyQueue = [] ++ [1] ∧
     (rrSwitch (checkArrivals fairS2)).current = some 2 ∧
     (∀ p ∈ (rrSwitch (checkArrivals fairS2)).processes,
        p.pid = 1 → p.state = ProcessState.READY)) :=
  ⟨by decide, by decide, by decide, by decide, by decide,
   (spec_c2_amended fairS2 1).1 2 [] (by decide) (by decide) (by decide)
     (by decide) (by decide)⟩

/-! ## Claim C7: the SJF selection rule -/

theorem procOf_pid {s : SchedulerState} {i : Nat} {p : Process}
    (h : procOf s i = some p) : p.pid = i := by
  unfold procOf at h
  have := List.find?_some h
  simpa using this

theorem procOf_map (s s' : SchedulerState) (F : Process → Process)
    (hss : s'.processes = s.processes.map F)
    (hF : ∀ p, (F p).pid = p.pid) (i : Nat) :
    procOf s' i = (procOf s i).map F := by
  unfold procOf
  rw [hss, find?_map_pid F hF]

theorem execOne_state_done {t : Int} {p : Process}
    (h : p.remainingTime - 1 = 0) :
    (execOne t p).state = ProcessState.TERMINATED := by
  simp [execOne, h]

/-- The scan kept in `selectGo` returns the first entry (candidate
included) attaining the minimum key: everything strictly before it has a
strictly larger key, everything after it a larger-or-equal key. -/
theorem selectGo_spec (key : Nat → Int) :
    ∀ (l : List Nat) (c : Nat) (temp : List Nat) (m : Nat) (r : List Nat),
      selectGo key c temp l = (m, r) →
      ∃ l1 l2, c :: l = l1 ++ m :: l2 ∧ (∀ j ∈ l1, key m < key j) ∧
        (∀ j ∈ l2, key m ≤ key j) := by
  intro l
  induction l with
  | nil =>
    intro c temp m r hsel
    cases hsel
    exact ⟨[], [], rfl, by simp, by simp⟩
  | cons i rest ih =>
    intro c temp m r hsel
    rw [selectGo] at hsel
    by_cases hlt : key i < key c
    · rw [if_pos hlt] at hsel
      obtain ⟨l1, l2, heq, hfore, haft⟩ := ih i (temp ++ [c]) m r hsel
      have hmi : key m ≤ key i := by
        cases l1 with
        | nil =>
          simp only [List.nil_append] at heq
          injection heq with h1 h2
          rw [h1]
        | cons a l1' =>
          simp only [List.cons_append] at heq
          injection heq with h1 h2
          rw [h1]
          exact le_of_lt (hfore a (List.mem_cons_self a l1'))
      refine ⟨c :: l1, l2, by rw [List.cons_append, ← heq], ?_, haft⟩
      intro j hj
      rcases List.mem_cons.1 hj with rfl | hj'
      · exact lt_of_le_of_lt hmi hlt
      · exact hfore j hj'
    · rw [if_neg hlt] at hsel
      obtain ⟨l1, l2, heq, hfore, haft⟩ := ih c (temp ++ [i]) m r hsel
      cases l1 with
      | nil =>
        simp only [List.nil_append] at heq
        injection heq with h1 h2
        refine ⟨[], i :: rest, by rw [List.nil_append, h1], by simp, ?_⟩
        intro j hj
        rcases List.mem_cons.1 hj with rfl | hj'
        · rw [← h1]; exact le_of_not_lt hlt
        · rw [h2] at hj'; exact haft j hj'
      | cons a l1' =>
        simp only [List.cons_append] at heq
        injection heq with h1 h2
        have hmc : key m < key c := by
          rw [h1]; exact hfore a (List.mem_cons_self a l1')
        refine ⟨c :: i :: l1', l2, ?_, ?_, haft⟩
        · rw [h2]; rfl
        · intro j hj
          rcases List.mem_cons.1 hj with rfl | hj'
          · exact hmc
          rcases List.mem_cons.1 hj' with rfl | hj''
          · exact lt_of_lt_of_le hmc (le_of_not_lt hlt)
          · exact hfore j (List.mem_cons_of_mem a hj'')

/-- The full scan on a non-empty queue: it succeeds and returns the first
entry attaining the minimum key. -/
theorem selectFrom_spec (key : Nat → Int) (l : List Nat) (hne : l ≠ []) :
    ∃ m r, selectFrom key l = some (m, r) ∧
      ∃ l1 l2, l = l1 ++ m :: l2 ∧ (∀ j ∈ l1, key m < key j) ∧
        (∀ j ∈ l2, key m ≤ key j) := by
  match l, hne with
  | i :: rest, _ =>
    rcases hgo : selectGo key i [] rest with ⟨m, r⟩
    obtain ⟨l1, l2, heq, hfore, haft⟩ := selectGo_spec key rest i [] m r hgo
    exact ⟨m, r, by rw [selectFrom, hgo], l1, l2, heq, hfore, haft⟩

/-- Claim C7: under SJF, at each dispatch decision the scheduler scans the
entire ready queue and selects the process with minimum burst time, ties
broken in favour of the first process reaching the minimum in ready-queue
order; and the chosen process then runs to completion without preemption
(the CPU is never taken from a running process before its remaining time
reaches 0, at which point it terminates). -/
theorem spec_c7 (s : SchedulerState) :
    (s.current = none → s.readyQueue ≠ [] →
      ∃ m r, selectFrom (burstOf s) s.readyQueue = some (m, r) ∧
        dispatchSJF s =
          { (updateProc s m (startP s.currentTime)) with
              current := some m, readyQueue := r } ∧
        ∃ l1 l2, s.readyQueue = l1 ++ m :: l2 ∧
          (∀ j ∈ l1, burstOf s m < burstOf s j) ∧
          (∀ j ∈ l2, burstOf s m ≤ burstOf s j)) ∧
    (∀ c, s.current = some c → remOf s c - 1 ≠ 0 →
        (sjfStep s).current = some c) ∧
    (∀ c, s.current = some c → remOf s c - 1 = 0 →
        (sjfStep s).current = none ∧
        stateOf (sjfStep s) c = ProcessState.TERMINATED) := by
  refine ⟨?_, ?_, ?_⟩
  · intro hc hne
    obtain ⟨m, r, hsel, l1, l2, heq, hfore, haft⟩ :=
      selectFrom_spec (burstOf s) s.readyQueue hne
    exact ⟨m, r, hsel, dispatchSJF_go hc hne hsel, l1, l2, heq, hfore, haft⟩
  · intro c hc hrem
    have hbusy : dispatchSJF (checkArrivals s) = checkArrivals s :=
      dispatchSJF_busy (by rw [checkArrivals_current]; exact hc)
    have hcont := executePlain_cont
      (by rw [checkArrivals_current]; exact hc)
      (by rw [remOf_checkArrivals]; exact hrem)
    show (tickClock (agePhase (executePlain (dispatchSJF (checkArrivals s))))).current = some c
    rw [tickClock_current, agePhase_current, hbusy, hcont]
    show (checkArrivals s).current = some c
    rw [checkArrivals_current]
    exact hc
  · intro c hc hrem
    have hbusy : dispatchSJF (checkArrivals s) = checkArrivals s :=
      dispatchSJF_busy (by rw [checkArrivals_current]; exact hc)
    have hdone := executePlain_done
      (by rw [checkArrivals_current]; exact hc)
      (by rw [remOf_checkArrivals]; exact hrem)
    constructor
    · show (tickClock (agePhase (executePlain (dispatchSJF (checkArrivals s))))).current = none
      rw [tickClock_current, agePhase_current, hbusy, hdone]
    · obtain ⟨p, hp⟩ : ∃ p, procOf s c = some p := by
        cases hpo : procOf s c with
        | none =>
          exfalso
          unfold remOf at hrem
          rw [hpo] at hrem
          simp at hrem
        | some p => exact ⟨p, rfl⟩
      have hpid := procOf_pid hp
      have hArem : (arriveP s.currentTime p).remainingTime - 1 = 0 := by
        rw [arriveP_remainingTime]
        unfold remOf at hrem
        rw [hp] at hrem
        simpa using hrem
      have hA : procOf (checkArrivals s) c = some (arriveP s.currentTime p) := by
        rw [procOf_map s (checkArrivals s) (arriveP s.currentTime) rfl
              (arriveP_pid s.currentTime) c, hp]
        rfl
      have hE : procOf (executePlain (checkArrivals s)) c =
          some (execOne (checkArrivals s).currentTime (arriveP s.currentTime p)) := by
        rw [hdone]
        rw [procOf_map (checkArrivals s)
              ({ checkArrivals s with
                  processes := (checkArrivals s).processes.map
                    (fun p => if p.pid = c then execOne (checkArrivals s).currentTime p else p),
                  current := none })
              (fun p => if p.pid = c then execOne (checkArrivals s).currentTime p else p)
              rfl
              (fun p => by by_cases hq : p.pid = c <;> simp [hq]) c, hA]
        have hpc : (arriveP s.currentTime p).pid = c := by rw [arriveP_pid]; exact hpid
        show some (if (arriveP s.currentTime p).pid = c
            then execOne (checkArrivals s).currentTime (arriveP s.currentTime p)
            else arriveP s.currentTime p) = _
        rw [if_pos hpc]
      have hfinal : procOf (sjfStep s) c =
          some (ageP (execOne (checkArrivals s).currentTime (arriveP s.currentTime p))) := by
        show procOf (tickClock (agePhase (executePlain (dispatchSJF (checkArrivals s))))) c = _
        rw [hbusy]
        have h1 : procOf (tickClock (agePhase (executePlain (checkArrivals s)))) c =
            (procOf (executePlain (checkArrivals s)) c).map ageP := by
          refine procOf_map (executePlain (checkArrivals s)) _ ageP ?_ ageP_pid c
          rw [tickClock_processes, agePhase_processes]
        rw [h1, hE]
        rfl
      unfold stateOf
      rw [hfinal]
      show (ageP (execOne (checkArrivals s).currentTime (arriveP s.currentTime p))).state
          = ProcessState.TERMINATED
      rw [ageP_state]
      exact execOne_state_done hArem

/-- Witness for C7: with simultaneous arrivals of bursts 5, 3, 3 the SJF
scan dispatches pid 2, the first process attaining the minimum burst. -/
theorem spec_c7_witness :
    (checkArrivals (plainInit sjfDemo)).current = none ∧
    (checkArrivals (plainInit sjfDemo)).readyQueue ≠ [] ∧
    (dispatchSJF (checkArrivals (plainInit sjfDemo))).current = some 2 ∧
    (∃ m r, selectFrom (burstOf (checkArrivals (plainInit sjfDemo)))
        (checkArrivals (plainInit sjfDemo)).readyQueue = some (m, r) ∧
      dispatchSJF (checkArrivals (plainInit sjfDemo)) =
        { (updateProc (checkArrivals (plainInit sjfDemo)) m
            (startP (checkArrivals (plainInit sjfDemo)).currentTime)) with
            current := some m, readyQueue := r } ∧
      ∃ l1 l2, (checkArrivals (plainInit sjfDemo)).readyQueue = l1 ++ m :: l2 ∧
        (∀ j ∈ l1, burstOf (checkArrivals (plainInit sjfDemo)) m <
            burstOf (checkArrivals (plainInit sjfDemo)) j) ∧
        (∀ j ∈ l2, burstOf (checkArrivals (plainInit sjfDemo)) m ≤
            burstOf (checkArrivals (plainInit sjfDemo)) j)) :=
  ⟨by decide, by decide, by decide,
   (spec_c7 (checkArrivals (plainInit sjfDemo))).1 (by decide) (by decide)⟩

/-! ## Claim C6: addProcess -/

/-- Claim C6: `addProcess` returns `false` and leaves the process set and
the registered count unchanged when given a null process or a process whose
id already exists in the set; otherwise it appends the process, increments
the registered count, and returns `true`. -/
theorem spec_c6 (s : SchedulerState) (op : Option Process) :
    (op = none → addProcess s op = (false, s)) ∧
    (∀ p, op = some p →
      ((∃ q ∈ s.processes, q.pid = p.pid) → addProcess s op = (false, s)) ∧
      ((∀ q ∈ s.processes, q.pid ≠ p.pid) →
        addProcess s op =
          (true, { s with processes := s.processes ++ [p],
                          totalProcesses := s.totalProcesses + 1 }))) := by
  constructor
  · rintro rfl; rfl
  · rintro p rfl
    constructor
    · rintro ⟨q, hq, hpid⟩
      have hAny : s.processes.any (fun q => q.pid == p.pid) = true :=
        List.any_eq_true.2 ⟨q, hq, by simpa using hpid⟩
      simp [addProcess, hAny]
    · intro hno
      have hAny : s.processes.any (fun q => q.pid == p.pid) = false := by
        rw [List.any_eq_false]
        intro q hq
        simpa using hno q hq
      simp [addProcess, hAny]

/-- Witness for C6: on a fresh empty scheduler, adding a process succeeds
and appends it; adding it again is rejected with the state unchanged; a
null handle is rejected. -/
theorem spec_c6_witness :
    addProcess (plainInit []) none = (false, plainInit []) ∧
    addProcess (plainInit []) (some demoP1) =
      (true, { plainInit [] with
                 processes := (plainInit []).processes ++ [demoP1],
                 totalProcesses := (plainInit []).totalProcesses + 1 }) ∧
    addProcess { plainInit [] with processes := [demoP1] } (some demoP1) =
      (false, { plainInit [] with processes := [demoP1] }) :=
  ⟨(spec_c6 (plainInit []) none).1 rfl,
   ((spec_c6 (plainInit []) (some demoP1)).2 demoP1 rfl).2 (by decide),
   ((spec_c6 { plainInit [] with processes := [demoP1] } (some demoP1)).2
       demoP1 rfl).1 ⟨demoP1, by decide, rfl⟩⟩

/-! ## Claim C9: the FCFS end-to-end scenario -/

/-- Claim C9: under FCFS, for `P1(arrival 0, burst 5)` and
`P2(arrival 1, burst 3)`, `P1` runs over `[0,5)` and `P2` over `[5,8)`
(shown by the per-tick dispatch trace and the total elapsed time 8), and
the final metrics are `P1`: waiting 0, turnaround 5; `P2`: waiting 4,
turnaround 7. -/
theorem spec_c9 :
    allTerminated (fcfsRun 12 demoPs) = true ∧
    (fcfsRun 12 demoPs).currentTime = 8 ∧
    (List.range 8).map
        (fun m => whoRunsFCFS (stepN fcfsStep m (fcfsInit demoPs))) =
      List.replicate 5 (some 1) ++ List.replicate 3 (some 2) ∧
    startOf (fcfsRun 12 demoPs) 1 = 0 ∧
    waitingOf (fcfsRun 12 demoPs) 1 = 0 ∧
    turnaroundOf (fcfsRun 12 demoPs) 1 = 5 ∧
    startOf (fcfsRun 12 demoPs) 2 = 5 ∧
    waitingOf (fcfsRun 12 demoPs) 2 = 4 ∧
    turnaroundOf (fcfsRun 12 demoPs) 2 = 7 := by decide

/-! ## Claim C10: average accessors on an empty scheduler -/

/-- Claim C10: when the scheduler holds no processes (registered count 0),
the three average accessors return 0 (the guarded branch) instead of
dividing by the process count. -/
theorem spec_c10 (s : SchedulerState) (h : s.totalProcesses = 0) :
    getAverageWaitingTime s = 0 ∧ getAverageTurnaroundTime s = 0 ∧
    getAverageResponseTime s = 0 := by
  unfold getAverageWaitingTime getAverageTurnaroundTime getAverageResponseTime
  rw [h]
  norm_num

/-- Witness for C10: the empty scheduler state. -/
theorem spec_c10_witness :
    (plainInit []).totalProcesses = 0 ∧
    (getAverageWaitingTime (plainInit []) = 0 ∧
     getAverageTurnaroundTime (plainInit []) = 0 ∧
     getAverageResponseTime (plainInit []) = 0) :=
  ⟨by decide, spec_c10 (plainInit []) (by decide)⟩

/-! ## Well-formedness machinery: list-level helpers -/

theorem pid_injective {ps : List Process}
    (hnd : (ps.map Process.pid).Nodup) :
    ∀ p ∈ ps, ∀ q ∈ ps, p.pid = q.pid → p = q := by
  induction ps with
  | nil => intro p hp; cases hp
  | cons a l ih =>
    rw [List.map_cons, List.nodup_cons] at hnd
    intro p hp q hq hpq
    rcases List.mem_cons.1 hp with rfl | hp' <;>
      rcases List.mem_cons.1 hq with rfl | hq'
    · rfl
    · exact absurd (hpq ▸ List.mem_map_of_mem Process.pid hq') hnd.1
    · exact absurd (hpq ▸ List.mem_map_of_mem Process.pid hp') hnd.1
    · exact ih hnd.2 p hp' q hq' hpq

theorem find?_pid_eq {ps : List Process} {p : Process} {i : Nat}
    (hnd : (ps.map Process.pid).Nodup) (hp : p ∈ ps) (hpid : p.pid = i) :
    ps.find? (fun q => q.pid == i) = some p := by
  induction ps with
  | nil => cases hp
  | cons a l ih =>
    rw [List.map_cons, List.nodup_cons] at hnd
    rcases List.mem_cons.1 hp with rfl | hp'
    · rw [List.find?_cons]
      have hb : (p.pid == i) = true := by simp [hpid]
      rw [hb]
    · have hne : a.pid ≠ i := by
        intro hai
        exact hnd.1 (by
          rw [hai, ← hpid]
          exact List.mem_map_of_mem Process.pid hp')
      rw [List.find?_cons]
      have hb : (a.pid == i) = false := by simp [hne]
      rw [hb]
      show l.find? (fun q => q.pid == i) = some p
      exact ih hnd.2 hp'

theorem procOf_eq_of_mem {s : SchedulerState} {p : Process} {i : Nat}
    (hnd : (s.processes.map Process.pid).Nodup) (hp : p ∈ s.processes)
    (hpid : p.pid = i) : procOf s i = some p :=
  find?_pid_eq hnd hp hpid

theorem map_pid_comp {ps : List Process} {F : Process → Process}
    (hF : ∀ p, (F p).pid = p.pid) :
    (ps.map F).map Process.pid = ps.map Process.pid := by
  rw [List.map_map]
  induction ps with
  | nil => rfl
  | cons a l ih => simp only [List.map_cons, ih]; rw [Function.comp_apply, hF a]

theorem mem_newlyArrived {t : Int} {ps : List Process} {i : Nat} :
    i ∈ newlyArrived t ps ↔
      ∃ p ∈ ps, p.pid = i ∧ p.state = ProcessState.NEW ∧
        p.arrivalTime ≤ t := by
  unfold newlyArrived
  rw [List.mem_map]
  constructor
  · rintro ⟨p, hpf, rfl⟩
    rw [List.mem_filter] at hpf
    exact ⟨p, hpf.1, rfl, by simpa using hpf.2⟩
  · rintro ⟨p, hp, rfl, hnew, harr⟩
    exact ⟨p, List.mem_filter.2 ⟨hp, by simp [hnew, harr]⟩, rfl⟩

theorem newlyArrived_nodup {t : Int} {ps : List Process}
    (hnd : (ps.map Process.pid).Nodup) : (newlyArrived t ps).Nodup := by
  unfold newlyArrived
  exact hnd.sublist ((List.filter_sublist ps).map Process.pid)

/-! ## Well-formedness: the arrival phase -/

theorem midInv_checkArrivals {s : SchedulerState} (h : EngineInv s) :
    MidInv (checkArrivals s) := by
  have hnd := h.pidNodup
  have hinj := pid_injective hnd
  refine
    { pidNodup := ?_, queueRes := ?_, queueNodup := ?_, readyInQueue := ?_,
      readyRem := ?_, newBound := ?_, noWaiting := ?_, validFields := ?_,
      arrived := ?_, termRem := ?_, acct := ?_, curRes := ?_,
      curNotInQueue := ?_, runningCur := ?_ }
  · rw [checkArrivals_processes, map_pid_comp (arriveP_pid s.currentTime)]
    exact hnd
  · intro i hi
    rw [checkArrivals_readyQueue] at hi
    rw [checkArrivals_processes]
    rcases List.mem_append.1 hi with hi0 | hinew
    · obtain ⟨p, hp, hpid, hst⟩ := h.queueRes i hi0
      refine ⟨arriveP s.currentTime p, List.mem_map_of_mem _ hp, ?_, ?_⟩
      · rw [arriveP_pid]; exact hpid
      · unfold arriveP; rw [if_neg (by simp [hst])]; exact hst
    · obtain ⟨p, hp, hpid, hnew, harr⟩ := mem_newlyArrived.1 hinew
      refine ⟨arriveP s.currentTime p, List.mem_map_of_mem _ hp, ?_, ?_⟩
      · rw [arriveP_pid]; exact hpid
      · unfold arriveP; rw [if_pos ⟨hnew, harr⟩]
  · rw [checkArrivals_readyQueue]
    rw [List.nodup_append]
    refine ⟨h.queueNodup, newlyArrived_nodup hnd, ?_⟩
    intro i hi0 hinew
    obtain ⟨p, hp, hpid, hst⟩ := h.queueRes i hi0
    obtain ⟨q, hq, hqpid, hqnew, _⟩ := mem_newlyArrived.1 hinew
    have : p = q := hinj p hp q hq (by rw [hpid, hqpid])
    rw [this, hqnew] at hst
    exact ProcessState.noConfusion hst
  · intro p' hp' hst
    rw [checkArrivals_processes] at hp'
    obtain ⟨p, hp, rfl⟩ := List.mem_map.1 hp'
    rw [checkArrivals_readyQueue]
    unfold arriveP at hst ⊢
    by_cases hcase : p.state = ProcessState.NEW ∧ p.arrivalTime ≤ s.currentTime
    · rw [if_pos hcase]
      show p.pid ∈ _
      exact List.mem_append.2 (Or.inr (mem_newlyArrived.2
        ⟨p, hp, rfl, hcase.1, hcase.2⟩))
    · rw [if_neg hcase] at hst
      rw [if_neg hcase]
      exact List.mem_append.2 (Or.inl (h.readyInQueue p hp hst))
  · intro p' hp' hst
    rw [checkArrivals_processes] at hp'
    obtain ⟨p, hp, rfl⟩ := List.mem_map.1 hp'
    rw [arriveP_remainingTime]
    unfold arriveP at hst
    by_cases hcase : p.state = ProcessState.NEW ∧ p.arrivalTime ≤ s.currentTime
    · have := (h.newBound p hp hcase.1).2.1
      rw [this]
      exact (h.validFields p hp).1
    · rw [if_neg hcase] at hst
      exact h.readyRem p hp hst
  · intro p' hp' hst
    rw [checkArrivals_processes] at hp'
    obtain ⟨p, hp, rfl⟩ := List.mem_map.1 hp'
    unfold arriveP at hst
    by_cases hcase : p.state = ProcessState.NEW ∧ p.arrivalTime ≤ s.currentTime
    · rw [if_pos hcase] at hst
      exact ProcessState.noConfusion hst
    · rw [if_neg hcase] at hst
      have hb := h.newBound p hp hst
      have : ¬p.arrivalTime ≤ s.currentTime := fun harr => hcase ⟨hst, harr⟩
      refine ⟨?_, ?_, ?_⟩
      · rw [checkArrivals_currentTime, arriveP_arrivalTime]; omega
      · rw [arriveP_remainingTime, arriveP_burstTime]; exact hb.2.1
      · rw [arriveP_waitingTime]; exact hb.2.2
  · intro p' hp'
    rw [checkArrivals_processes] at hp'
    obtain ⟨p, hp, rfl⟩ := List.mem_map.1 hp'
    unfold arriveP
    split
    · simp
    · exact h.noWaiting p hp
  · intro p' hp'
    rw [checkArrivals_processes] at hp'
    obtain ⟨p, hp, rfl⟩ := List.mem_map.1 hp'
    rw [arriveP_burstTime, arriveP_arrivalTime]
    exact h.validFields p hp
  · intro p' hp' hst
    rw [checkArrivals_processes] at hp'
    obtain ⟨p, hp, rfl⟩ := List.mem_map.1 hp'
    rw [checkArrivals_currentTime, arriveP_arrivalTime]
    unfold arriveP at hst
    by_cases hcase : p.state = ProcessState.NEW ∧ p.arrivalTime ≤ s.currentTime
    · exact hcase.2
    · rw [if_neg hcase] at hst
      exact h.arrived p hp hst
  · intro p' hp' hst
    rw [checkArrivals_processes] at hp'
    obtain ⟨p, hp, rfl⟩ := List.mem_map.1 hp'
    unfold arriveP at hst
    by_cases hcase : p.state = ProcessState.NEW ∧ p.arrivalTime ≤ s.currentTime
    · rw [if_pos hcase] at hst
      exact ProcessState.noConfusion hst
    · rw [if_neg hcase] at hst
      have := h.termRem p hp hst
      unfold arriveP
      rw [if_neg hcase, checkArrivals_currentTime]
      exact this
  · intro p' hp' hst
    rw [checkArrivals_processes] at hp'
    obtain ⟨p, hp, rfl⟩ := List.mem_map.1 hp'
    rw [checkArrivals_currentTime, arriveP_waitingTime, arriveP_arrivalTime,
        arriveP_burstTime, arriveP_remainingTime]
    unfold arriveP at hst
    by_cases hcase : p.state = ProcessState.NEW ∧ p.arrivalTime ≤ s.currentTime
    · have hb := h.newBound p hp hcase.1
      have harr2 : s.currentTime + 0 ≤ p.arrivalTime := hb.1
      have : p.arrivalTime = s.currentTime := le_antisymm hcase.2 (by omega)
      rw [hb.2.2, hb.2.1, this]
      ring
    · rw [if_neg hcase] at hst
      exact h.acct p hp hst
  · intro c hc
    rw [checkArrivals_current] at hc
    obtain ⟨p, hp, hpid, hst, hrem⟩ := h.curRes c hc
    rw [checkArrivals_processes]
    refine ⟨arriveP s.currentTime p, List.mem_map_of_mem _ hp, ?_, ?_, ?_⟩
    · rw [arriveP_pid]; exact hpid
    · unfold arriveP; rw [if_neg (by simp [hst])]; exact hst
    · rw [arriveP_remainingTime]; exact hrem
  · intro c hc hmem
    rw [checkArrivals_current] at hc
    rw [checkArrivals_readyQueue] at hmem
    rcases List.mem_append.1 hmem with hm0 | hmnew
    · exact h.curNotInQueue c hc hm0
    · obtain ⟨q, hq, hqpid, hqnew, _⟩ := mem_newlyArrived.1 hmnew
      obtain ⟨p, hp, hpid, hst, _⟩ := h.curRes c hc
      have : p = q := pid_injective hnd p hp q hq (by rw [hpid, hqpid])
      rw [this, hqnew] at hst
      exact ProcessState.noConfusion hst
  · intro p' hp' hst
    rw [checkArrivals_processes] at hp'
    obtain ⟨p, hp, rfl⟩ := List.mem_map.1 hp'
    unfold arriveP at hst
    by_cases hcase : p.state = ProcessState.NEW ∧ p.arrivalTime ≤ s.currentTime
    · rw [if_pos hcase] at hst
      exact ProcessState.noConfusion hst
    · rw [if_neg hcase] at hst
      rw [checkArrivals_current]
      have := h.runningCur p hp hst
      rw [this]
      unfold arriveP
      rw [if_neg hcase]

/-! ## Well-formedness: the shared pop-and-start dispatch -/

/-- All four dispatch blocks end by removing a ready pid `m` from the
queue (leaving `r`), marking it `RUNNING` with the start bookkeeping, and
making it current; this preserves well-formedness provided no process is
`RUNNING` in the pre-dispatch state. -/
theorem dispatchCore_inv (s0 : SchedulerState) (m : Nat) (r : List Nat)
    (hq : QueueInv 1 s0)
    (hperm : (m :: r).Perm s0.readyQueue)
    (hnorun : ∀ p ∈ s0.processes, p.state ≠ ProcessState.RUNNING) :
    MidInv ({ (updateProc s0 m (startP s0.currentTime)) with
                current := some m, readyQueue := r }) := by
  have hnd := hq.pidNodup
  have hinj := pid_injective hnd
  have hmem : m ∈ s0.readyQueue := hperm.subset (List.mem_cons_self m r)
  obtain ⟨pm, hpm, hpmid, hpmst⟩ := hq.queueRes m hmem
  have hmrNodup : (m :: r).Nodup := hperm.nodup_iff.2 hq.queueNodup
  have hmr : m ∉ r := (List.nodup_cons.1 hmrNodup).1
  have hrnodup : r.Nodup := (List.nodup_cons.1 hmrNodup).2
  have hrsub : ∀ i ∈ r, i ∈ s0.readyQueue := fun i hi =>
    hperm.subset (List.mem_cons_of_mem m hi)
  have hqiff : ∀ i, i ∈ s0.readyQueue ↔ i ∈ m :: r := fun i =>
    (hperm.mem_iff).symm
  refine
    { pidNodup := ?_, queueRes := ?_, queueNodup := ?_, readyInQueue := ?_,
      readyRem := ?_, newBound := ?_, noWaiting := ?_, validFields := ?_,
      arrived := ?_, termRem := ?_, acct := ?_, curRes := ?_,
      curNotInQueue := ?_, runningCur := ?_ }
  · show ((s0.processes.map
      (fun p => if p.pid = m then startP s0.currentTime p else p)).map
        Process.pid).Nodup
    rw [map_pid_comp (fun p => by
      by_cases hc : p.pid = m
      · rw [if_pos hc, startP_pid]
      · rw [if_neg hc])]
    exact hnd
  · intro i hi
    obtain ⟨pi, hpi, hpiid, hpist⟩ := hq.queueRes i (hrsub i hi)
    have hne : pi.pid ≠ m := by
      rw [hpiid]
      intro hmi
      rw [hmi] at hi
      exact hmr hi
    refine ⟨pi, ?_, hpiid, hpist⟩
    show pi ∈ s0.processes.map
      (fun p => if p.pid = m then startP s0.currentTime p else p)
    have : (if pi.pid = m then startP s0.currentTime pi else pi) = pi := by
      rw [if_neg hne]
    rw [← this]
    exact List.mem_map_of_mem _ hpi
  · exact hrnodup
  · intro p' hp' hst
    obtain ⟨q, hq', rfl⟩ := List.mem_map.1 hp'
    by_cases hc : q.pid = m
    · rw [if_pos hc, startP_state] at hst
      exact ProcessState.noConfusion hst
    · rw [if_neg hc] at hst ⊢
      have hmem' := (hqiff q.pid).1 (hq.readyInQueue q hq' hst)
      rcases List.mem_cons.1 hmem' with h1 | h2
      · exact absurd h1 hc
      · exact h2
  · intro p' hp' hst
    obtain ⟨q, hq', rfl⟩ := List.mem_map.1 hp'
    by_cases hc : q.pid = m
    · rw [if_pos hc, startP_state] at hst
      exact ProcessState.noConfusion hst
    · rw [if_neg hc] at hst ⊢
      exact hq.readyRem q hq' hst
  · intro p' hp' hst
    obtain ⟨q, hq', rfl⟩ := List.mem_map.1 hp'
    by_cases hc : q.pid = m
    · rw [if_pos hc, startP_state] at hst
      exact ProcessState.noConfusion hst
    · rw [if_neg hc] at hst ⊢
      exact hq.newBound q hq' hst
  · intro p' hp'
    obtain ⟨q, hq', rfl⟩ := List.mem_map.1 hp'
    by_cases hc : q.pid = m
    · rw [if_pos hc, startP_state]
      exact fun hw => ProcessState.noConfusion hw
    · rw [if_neg hc]
      exact hq.noWaiting q hq'
  · intro p' hp'
    obtain ⟨q, hq', rfl⟩ := List.mem_map.1 hp'
    by_cases hc : q.pid = m
    · rw [if_pos hc, startP_burstTime, startP_arrivalTime]
      exact hq.validFields q hq'
    · rw [if_neg hc]
      exact hq.validFields q hq'
  · intro p' hp' hst
    obtain ⟨q, hq', rfl⟩ := List.mem_map.1 hp'
    by_cases hc : q.pid = m
    · rw [if_pos hc, startP_arrivalTime]
      have : q = pm := hinj q hq' pm hpm (by rw [hc, hpmid])
      rw [this]
      exact hq.arrived pm hpm (Or.inl hpmst)
    · rw [if_neg hc] at hst ⊢
      exact hq.arrived q hq' hst
  · intro p' hp' hst
    obtain ⟨q, hq', rfl⟩ := List.mem_map.1 hp'
    by_cases hc : q.pid = m
    · rw [if_pos hc, startP_state] at hst
      exact ProcessState.noConfusion hst
    · rw [if_neg hc] at hst ⊢
      exact hq.termRem q hq' hst
  · intro p' hp' hst
    obtain ⟨q, hq', rfl⟩ := List.mem_map.1 hp'
    by_cases hc : q.pid = m
    · rw [if_pos hc, startP_waitingTime, startP_arrivalTime,
          startP_burstTime, startP_remainingTime]
      have : q = pm := hinj q hq' pm hpm (by rw [hc, hpmid])
      rw [this]
      exact hq.acct pm hpm (Or.inl hpmst)
    · rw [if_neg hc] at hst ⊢
      exact hq.acct q hq' hst
  · intro c hc
    have hcm : c = m := by
      have h2 : (some m : Option Nat) = some c := hc
      exact (Option.some.inj h2).symm
    refine ⟨startP s0.currentTime pm, ?_, ?_, ?_, ?_⟩
    · show startP s0.currentTime pm ∈ s0.processes.map
        (fun p => if p.pid = m then startP s0.currentTime p else p)
      have : (if pm.pid = m then startP s0.currentTime pm else pm) =
          startP s0.currentTime pm := by rw [if_pos hpmid]
      rw [← this]
      exact List.mem_map_of_mem _ hpm
    · rw [startP_pid, hpmid, hcm]
    · rw [startP_state]
    · rw [startP_remainingTime]
      exact hq.readyRem pm hpm hpmst
  · intro c hc
    have hcm : c = m := by
      have h2 : (some m : Option Nat) = some c := hc
      exact (Option.some.inj h2).symm
    rw [hcm]
    exact hmr
  · intro p' hp' hst
    obtain ⟨q, hq', rfl⟩ := List.mem_map.1 hp'
    by_cases hc : q.pid = m
    · show some m = some _
      rw [if_pos hc, startP_pid, hc]
    · rw [if_neg hc] at hst
      exact absurd hst (hnorun q hq')

/-! ## Well-formedness: the four dispatch blocks -/

theorem selectGo_perm (key : Nat → Int) :
    ∀ (l : List Nat) (c : Nat) (temp : List Nat) (m : Nat) (r : List Nat),
      selectGo key c temp l = (m, r) → (m :: r).Perm (c :: (temp ++ l)) := by
  intro l
  induction l with
  | nil =>
    intro c temp m r hsel
    cases hsel
    rw [List.append_nil]
  | cons i rest ih =>
    intro c temp m r hsel
    rw [selectGo] at hsel
    by_cases hlt : key i < key c
    · rw [if_pos hlt] at hsel
      have h1 := ih i (temp ++ [c]) m r hsel
      have e1 : (temp ++ [c]) ++ rest = temp ++ (c :: rest) := by
        rw [List.append_assoc]
        rfl
      rw [e1] at h1
      refine h1.trans ?_
      refine (List.Perm.cons i List.perm_middle).trans ?_
      refine (List.Perm.swap c i _).trans ?_
      exact List.Perm.cons c List.perm_middle.symm
    · rw [if_neg hlt] at hsel
      have h1 := ih c (temp ++ [i]) m r hsel
      have e1 : (temp ++ [i]) ++ rest = temp ++ (i :: rest) := by
        rw [List.append_assoc]
        rfl
      rw [e1] at h1
      exact h1

theorem selectFrom_perm (key : Nat → Int) {l : List Nat} {m : Nat}
    {r : List Nat} (hsel : selectFrom key l = some (m, r)) :
    (m :: r).Perm l := by
  match l with
  | [] => exact Option.noConfusion hsel
  | i :: rest =>
    rw [selectFrom] at hsel
    have h2 := selectGo_perm key rest i [] m r (Option.some.inj hsel)
    simpa using h2

theorem midInv_noRunning {sA : SchedulerState} (h : MidInv sA)
    (hc : sA.current = none) :
    ∀ p ∈ sA.processes, p.state ≠ ProcessState.RUNNING := by
  intro p hp hrun
  have := h.runningCur p hp hrun
  rw [hc] at this
  exact Option.noConfusion this

theorem midInvB_dispatchFCFS {sA : SchedulerState} (h : MidInv sA) :
    MidInvB (dispatchFCFS sA) := by
  rcases hc : sA.current with _ | c
  · match hqv : sA.readyQueue with
    | [] =>
      rw [dispatchFCFS_idle_empty hc hqv]
      exact ⟨h, fun _ => hqv⟩
    | i :: rest =>
      rw [dispatchFCFS_idle_pop hc hqv]
      refine ⟨dispatchCore_inv sA i rest h.toQueueInv
        (by rw [hqv]) (midInv_noRunning h hc), ?_⟩
      intro hnone
      exact absurd hnone (by simp)
  · rw [dispatchFCFS_busy hc]
    refine ⟨h, fun hnone => ?_⟩
    rw [hc] at hnone
    exact Option.noConfusion hnone

theorem midInvB_dispatchSJF {sA : SchedulerState} (h : MidInv sA) :
    MidInvB (dispatchSJF sA) := by
  rcases hc : sA.current with _ | c
  · match hqv : sA.readyQueue with
    | [] =>
      rw [dispatchSJF_empty hqv]
      exact ⟨h, fun _ => hqv⟩
    | i :: rest =>
      have hne : sA.readyQueue ≠ [] := by rw [hqv]; simp
      rcases hsel : selectFrom (burstOf sA) sA.readyQueue with _ | ⟨m, r⟩
      · rw [hqv, selectFrom] at hsel
        exact Option.noConfusion hsel
      · rw [dispatchSJF_go hc hne hsel]
        refine ⟨dispatchCore_inv sA m r h.toQueueInv
          (selectFrom_perm (burstOf sA) hsel) (midInv_noRunning h hc), ?_⟩
        intro hnone
        exact absurd hnone (by simp)
  · rw [dispatchSJF_busy hc]
    refine ⟨h, fun hnone => ?_⟩
    rw [hc] at hnone
    exact Option.noConfusion hnone

theorem midInvB_dispatchPrio {sA : SchedulerState} (h : MidInv sA) :
    MidInvB (dispatchPrio sA) := by
  rcases hc : sA.current with _ | c
  · match hqv : sA.readyQueue with
    | [] =>
      rw [dispatchPrio_empty hqv]
      exact ⟨h, fun _ => hqv⟩
    | i :: rest =>
      have hne : sA.readyQueue ≠ [] := by rw [hqv]; simp
      rcases hsel : selectFrom (prioOf sA) sA.readyQueue with _ | ⟨m, r⟩
      · rw [hqv, selectFrom] at hsel
        exact Option.noConfusion hsel
      · rw [dispatchPrio_go hc hne hsel]
        refine ⟨dispatchCore_inv sA m r h.toQueueInv
          (selectFrom_perm (prioOf sA) hsel) (midInv_noRunning h hc), ?_⟩
        intro hnone
        exact absurd hnone (by simp)
  · rw [dispatchPrio_busy hc]
    refine ⟨h, fun hnone => ?_⟩
    rw [hc] at hnone
    exact Option.noConfusion hnone

/-- The well-formedness invariant only reads the process list, the queue,
the current reference and the clock, so it transfers between states which
agree on those four fields (they may differ on the quantum counters and
statistics accumulators). -/
theorem invAt_congr {k : Int} {s s' : SchedulerState}
    (h1 : s'.processes = s.processes) (h2 : s'.readyQueue = s.readyQueue)
    (h3 : s'.current = s.current) (h4 : s'.currentTime = s.currentTime)
    (h : InvAt k s) : InvAt k s' := by
  refine
    { pidNodup := ?_, queueRes := ?_, queueNodup := ?_, readyInQueue := ?_,
      readyRem := ?_, newBound := ?_, noWaiting := ?_, validFields := ?_,
      arrived := ?_, termRem := ?_, acct := ?_, curRes := ?_,
      curNotInQueue := ?_, runningCur := ?_ }
  · rw [h1]; exact h.pidNodup
  · rw [h1, h2]; exact h.queueRes
  · rw [h2]; exact h.queueNodup
  · rw [h1, h2]; exact h.readyInQueue
  · rw [h1]; exact h.readyRem
  · rw [h1, h4]; exact h.newBound
  · rw [h1]; exact h.noWaiting
  · rw [h1]; exact h.validFields
  · rw [h1, h4]; exact h.arrived
  · rw [h1, h4]; exact h.termRem
  · rw [h1, h4]; exact h.acct
  · rw [h1, h3]; exact h.curRes
  · rw [h2, h3]; exact h.curNotInQueue
  · rw [h1, h3]; exact h.runningCur

theorem rrPreempt_queueInv {sA : SchedulerState} {c : Nat} (h : MidInv sA)
    (hc : sA.current = some c) (h0 : sA.quantumRemaining = 0) :
    QueueInv 1 (rrPreempt sA) ∧
    (∀ p ∈ (rrPreempt sA).processes, p.state ≠ ProcessState.RUNNING) ∧
    (rrPreempt sA).readyQueue = sA.readyQueue ++ [c] ∧
    (rrPreempt sA).currentTime = sA.currentTime := by
  obtain ⟨pc, hpc, hpcid, hpcst, hpcrem⟩ := h.curRes c hc
  have hinj := pid_injective h.pidNodup
  have hrem : 0 < remOf sA c := by
    unfold remOf
    rw [procOf_eq_of_mem h.pidNodup hpc hpcid]
    simpa using hpcrem
  have hpre := rrPreempt_go hc h0 hrem
  rw [hpre]
  have hpidG : ∀ p : Process,
      ((if p.pid = c then { p with state := ProcessState.READY } else p) :
        Process).pid = p.pid := by
    intro p
    by_cases hcp : p.pid = c
    · rw [if_pos hcp]
    · rw [if_neg hcp]
  have hcnot := h.curNotInQueue c hc
  refine ⟨?_, ?_, rfl, rfl⟩
  · refine
      { pidNodup := ?_, queueRes := ?_, queueNodup := ?_, readyInQueue := ?_,
        readyRem := ?_, newBound := ?_, noWaiting := ?_, validFields := ?_,
        arrived := ?_, termRem := ?_, acct := ?_ }
    · show ((sA.processes.map _).map Process.pid).Nodup
      rw [map_pid_comp hpidG]
      exact h.pidNodup
    · intro i hi
      rcases List.mem_append.1 hi with hi0 | hic
      · obtain ⟨q, hq', hqid, hqst⟩ := h.queueRes i hi0
        have hne : q.pid ≠ c := by
          intro hqc
          have : q = pc := hinj q hq' pc hpc (by rw [hqc, hpcid])
          rw [this, hpcst] at hqst
          exact ProcessState.noConfusion hqst
        refine ⟨q, ?_, hqid, hqst⟩
        have : (if q.pid = c then { q with state := ProcessState.READY }
            else q) = q := by rw [if_neg hne]
        rw [← this]
        exact List.mem_map_of_mem _ hq'
      · have hic' : i = c := List.mem_singleton.1 hic
        refine ⟨{ pc with state := ProcessState.READY }, ?_, ?_, rfl⟩
        · have : (if pc.pid = c then { pc with state := ProcessState.READY }
              else pc) = { pc with state := ProcessState.READY } := by
            rw [if_pos hpcid]
          rw [← this]
          exact List.mem_map_of_mem _ hpc
        · show pc.pid = i
          rw [hpcid, hic']
    · rw [List.nodup_append]
      refine ⟨h.queueNodup, List.nodup_singleton c, ?_⟩
      intro i hi0 hic
      rw [List.mem_singleton.1 hic] at hi0
      exact hcnot hi0
    · intro p' hp' hst
      obtain ⟨q, hq', rfl⟩ := List.mem_map.1 hp'
      by_cases hqc : q.pid = c
      · rw [if_pos hqc]
        show q.pid ∈ _
        rw [hqc]
        exact List.mem_append.2 (Or.inr (List.mem_singleton.2 rfl))
      · rw [if_neg hqc] at hst ⊢
        exact List.mem_append.2 (Or.inl (h.readyInQueue q hq' hst))
    · intro p' hp' hst
      obtain ⟨q, hq', rfl⟩ := List.mem_map.1 hp'
      by_cases hqc : q.pid = c
      · rw [if_pos hqc]
        show 1 ≤ q.remainingTime
        have : q = pc := hinj q hq' pc hpc (by rw [hqc, hpcid])
        rw [this]
        exact hpcrem
      · rw [if_neg hqc] at hst ⊢
        exact h.readyRem q hq' hst
    · intro p' hp' hst
      obtain ⟨q, hq', rfl⟩ := List.mem_map.1 hp'
      by_cases hqc : q.pid = c
      · rw [if_pos hqc] at hst
        exact ProcessState.noConfusion hst
      · rw [if_neg hqc] at hst ⊢
        exact h.newBound q hq' hst
    · intro p' hp'
      obtain ⟨q, hq', rfl⟩ := List.mem_map.1 hp'
      by_cases hqc : q.pid = c
      · rw [if_pos hqc]
        exact fun hw => ProcessState.noConfusion hw
      · rw [if_neg hqc]
        exact h.noWaiting q hq'
    · intro p' hp'
      obtain ⟨q, hq', rfl⟩ := List.mem_map.1 hp'
      by_cases hqc : q.pid = c
      · rw [if_pos hqc]
        exact h.validFields q hq'
      · rw [if_neg hqc]
        exact h.validFields q hq'
    · intro p' hp' hst
      obtain ⟨q, hq', rfl⟩ := List.mem_map.1 hp'
      by_cases hqc : q.pid = c
      · rw [if_pos hqc]
        show q.arrivalTime ≤ _
        have : q = pc := hinj q hq' pc hpc (by rw [hqc, hpcid])
        rw [this]
        exact h.arrived pc hpc (Or.inr hpcst)
      · rw [if_neg hqc] at hst ⊢
        exact h.arrived q hq' hst
    · intro p' hp' hst
      obtain ⟨q, hq', rfl⟩ := List.mem_map.1 hp'
      by_cases hqc : q.pid = c
      · rw [if_pos hqc] at hst
        exact ProcessState.noConfusion hst
      · rw [if_neg hqc] at hst ⊢
        exact h.termRem q hq' hst
    · intro p' hp' hst
      obtain ⟨q, hq', rfl⟩ := List.mem_map.1 hp'
      by_cases hqc : q.pid = c
      · rw [if_pos hqc]
        show q.waitingTime = _
        have : q = pc := hinj q hq' pc hpc (by rw [hqc, hpcid])
        rw [this]
        exact h.acct pc hpc (Or.inr hpcst)
      · rw [if_neg hqc] at hst ⊢
        exact h.acct q hq' hst
  · intro p' hp' hrun
    obtain ⟨q, hq', rfl⟩ := List.mem_map.1 hp'
    by_cases hqc : q.pid = c
    · rw [if_pos hqc] at hrun
      exact ProcessState.noConfusion hrun
    · rw [if_neg hqc] at hrun
      have := h.runningCur q hq' hrun
      rw [hc] at this
      exact hqc (Option.some.inj this).symm

theorem midInvB_rrSwitch {sA : SchedulerState} (h : MidInv sA) :
    MidInvB (rrSwitch sA) := by
  by_cases hcond : (sA.current = none ∨ sA.quantumRemaining = 0) ∧
      sA.readyQueue ≠ []
  · rcases hc : sA.current with _ | c
    · have hpre : rrPreempt sA = sA := rrPreempt_none hc
      match hqv : sA.readyQueue with
      | [] => exact absurd hqv hcond.2
      | i :: rest =>
        have hq1 : (rrPreempt sA).readyQueue = i :: rest := by rw [hpre, hqv]
        rw [rrSwitch_go_pop hcond hq1]
        have hcore := dispatchCore_inv sA i rest h.toQueueInv
          (by rw [hqv]) (midInv_noRunning h hc)
        refine ⟨invAt_congr ?_ ?_ ?_ ?_ hcore, ?_⟩
        · show ((rrPreempt sA).processes.map _) = (sA.processes.map _)
          rw [hpre]
        · rfl
        · rfl
        · show (rrPreempt sA).currentTime = sA.currentTime
          rw [hpre]
        · intro hnone
          exact absurd hnone (by simp)
    · have h0 : sA.quantumRemaining = 0 := by
        rcases hcond.1 with hn | h0
        · rw [hc] at hn
          exact Option.noConfusion hn
        · exact h0
      obtain ⟨hq1inv, hnorun, hq1queue, hq1time⟩ := rrPreempt_queueInv h hc h0
      match hqv : sA.readyQueue with
      | [] => exact absurd hqv hcond.2
      | i :: rest =>
        have hq1 : (rrPreempt sA).readyQueue = i :: (rest ++ [c]) := by
          rw [hq1queue, hqv]
          rfl
        rw [rrSwitch_go_pop hcond hq1]
        have hcore := dispatchCore_inv (rrPreempt sA) i (rest ++ [c]) hq1inv
          (by rw [hq1]) hnorun
        refine ⟨invAt_congr ?_ ?_ ?_ ?_ hcore, ?_⟩
        · rfl
        · rfl
        · rfl
        · rfl
        · intro hnone
          exact absurd hnone (by simp)
  · rw [rrSwitch_noswitch hcond]
    refine ⟨h, fun hnone => ?_⟩
    by_cases hq : sA.readyQueue = []
    · exact hq
    · exact absurd ⟨Or.inl hnone, hq⟩ hcond

/-! ## Well-formedness: the execute + aging + clock phases -/

theorem execOne_cont_eq {t : Int} {p : Process}
    (h : p.remainingTime - 1 ≠ 0) :
    execOne t p = { p with remainingTime := p.remainingTime - 1 } := by
  simp [execOne, h]

theorem execOne_done_eq {t : Int} {p : Process}
    (h : p.remainingTime - 1 = 0) :
    execOne t p =
      { p with remainingTime := 0,
               state := ProcessState.TERMINATED,
               turnaroundTime := t + 1 - p.arrivalTime,
               waitingTime := (t + 1 - p.arrivalTime) - p.burstTime } := by
  simp [execOne, h]

theorem ageP_of_ready {p : Process} (h : p.state = ProcessState.READY) :
    ageP p = { p with waitingTime := p.waitingTime + 1 } := by
  rw [ageP, if_pos h]

theorem ageP_of_not_ready {p : Process} (h : p.state ≠ ProcessState.READY) :
    ageP p = p := by
  rw [ageP, if_neg h]

theorem map_eq_self_of {ps : List Process} {F : Process → Process}
    (h : ∀ p ∈ ps, F p = p) : ps.map F = ps := by
  induction ps with
  | nil => rfl
  | cons a l ih =>
    rw [List.map_cons, h a (List.mem_cons_self a l),
        ih (fun p hp => h p (List.mem_cons_of_mem a hp))]

/-- After the dispatch phase, running the execute, aging and clock phases
restores the boundary invariant. -/
theorem engineInv_finishPlain {sB : SchedulerState} (h : MidInvB sB) :
    EngineInv (tickClock (agePhase (executePlain sB))) := by
  obtain ⟨hm, hqe⟩ := h
  have hinj := pid_injective hm.pidNodup
  rcases hc : sB.current with _ | c
  · -- idle tick: no process is READY or RUNNING, aging is the identity
    have hqempty : sB.readyQueue = [] := hqe hc
    have hnoR : ∀ q ∈ sB.processes, q.state ≠ ProcessState.READY := by
      intro q hq hst
      have := hm.readyInQueue q hq hst
      rw [hqempty] at this
      cases this
    have hnoRun := midInv_noRunning hm hc
    rw [executePlain_none hc]
    have hmap : sB.processes.map ageP = sB.processes :=
      map_eq_self_of (fun q hq => ageP_of_not_ready (hnoR q hq))
    refine
      { pidNodup := ?_, queueRes := ?_, queueNodup := ?_, readyInQueue := ?_,
        readyRem := ?_, newBound := ?_, noWaiting := ?_, validFields := ?_,
        arrived := ?_, termRem := ?_, acct := ?_, curRes := ?_,
        curNotInQueue := ?_, runningCur := ?_ }
    · rw [tickClock_processes, agePhase_processes, hmap]
      exact hm.pidNodup
    · intro i hi
      rw [tickClock_readyQueue, agePhase_readyQueue, hqempty] at hi
      cases hi
    · rw [tickClock_readyQueue, agePhase_readyQueue]
      exact hm.queueNodup
    · intro p' hp' hst
      rw [tickClock_processes, agePhase_processes, hmap] at hp'
      exact absurd hst (hnoR p' hp')
    · intro p' hp' hst
      rw [tickClock_processes, agePhase_processes, hmap] at hp'
      exact absurd hst (hnoR p' hp')
    · intro p' hp' hst
      rw [tickClock_processes, agePhase_processes, hmap] at hp'
      have hb := hm.newBound p' hp' hst
      refine ⟨?_, hb.2.1, hb.2.2⟩
      rw [tickClock_currentTime, agePhase_currentTime]
      omega
    · intro p' hp'
      rw [tickClock_processes, agePhase_processes, hmap] at hp'
      exact hm.noWaiting p' hp'
    · intro p' hp'
      rw [tickClock_processes, agePhase_processes, hmap] at hp'
      exact hm.validFields p' hp'
    · intro p' hp' hst
      rw [tickClock_processes, agePhase_processes, hmap] at hp'
      rcases hst with hst | hst
      · exact absurd hst (hnoR p' hp')
      · exact absurd hst (hnoRun p' hp')
    · intro p' hp' hst
      rw [tickClock_processes, agePhase_processes, hmap] at hp'
      have := hm.termRem p' hp' hst
      refine ⟨this.1, ?_⟩
      rw [tickClock_currentTime, agePhase_currentTime]
      omega
    · intro p' hp' hst
      rw [tickClock_processes, agePhase_processes, hmap] at hp'
      rcases hst with hst | hst
      · exact absurd hst (hnoR p' hp')
      · exact absurd hst (hnoRun p' hp')
    · intro c' hc'
      rw [tickClock_current, agePhase_current, hc] at hc'
      exact Option.noConfusion hc'
    · intro c' hc'
      rw [tickClock_current, agePhase_current, hc] at hc'
      exact Option.noConfusion hc'
    · intro p' hp' hst
      rw [tickClock_processes, agePhase_processes, hmap] at hp'
      exact absurd hst (hnoRun p' hp')
  · -- a process executes
    obtain ⟨pc, hpc, hpcid, hpcst, hpcrem⟩ := hm.curRes c hc
    have hrem_eq : remOf sB c = pc.remainingTime := by
      unfold remOf
      rw [procOf_eq_of_mem hm.pidNodup hpc hpcid]
      rfl
    have honlyrun : ∀ q ∈ sB.processes,
        q.state = ProcessState.RUNNING → q = pc := by
      intro q hq hst
      have h1 := hm.runningCur q hq hst
      rw [hc] at h1
      exact hinj q hq pc hpc (by rw [(Option.some.inj h1).symm, hpcid])
    have hreadypid : ∀ q ∈ sB.processes,
        q.state = ProcessState.READY → q.pid ≠ c := by
      intro q hq hst hqc
      have : q = pc := hinj q hq pc hpc (by rw [hqc, hpcid])
      rw [this, hpcst] at hst
      exact ProcessState.noConfusion hst
    by_cases hd : remOf sB c - 1 = 0
    · -- the running process completes at this tick
      rw [executePlain_done hc hd]
      have hpcd : pc.remainingTime - 1 = 0 := by rw [← hrem_eq]; exact hd
      refine
        { pidNodup := ?_, queueRes := ?_, queueNodup := ?_,
          readyInQueue := ?_, readyRem := ?_, newBound := ?_,
          noWaiting := ?_, validFields := ?_, arrived := ?_, termRem := ?_,
          acct := ?_, curRes := ?_, curNotInQueue := ?_, runningCur := ?_ }
      · show (((sB.processes.map
            (fun p => if p.pid = c then execOne sB.currentTime p else p)).map
              ageP).map Process.pid).Nodup
        rw [map_pid_comp ageP_pid, map_pid_comp (fun p => by
          by_cases hq : p.pid = c
          · rw [if_pos hq, execOne_pid]
          · rw [if_neg hq])]
        exact hm.pidNodup
      · intro i hi
        obtain ⟨q, hq, hqid, hqst⟩ := hm.queueRes i hi
        have hqc : q.pid ≠ c := hreadypid q hq hqst
        refine ⟨ageP q, ?_, ?_, ?_⟩
        · show ageP q ∈ (sB.processes.map
            (fun p => if p.pid = c then execOne sB.currentTime p else p)).map ageP
          have he : (if q.pid = c then execOne sB.currentTime q else q) = q := by
            rw [if_neg hqc]
          rw [← he]
          exact List.mem_map_of_mem ageP (List.mem_map_of_mem _ hq)
        · rw [ageP_pid]; exact hqid
        · rw [ageP_state]; exact hqst
      · exact hm.queueNodup
      · intro p' hp' hst
        obtain ⟨q1, hq1, rfl⟩ := List.mem_map.1 hp'
        obtain ⟨q, hq, rfl⟩ := List.mem_map.1 hq1
        rw [ageP_state] at hst
        by_cases hqc : q.pid = c
        · exfalso
          have hqpc : q = pc := hinj q hq pc hpc (by rw [hqc, hpcid])
          rw [if_pos hqc, hqpc, execOne_done_eq hpcd] at hst
          exact ProcessState.noConfusion hst
        · rw [if_neg hqc] at hst ⊢
          rw [ageP_pid]
          exact hm.readyInQueue q hq hst
      · intro p' hp' hst
        obtain ⟨q1, hq1, rfl⟩ := List.mem_map.1 hp'
        obtain ⟨q, hq, rfl⟩ := List.mem_map.1 hq1
        rw [ageP_state] at hst
        rw [ageP_remainingTime]
        by_cases hqc : q.pid = c
        · exfalso
          have hqpc : q = pc := hinj q hq pc hpc (by rw [hqc, hpcid])
          rw [if_pos hqc, hqpc, execOne_done_eq hpcd] at hst
          exact ProcessState.noConfusion hst
        · rw [if_neg hqc] at hst ⊢
          exact hm.readyRem q hq hst
      · intro p' hp' hst
        obtain ⟨q1, hq1, rfl⟩ := List.mem_map.1 hp'
        obtain ⟨q, hq, rfl⟩ := List.mem_map.1 hq1
        rw [ageP_state] at hst
        by_cases hqc : q.pid = c
        · exfalso
          have hqpc : q = pc := hinj q hq pc hpc (by rw [hqc, hpcid])
          rw [if_pos hqc, hqpc, execOne_done_eq hpcd] at hst
          exact ProcessState.noConfusion hst
        · rw [if_neg hqc] at hst ⊢
          have hb := hm.newBound q hq hst
          have hb1 := hb.1
          refine ⟨?_, by rw [ageP_of_not_ready (by rw [hst]; simp)]; exact hb.2.1,
            by rw [ageP_of_not_ready (by rw [hst]; simp)]; exact hb.2.2⟩
          rw [tickClock_currentTime, agePhase_currentTime,
              ageP_of_not_ready (by rw [hst]; simp)]
          show sB.currentTime + 1 + 0 ≤ q.arrivalTime
          omega
      · intro p' hp'
        obtain ⟨q1, hq1, rfl⟩ := List.mem_map.1 hp'
        obtain ⟨q, hq, rfl⟩ := List.mem_map.1 hq1
        rw [ageP_state]
        by_cases hqc : q.pid = c
        · rw [if_pos hqc]
          have hqpc : q = pc := hinj q hq pc hpc (by rw [hqc, hpcid])
          rw [hqpc, execOne_done_eq hpcd]
          exact fun hw => ProcessState.noConfusion hw
        · rw [if_neg hqc]
          exact hm.noWaiting q hq
      · intro p' hp'
        obtain ⟨q1, hq1, rfl⟩ := List.mem_map.1 hp'
        obtain ⟨q, hq, rfl⟩ := List.mem_map.1 hq1
        rw [ageP_burstTime, ageP_arrivalTime]
        by_cases hqc : q.pid = c
        · rw [if_pos hqc, execOne_burstTime, execOne_arrivalTime]
          exact hm.validFields q hq
        · rw [if_neg hqc]
          exact hm.validFields q hq
      · intro p' hp' hst
        obtain ⟨q1, hq1, rfl⟩ := List.mem_map.1 hp'
        obtain ⟨q, hq, rfl⟩ := List.mem_map.1 hq1
        rw [ageP_state] at hst
        rw [tickClock_currentTime, agePhase_currentTime, ageP_arrivalTime]
        by_cases hqc : q.pid = c
        · exfalso
          have hqpc : q = pc := hinj q hq pc hpc (by rw [hqc, hpcid])
          rw [if_pos hqc, hqpc, execOne_done_eq hpcd] at hst
          rcases hst with hst | hst <;> exact ProcessState.noConfusion hst
        · rw [if_neg hqc] at hst ⊢
          have := hm.arrived q hq hst
          show q.arrivalTime ≤ sB.currentTime + 1
          omega
      · intro p' hp' hst
        obtain ⟨q1, hq1, rfl⟩ := List.mem_map.1 hp'
        obtain ⟨q, hq, rfl⟩ := List.mem_map.1 hq1
        rw [ageP_state] at hst
        rw [tickClock_currentTime, agePhase_currentTime]
        by_cases hqc : q.pid = c
        · have hqpc : q = pc := hinj q hq pc hpc (by rw [hqc, hpcid])
          rw [if_pos hqc, hqpc, execOne_done_eq hpcd] at hst ⊢
          rw [ageP_of_not_ready (by simp)]
          refine ⟨rfl, ?_⟩
          have := hm.arrived pc hpc (Or.inr hpcst)
          show pc.arrivalTime < sB.currentTime + 1
          omega
        · rw [if_neg hqc] at hst ⊢
          rw [ageP_of_not_ready (by rw [hst]; simp)]
          have := hm.termRem q hq hst
          refine ⟨this.1, ?_⟩
          show q.arrivalTime < sB.currentTime + 1
          omega
      · intro p' hp' hst
        obtain ⟨q1, hq1, rfl⟩ := List.mem_map.1 hp'
        obtain ⟨q, hq, rfl⟩ := List.mem_map.1 hq1
        rw [ageP_state] at hst
        rw [tickClock_currentTime, agePhase_currentTime]
        by_cases hqc : q.pid = c
        · exfalso
          have hqpc : q = pc := hinj q hq pc hpc (by rw [hqc, hpcid])
          rw [if_pos hqc, hqpc, execOne_done_eq hpcd] at hst
          rcases hst with hst | hst <;> exact ProcessState.noConfusion hst
        · rw [if_neg hqc] at hst ⊢
          rcases hst with hst | hst
          · rw [ageP_of_ready hst]
            have hacct := hm.acct q hq (Or.inl hst)
            show q.waitingTime + 1 =
              (sB.currentTime + 1 - q.arrivalTime) -
                (q.burstTime - q.remainingTime)
            omega
          · exfalso
            have hqpc : q = pc := honlyrun q hq hst
            rw [hqpc] at hqc
            exact hqc hpcid
      · intro c' hc'
        rw [tickClock_current, agePhase_current] at hc'
        exact Option.noConfusion hc'
      · intro c' hc'
        rw [tickClock_current, agePhase_current] at hc'
        exact Option.noConfusion hc'
      · intro p' hp' hst
        obtain ⟨q1, hq1, rfl⟩ := List.mem_map.1 hp'
        obtain ⟨q, hq, rfl⟩ := List.mem_map.1 hq1
        rw [ageP_state] at hst
        exfalso
        by_cases hqc : q.pid = c
        · have hqpc : q = pc := hinj q hq pc hpc (by rw [hqc, hpcid])
          rw [if_pos hqc, hqpc, execOne_done_eq hpcd] at hst
          exact ProcessState.noConfusion hst
        · rw [if_neg hqc] at hst
          have hqpc : q = pc := honlyrun q hq hst
          rw [hqpc] at hqc
          exact hqc hpcid
    · -- the running process continues
      rw [executePlain_cont hc hd]
      have hpcd : pc.remainingTime - 1 ≠ 0 := by rw [← hrem_eq]; exact hd
      have hEpc : (if pc.pid = c then execOne sB.currentTime pc else pc) =
          { pc with remainingTime := pc.remainingTime - 1 } := by
        rw [if_pos hpcid, execOne_cont_eq hpcd]
      refine
        { pidNodup := ?_, queueRes := ?_, queueNodup := ?_,
          readyInQueue := ?_, readyRem := ?_, newBound := ?_,
          noWaiting := ?_, validFields := ?_, arrived := ?_, termRem := ?_,
          acct := ?_, curRes := ?_, curNotInQueue := ?_, runningCur := ?_ }
      · show (((sB.processes.map
            (fun p => if p.pid = c then execOne sB.currentTime p else p)).map
              ageP).map Process.pid).Nodup
        rw [map_pid_comp ageP_pid, map_pid_comp (fun p => by
          by_cases hq : p.pid = c
          · rw [if_pos hq, execOne_pid]
          · rw [if_neg hq])]
        exact hm.pidNodup
      · intro i hi
        obtain ⟨q, hq, hqid, hqst⟩ := hm.queueRes i hi
        have hqc : q.pid ≠ c := hreadypid q hq hqst
        refine ⟨ageP q, ?_, ?_, ?_⟩
        · show ageP q ∈ (sB.processes.map
            (fun p => if p.pid = c then execOne sB.currentTime p else p)).map ageP
          have he : (if q.pid = c then execOne sB.currentTime q else q) = q := by
            rw [if_neg hqc]
          rw [← he]
          exact List.mem_map_of_mem ageP (List.mem_map_of_mem _ hq)
        · rw [ageP_pid]; exact hqid
        · rw [ageP_state]; exact hqst
      · exact hm.queueNodup
      · intro p' hp' hst
        obtain ⟨q1, hq1, rfl⟩ := List.mem_map.1 hp'
        obtain ⟨q, hq, rfl⟩ := List.mem_map.1 hq1
        rw [ageP_state] at hst
        by_cases hqc : q.pid = c
        · exfalso
          have hqpc : q = pc := hinj q hq pc hpc (by rw [hqc, hpcid])
          rw [hqpc, hEpc] at hst
          have h2 : pc.state = ProcessState.READY := hst
          rw [hpcst] at h2
          exact ProcessState.noConfusion h2
        · rw [if_neg hqc] at hst ⊢
          rw [ageP_pid]
          exact hm.readyInQueue q hq hst
      · intro p' hp' hst
        obtain ⟨q1, hq1, rfl⟩ := List.mem_map.1 hp'
        obtain ⟨q, hq, rfl⟩ := List.mem_map.1 hq1
        rw [ageP_state] at hst
        rw [ageP_remainingTime]
        by_cases hqc : q.pid = c
        · exfalso
          have hqpc : q = pc := hinj q hq pc hpc (by rw [hqc, hpcid])
          rw [hqpc, hEpc] at hst
          have h2 : pc.state = ProcessState.READY := hst
          rw [hpcst] at h2
          exact ProcessState.noConfusion h2
        · rw [if_neg hqc] at hst ⊢
          exact hm.readyRem q hq hst
      · intro p' hp' hst
        obtain ⟨q1, hq1, rfl⟩ := List.mem_map.1 hp'
        obtain ⟨q, hq, rfl⟩ := List.mem_map.1 hq1
        rw [ageP_state] at hst
        by_cases hqc : q.pid = c
        · exfalso
          have hqpc : q = pc := hinj q hq pc hpc (by rw [hqc, hpcid])
          rw [hqpc, hEpc] at hst
          have h2 : pc.state = ProcessState.NEW := hst
          rw [hpcst] at h2
          exact ProcessState.noConfusion h2
        · rw [if_neg hqc] at hst ⊢
          have hb := hm.newBound q hq hst
          refine ⟨?_,
            by rw [ageP_of_not_ready (by rw [hst]; simp)]; exact hb.2.1,
            by rw [ageP_of_not_ready (by rw [hst]; simp)]; exact hb.2.2⟩
          rw [tickClock_currentTime, agePhase_currentTime,
              ageP_of_not_ready (by rw [hst]; simp)]
          show sB.currentTime + 1 + 0 ≤ q.arrivalTime
          have hb1 := hb.1
          omega
      · intro p' hp'
        obtain ⟨q1, hq1, rfl⟩ := List.mem_map.1 hp'
        obtain ⟨q, hq, rfl⟩ := List.mem_map.1 hq1
        rw [ageP_state]
        by_cases hqc : q.pid = c
        · have hqpc : q = pc := hinj q hq pc hpc (by rw [hqc, hpcid])
          rw [hqpc, hEpc]
          show pc.state ≠ ProcessState.WAITING
          exact hm.noWaiting pc hpc
        · rw [if_neg hqc]
          exact hm.noWaiting q hq
      · intro p' hp'
        obtain ⟨q1, hq1, rfl⟩ := List.mem_map.1 hp'
        obtain ⟨q, hq, rfl⟩ := List.mem_map.1 hq1
        rw [ageP_burstTime, ageP_arrivalTime]
        by_cases hqc : q.pid = c
        · rw [if_pos hqc, execOne_burstTime, execOne_arrivalTime]
          exact hm.validFields q hq
        · rw [if_neg hqc]
          exact hm.validFields q hq
      · intro p' hp' hst
        obtain ⟨q1, hq1, rfl⟩ := List.mem_map.1 hp'
        obtain ⟨q, hq, rfl⟩ := List.mem_map.1 hq1
        rw [ageP_state] at hst
        rw [tickClock_currentTime, agePhase_currentTime, ageP_arrivalTime]
        by_cases hqc : q.pid = c
        · rw [if_pos hqc, execOne_arrivalTime]
          have hqpc : q = pc := hinj q hq pc hpc (by rw [hqc, hpcid])
          rw [hqpc]
          have := hm.arrived pc hpc (Or.inr hpcst)
          show pc.arrivalTime ≤ sB.currentTime + 1
          omega
        · rw [if_neg hqc] at hst ⊢
          have := hm.arrived q hq hst
          show q.arrivalTime ≤ sB.currentTime + 1
          omega
      · intro p' hp' hst
        obtain ⟨q1, hq1, rfl⟩ := List.mem_map.1 hp'
        obtain ⟨q, hq, rfl⟩ := List.mem_map.1 hq1
        rw [ageP_state] at hst
        rw [tickClock_currentTime, agePhase_currentTime]
        by_cases hqc : q.pid = c
        · exfalso
          have hqpc : q = pc := hinj q hq pc hpc (by rw [hqc, hpcid])
          rw [hqpc, hEpc] at hst
          have h2 : pc.state = ProcessState.TERMINATED := hst
          rw [hpcst] at h2
          exact ProcessState.noConfusion h2
        · rw [if_neg hqc] at hst ⊢
          rw [ageP_of_not_ready (by rw [hst]; simp)]
          have := hm.termRem q hq hst
          refine ⟨this.1, ?_⟩
          show q.arrivalTime < sB.currentTime + 1
          omega
      · intro p' hp' hst
        obtain ⟨q1, hq1, rfl⟩ := List.mem_map.1 hp'
        obtain ⟨q, hq, rfl⟩ := List.mem_map.1 hq1
        rw [ageP_state] at hst
        rw [tickClock_currentTime, agePhase_currentTime]
        by_cases hqc : q.pid = c
        · have hqpc : q = pc := hinj q hq pc hpc (by rw [hqc, hpcid])
          rw [hqpc, hEpc] at hst ⊢
          rw [ageP_of_not_ready (by
            show pc.state ≠ ProcessState.READY
            rw [hpcst]
            simp)]
          show pc.waitingTime = (sB.currentTime + 1 - pc.arrivalTime) -
            (pc.burstTime - (pc.remainingTime - 1))
          have hacct := hm.acct pc hpc (Or.inr hpcst)
          omega
        · rw [if_neg hqc] at hst ⊢
          rcases hst with hst | hst
          · rw [ageP_of_ready hst]
            have hacct := hm.acct q hq (Or.inl hst)
            show q.waitingTime + 1 =
              (sB.currentTime + 1 - q.arrivalTime) -
                (q.burstTime - q.remainingTime)
            omega
          · exfalso
            have hqpc : q = pc := honlyrun q hq hst
            rw [hqpc] at hqc
            exact hqc hpcid
      · intro c' hc'
        rw [tickClock_current, agePhase_current] at hc'
        have hcc : c' = c := by
          have h2 : sB.current = some c' := hc'
          rw [hc] at h2
          exact (Option.some.inj h2).symm
        refine ⟨ageP (execOne sB.currentTime pc), ?_, ?_, ?_, ?_⟩
        · show ageP (execOne sB.currentTime pc) ∈ (sB.processes.map
            (fun p => if p.pid = c then execOne sB.currentTime p else p)).map ageP
          have he : (if pc.pid = c then execOne sB.currentTime pc else pc) =
              execOne sB.currentTime pc := by rw [if_pos hpcid]
          rw [← he]
          exact List.mem_map_of_mem ageP (List.mem_map_of_mem _ hpc)
        · rw [ageP_pid, execOne_pid, hpcid, hcc]
        · rw [ageP_state, execOne_cont_eq hpcd]
          exact hpcst
        · rw [ageP_remainingTime, execOne_remainingTime]
          omega
      · intro c' hc'
        rw [tickClock_current, agePhase_current] at hc'
        have hcc : c' = c := by
          have h2 : sB.current = some c' := hc'
          rw [hc] at h2
          exact (Option.some.inj h2).symm
        rw [hcc]
        exact hm.curNotInQueue c hc
      · intro p' hp' hst
        obtain ⟨q1, hq1, rfl⟩ := List.mem_map.1 hp'
        obtain ⟨q, hq, rfl⟩ := List.mem_map.1 hq1
        rw [ageP_state] at hst
        rw [tickClock_current, agePhase_current]
        by_cases hqc : q.pid = c
        · show sB.current = some _
          rw [hc, ageP_pid]
          by_cases h2 : True
          · have : ((if q.pid = c then execOne sB.currentTime q else q) :
                Process).pid = c := by
              rw [if_pos hqc, execOne_pid, hqc]
            rw [this]
          · exact absurd trivial h2
        · rw [if_neg hqc] at hst
          exfalso
          have hqpc : q = pc := honlyrun q hq hst
          rw [hqpc] at hqc
          exact hqc hpcid

/-! ## Well-formedness: Round-Robin execute phase and the four steps -/

theorem executeRR_processes (s : SchedulerState) :
    (executeRR s).processes = (executePlain s).processes := by
  rcases hc : s.current with _ | c
  · rw [executeRR_none hc, executePlain_none hc]
  · by_cases hd : remOf s c - 1 = 0
    · rw [executeRR_done hc hd, executePlain_done hc hd]
    · rw [executeRR_cont hc hd, executePlain_cont hc hd]

theorem executeRR_readyQueue (s : SchedulerState) :
    (executeRR s).readyQueue = (executePlain s).readyQueue := by
  rcases hc : s.current with _ | c
  · rw [executeRR_none hc, executePlain_none hc]
  · by_cases hd : remOf s c - 1 = 0
    · rw [executeRR_done hc hd, executePlain_done hc hd]
    · rw [executeRR_cont hc hd, executePlain_cont hc hd]

theorem executeRR_current (s : SchedulerState) :
    (executeRR s).current = (executePlain s).current := by
  rcases hc : s.current with _ | c
  · rw [executeRR_none hc, executePlain_none hc]
  · by_cases hd : remOf s c - 1 = 0
    · rw [executeRR_done hc hd, executePlain_done hc hd]
    · rw [executeRR_cont hc hd, executePlain_cont hc hd]

theorem executeRR_currentTime (s : SchedulerState) :
    (executeRR s).currentTime = (executePlain s).currentTime := by
  rcases hc : s.current with _ | c
  · rw [executeRR_none hc, executePlain_none hc]
  · by_cases hd : remOf s c - 1 = 0
    · rw [executeRR_done hc hd, executePlain_done hc hd]
    · rw [executeRR_cont hc hd, executePlain_cont hc hd]

theorem engineInv_finishRR {sB : SchedulerState} (h : MidInvB sB) :
    EngineInv (tickClock (agePhase (executeRR sB))) := by
  refine invAt_congr ?_ ?_ ?_ ?_ (engineInv_finishPlain h)
  · show (executeRR sB).processes.map ageP =
      (executePlain sB).processes.map ageP
    rw [executeRR_processes]
  · show (executeRR sB).readyQueue = (executePlain sB).readyQueue
    exact executeRR_readyQueue sB
  · show (executeRR sB).current = (executePlain sB).current
    exact executeRR_current sB
  · show (executeRR sB).currentTime + 1 = (executePlain sB).currentTime + 1
    rw [executeRR_currentTime]

theorem engineInv_fcfsStep {s : SchedulerState} (h : EngineInv s) :
    EngineInv (fcfsStep s) :=
  engineInv_finishPlain (midInvB_dispatchFCFS (midInv_checkArrivals h))

theorem engineInv_sjfStep {s : SchedulerState} (h : EngineInv s) :
    EngineInv (sjfStep s) :=
  engineInv_finishPlain (midInvB_dispatchSJF (midInv_checkArrivals h))

theorem engineInv_prioStep {s : SchedulerState} (h : EngineInv s) :
    EngineInv (prioStep s) :=
  engineInv_finishPlain (midInvB_dispatchPrio (midInv_checkArrivals h))

theorem engineInv_rrStep {s : SchedulerState} (h : EngineInv s) :
    EngineInv (rrStep s) :=
  engineInv_finishRR (midInvB_rrSwitch (midInv_checkArrivals h))

/-! ## Well-formedness of the initial states -/

theorem engineInv_mkNew (ps' : List Process) (tq qr : Int)
    (hps : ∀ p ∈ ps', p.state = ProcessState.NEW ∧
      p.remainingTime = p.burstTime ∧ p.waitingTime = 0 ∧
      1 ≤ p.burstTime ∧ 0 ≤ p.arrivalTime)
    (hnd : (ps'.map Process.pid).Nodup) :
    EngineInv (mkState ps' tq qr) := by
  refine
    { pidNodup := hnd, queueRes := ?_, queueNodup := List.nodup_nil,
      readyInQueue := ?_, readyRem := ?_, newBound := ?_, noWaiting := ?_,
      validFields := ?_, arrived := ?_, termRem := ?_, acct := ?_,
      curRes := ?_, curNotInQueue := ?_, runningCur := ?_ }
  · intro i hi; cases hi
  · intro p hp hst
    have := (hps p hp).1
    rw [this] at hst
    exact ProcessState.noConfusion hst
  · intro p hp hst
    have := (hps p hp).1
    rw [this] at hst
    exact ProcessState.noConfusion hst
  · intro p hp _
    obtain ⟨_, h1, h2, _, h4⟩ := hps p hp
    exact ⟨by simpa using h4, h1, h2⟩
  · intro p hp
    rw [(hps p hp).1]
    exact fun hw => ProcessState.noConfusion hw
  · intro p hp
    obtain ⟨_, _, _, h3, h4⟩ := hps p hp
    exact ⟨h3, h4⟩
  · intro p hp hst
    rcases hst with hst | hst <;>
      · rw [(hps p hp).1] at hst
        exact ProcessState.noConfusion hst
  · intro p hp hst
    rw [(hps p hp).1] at hst
    exact ProcessState.noConfusion hst
  · intro p hp hst
    rcases hst with hst | hst <;>
      · rw [(hps p hp).1] at hst
        exact ProcessState.noConfusion hst
  · intro c hc
    exact Option.noConfusion hc
  · intro c hc
    exact Option.noConfusion hc
  · intro p hp hst
    rw [(hps p hp).1] at hst
    exact ProcessState.noConfusion hst

theorem resetP_fields (p : Process) :
    (resetP p).state = ProcessState.NEW ∧
    (resetP p).remainingTime = (resetP p).burstTime ∧
    (resetP p).waitingTime = 0 := by
  exact ⟨rfl, rfl, rfl⟩

theorem engineInv_plainInit (ps : List Process)
    (hvalid : ∀ p ∈ ps, 0 < p.burstTime ∧ 0 ≤ p.arrivalTime)
    (hnd : (ps.map Process.pid).Nodup) : EngineInv (plainInit ps) := by
  refine engineInv_mkNew (ps.map resetP) 0 0 ?_ ?_
  · intro p' hp'
    obtain ⟨p, hp, rfl⟩ := List.mem_map.1 hp'
    obtain ⟨h1, h2⟩ := hvalid p hp
    exact ⟨rfl, rfl, rfl, by show 1 ≤ p.burstTime; omega,
      by show 0 ≤ p.arrivalTime; omega⟩
  · rw [map_pid_comp resetP_pid]
    exact hnd

theorem engineInv_rrInit (tq : Int) (ps : List Process)
    (hvalid : ∀ p ∈ ps, 0 < p.burstTime ∧ 0 ≤ p.arrivalTime)
    (hnd : (ps.map Process.pid).Nodup) : EngineInv (rrInit tq ps) := by
  refine engineInv_mkNew (ps.map resetP) tq tq ?_ ?_
  · intro p' hp'
    obtain ⟨p, hp, rfl⟩ := List.mem_map.1 hp'
    obtain ⟨h1, h2⟩ := hvalid p hp
    exact ⟨rfl, rfl, rfl, by show 1 ≤ p.burstTime; omega,
      by show 0 ≤ p.arrivalTime; omega⟩
  · rw [map_pid_comp resetP_pid]
    exact hnd

theorem engineInv_fcfsInit (ps : List Process)
    (hvalid : ∀ p ∈ ps, 0 < p.burstTime ∧ 0 ≤ p.arrivalTime)
    (hnd : (ps.map Process.pid).Nodup) : EngineInv (fcfsInit ps) := by
  refine engineInv_mkNew (sortByArrival (ps.map resetP)) 0 0 ?_ ?_
  · intro p' hp'
    obtain ⟨p, hp, rfl⟩ :=
      List.mem_map.1 (mem_sortByArrival.1 hp')
    obtain ⟨h1, h2⟩ := hvalid p hp
    exact ⟨rfl, rfl, rfl, by show 1 ≤ p.burstTime; omega,
      by show 0 ≤ p.arrivalTime; omega⟩
  · have hperm := (sortByArrival_perm (ps.map resetP)).map Process.pid
    rw [hperm.nodup_iff, map_pid_comp resetP_pid]
    exact hnd

theorem engineInv_stepN (step : SchedulerState → SchedulerState)
    (hstep : ∀ s, EngineInv s → EngineInv (step s)) :
    ∀ (m : Nat) (s : SchedulerState), EngineInv s →
      EngineInv (stepN step m s) := by
  intro m
  induction m with
  | zero => intro s h; exact h
  | succ n ih => intro s h; exact ih (step s) (hstep s h)

/-! ## The termination measure -/

theorem map_proj_comp' {α : Type} (g : Process → α) {ps : List Process}
    {F : Process → Process} (hF : ∀ p, g (F p) = g p) :
    (ps.map F).map g = ps.map g := by
  rw [List.map_map]
  induction ps with
  | nil => rfl
  | cons a l ih =>
    simp only [List.map_cons, ih]
    rw [Function.comp_apply, hF a]

theorem sumRem_congr {s s' : SchedulerState} (F : Process → Process)
    (hss : s'.processes = s.processes.map F)
    (hF : ∀ p, (F p).remainingTime = p.remainingTime) :
    sumRem s' = sumRem s := by
  unfold sumRem
  rw [hss, map_proj_comp' (fun p => p.remainingTime.toNat)
    (fun p => by show (F p).remainingTime.toNat = p.remainingTime.toNat; rw [hF p])]

theorem maxArrival_congr {s s' : SchedulerState} (F : Process → Process)
    (hss : s'.processes = s.processes.map F)
    (hF : ∀ p, (F p).arrivalTime = p.arrivalTime) :
    maxArrival s' = maxArrival s := by
  unfold maxArrival
  rw [hss, map_proj_comp' (fun p => p.arrivalTime) hF]

theorem waitingOf_congr {s s' : SchedulerState} (F : Process → Process)
    (hss : s'.processes = s.processes.map F)
    (hFpid : ∀ p, (F p).pid = p.pid)
    (hFw : ∀ p, (F p).waitingTime = p.waitingTime) (i : Nat) :
    waitingOf s' i = waitingOf s i := by
  unfold waitingOf
  rw [procOf_map s s' F hss hFpid i]
  cases procOf s i with
  | none => rfl
  | some p =>
    show (F p).waitingTime = p.waitingTime
    exact hFw p

theorem le_foldr_max {l : List Int} {x : Int} (hx : x ∈ l) :
    x ≤ List.foldr max 0 l := by
  induction l with
  | nil => cases hx
  | cons a t ih =>
    rcases List.mem_cons.1 hx with rfl | hx'
    · exact le_max_left _ _
    · exact le_trans (ih hx') (le_max_right _ _)

theorem le_maxArrival {s : SchedulerState} {p : Process}
    (hp : p ∈ s.processes) : p.arrivalTime ≤ maxArrival s :=
  le_foldr_max (List.mem_map_of_mem _ hp)

theorem ite_startP_pid (t : Int) (m : Nat) (p : Process) :
    ((if p.pid = m then startP t p else p) : Process).pid = p.pid := by
  by_cases hm : p.pid = m
  · rw [if_pos hm, startP_pid]
  · rw [if_neg hm]

theorem ite_startP_rem (t : Int) (m : Nat) (p : Process) :
    ((if p.pid = m then startP t p else p) : Process).remainingTime =
      p.remainingTime := by
  by_cases hm : p.pid = m
  · rw [if_pos hm, startP_remainingTime]
  · rw [if_neg hm]

theorem ite_startP_arr (t : Int) (m : Nat) (p : Process) :
    ((if p.pid = m then startP t p else p) : Process).arrivalTime =
      p.arrivalTime := by
  by_cases hm : p.pid = m
  · rw [if_pos hm, startP_arrivalTime]
  · rw [if_neg hm]

theorem ite_startP_wait (t : Int) (m : Nat) (p : Process) :
    ((if p.pid = m then startP t p else p) : Process).waitingTime =
      p.waitingTime := by
  by_cases hm : p.pid = m
  · rw [if_pos hm, startP_waitingTime]
  · rw [if_neg hm]

theorem ite_ready_pid (m : Nat) (p : Process) :
    ((if p.pid = m then { p with state := ProcessState.READY } else p) :
      Process).pid = p.pid := by
  by_cases hm : p.pid = m
  · rw [if_pos hm]
  · rw [if_neg hm]

theorem ite_ready_rem (m : Nat) (p : Process) :
    ((if p.pid = m then { p with state := ProcessState.READY } else p) :
      Process).remainingTime = p.remainingTime := by
  by_cases hm : p.pid = m
  · rw [if_pos hm]
  · rw [if_neg hm]

theorem ite_ready_arr (m : Nat) (p : Process) :
    ((if p.pid = m then { p with state := ProcessState.READY } else p) :
      Process).arrivalTime = p.arrivalTime := by
  by_cases hm : p.pid = m
  · rw [if_pos hm]
  · rw [if_neg hm]

theorem ite_ready_wait (m : Nat) (p : Process) :
    ((if p.pid = m then { p with state := ProcessState.READY } else p) :
      Process).waitingTime = p.waitingTime := by
  by_cases hm : p.pid = m
  · rw [if_pos hm]
  · rw [if_neg hm]

/-- Metric bookkeeping (total remaining work, largest arrival, clock,
per-process waiting) is unchanged by the FCFS dispatch block. -/
theorem plumb_dispatchFCFS (sA : SchedulerState) :
    sumRem (dispatchFCFS sA) = sumRem sA ∧
    maxArrival (dispatchFCFS sA) = maxArrival sA ∧
    (dispatchFCFS sA).currentTime = sA.currentTime ∧
    (∀ i, waitingOf (dispatchFCFS sA) i = waitingOf sA i) := by
  rcases hc : sA.current with _ | c
  · match hqv : sA.readyQueue with
    | [] =>
      rw [dispatchFCFS_idle_empty hc hqv]
      exact ⟨rfl, rfl, rfl, fun i => rfl⟩
    | j :: rest =>
      rw [dispatchFCFS_idle_pop hc hqv]
      exact ⟨sumRem_congr _ rfl (ite_startP_rem sA.currentTime j),
        maxArrival_congr _ rfl (ite_startP_arr sA.currentTime j), rfl,
        fun i => waitingOf_congr _ rfl (ite_startP_pid sA.currentTime j)
          (ite_startP_wait sA.currentTime j) i⟩
  · rw [dispatchFCFS_busy hc]
    exact ⟨rfl, rfl, rfl, fun i => rfl⟩

theorem plumb_dispatchSJF (sA : SchedulerState) :
    sumRem (dispatchSJF sA) = sumRem sA ∧
    maxArrival (dispatchSJF sA) = maxArrival sA ∧
    (dispatchSJF sA).currentTime = sA.currentTime ∧
    (∀ i, waitingOf (dispatchSJF sA) i = waitingOf sA i) := by
  rcases hc : sA.current with _ | c
  · match hqv : sA.readyQueue with
    | [] =>
      rw [dispatchSJF_empty hqv]
      exact ⟨rfl, rfl, rfl, fun i => rfl⟩
    | j :: rest =>
      have hne : sA.readyQueue ≠ [] := by rw [hqv]; simp
      rcases hsel : selectFrom (burstOf sA) sA.readyQueue with _ | ⟨m, r⟩
      · rw [hqv, selectFrom] at hsel
        exact Option.noConfusion hsel
      · rw [dispatchSJF_go hc hne hsel]
        exact ⟨sumRem_congr _ rfl (ite_startP_rem sA.currentTime m),
          maxArrival_congr _ rfl (ite_startP_arr sA.currentTime m), rfl,
          fun i => waitingOf_congr _ rfl (ite_startP_pid sA.currentTime m)
            (ite_startP_wait sA.currentTime m) i⟩
  · rw [dispatchSJF_busy hc]
    exact ⟨rfl, rfl, rfl, fun i => rfl⟩

theorem plumb_dispatchPrio (sA : SchedulerState) :
    sumRem (dispatchPrio sA) = sumRem sA ∧
    maxArrival (dispatchPrio sA) = maxArrival sA ∧
    (dispatchPrio sA).currentTime = sA.currentTime ∧
    (∀ i, waitingOf (dispatchPrio sA) i = waitingOf sA i) := by
  rcases hc : sA.current with _ | c
  · match hqv : sA.readyQueue with
    | [] =>
      rw [dispatchPrio_empty hqv]
      exact ⟨rfl, rfl, rfl, fun i => rfl⟩
    | j :: rest =>
      have hne : sA.readyQueue ≠ [] := by rw [hqv]; simp
      rcases hsel : selectFrom (prioOf sA) sA.readyQueue with _ | ⟨m, r⟩
      · rw [hqv, selectFrom] at hsel
        exact Option.noConfusion hsel
      · rw [dispatchPrio_go hc hne hsel]
        exact ⟨sumRem_congr _ rfl (ite_startP_rem sA.currentTime m),
          maxArrival_congr _ rfl (ite_startP_arr sA.currentTime m), rfl,
          fun i => waitingOf_congr _ rfl (ite_startP_pid sA.currentTime m)
            (ite_startP_wait sA.currentTime m) i⟩
  · rw [dispatchPrio_busy hc]
    exact ⟨rfl, rfl, rfl, fun i => rfl⟩

theorem plumb_rrPreempt (s : SchedulerState) :
    sumRem (rrPreempt s) = sumRem s ∧
    maxArrival (rrPreempt s) = maxArrival s ∧
    (rrPreempt s).currentTime = s.currentTime ∧
    (∀ i, waitingOf (rrPreempt s) i = waitingOf s i) := by
  rcases hc : s.current with _ | c
  · rw [rrPreempt_none hc]
    exact ⟨rfl, rfl, rfl, fun i => rfl⟩
  · by_cases hg : s.quantumRemaining = 0 ∧ 0 < remOf s c
    · rw [rrPreempt_go hc hg.1 hg.2]
      exact ⟨sumRem_congr _ rfl (ite_ready_rem c),
        maxArrival_congr _ rfl (ite_ready_arr c), rfl,
        fun i => waitingOf_congr _ rfl (ite_ready_pid c)
          (ite_ready_wait c) i⟩
    · rw [rrPreempt_skip hc hg]
      exact ⟨rfl, rfl, rfl, fun i => rfl⟩

theorem plumb_rrSwitch (sA : SchedulerState) :
    sumRem (rrSwitch sA) = sumRem sA ∧
    maxArrival (rrSwitch sA) = maxArrival sA ∧
    (rrSwitch sA).currentTime = sA.currentTime ∧
    (∀ i, waitingOf (rrSwitch sA) i = waitingOf sA i) := by
  obtain ⟨hs1, hm1, ht1, hw1⟩ := plumb_rrPreempt sA
  by_cases hcond : (sA.current = none ∨ sA.quantumRemaining = 0) ∧
      sA.readyQueue ≠ []
  · match hq1 : (rrPreempt sA).readyQueue with
    | [] =>
      rw [rrSwitch_go_empty hcond hq1]
      exact ⟨hs1, hm1, ht1, hw1⟩
    | j :: rest =>
      rw [rrSwitch_go_pop hcond hq1]
      refine ⟨?_, ?_, ?_, ?_⟩
      · rw [sumRem_congr _ rfl (ite_startP_rem (rrPreempt sA).currentTime j)]
        exact hs1
      · rw [maxArrival_congr _ rfl
          (ite_startP_arr (rrPreempt sA).currentTime j)]
        exact hm1
      · show (rrPreempt sA).currentTime = sA.currentTime
        exact ht1
      · intro i
        rw [waitingOf_congr _ rfl (ite_startP_pid (rrPreempt sA).currentTime j)
          (ite_startP_wait (rrPreempt sA).currentTime j) i]
        exact hw1 i
  · rw [rrSwitch_noswitch hcond]
    exact ⟨rfl, rfl, rfl, fun i => rfl⟩

theorem plumb_checkArrivals (s : SchedulerState) :
    sumRem (checkArrivals s) = sumRem s ∧
    maxArrival (checkArrivals s) = maxArrival s ∧
    (checkArrivals s).currentTime = s.currentTime ∧
    (∀ i, waitingOf (checkArrivals s) i = waitingOf s i) :=
  ⟨sumRem_congr _ rfl (arriveP_remainingTime s.currentTime),
   maxArrival_congr _ rfl (arriveP_arrivalTime s.currentTime),
   rfl,
   fun i => waitingOf_congr _ rfl (arriveP_pid s.currentTime)
     (arriveP_waitingTime s.currentTime) i⟩

theorem plumb_agePhase_tick (sC : SchedulerState) :
    sumRem (tickClock (agePhase sC)) = sumRem sC ∧
    maxArrival (tickClock (agePhase sC)) = maxArrival sC ∧
    (tickClock (agePhase sC)).currentTime = sC.currentTime + 1 := by
  refine ⟨?_, ?_, rfl⟩
  · show sumRem (tickClock (agePhase sC)) = sumRem sC
    have h1 : (tickClock (agePhase sC)).processes = sC.processes.map ageP := rfl
    exact sumRem_congr ageP h1 ageP_remainingTime
  · have h1 : (tickClock (agePhase sC)).processes = sC.processes.map ageP := rfl
    exact maxArrival_congr ageP h1 ageP_arrivalTime

theorem sum_exec {c : Nat} {t : Int} :
    ∀ (ps : List Process), (ps.map Process.pid).Nodup →
      ∀ p0 ∈ ps, p0.pid = c → 1 ≤ p0.remainingTime →
      ((ps.map (fun p => if p.pid = c then execOne t p else p)).map
          (fun p => p.remainingTime.toNat)).sum + 1 =
        (ps.map (fun p => p.remainingTime.toNat)).sum := by
  intro ps
  induction ps with
  | nil =>
    intro _ p0 hp0
    cases hp0
  | cons a l ih =>
    intro hnd p0 hp0 hpid hrem
    rw [List.map_cons, List.nodup_cons] at hnd
    rcases List.mem_cons.1 hp0 with rfl | hp0'
    · have htail : ∀ q ∈ l, q.pid ≠ c := by
        intro q hq hqc
        exact hnd.1 (by
          rw [hpid, ← hqc]
          exact List.mem_map_of_mem Process.pid hq)
      have hmaptail : l.map (fun p => if p.pid = c then execOne t p else p) = l :=
        map_eq_self_of (fun q hq => by rw [if_neg (htail q hq)])
      rw [List.map_cons, if_pos hpid, hmaptail, List.map_cons, List.sum_cons,
          List.map_cons, List.sum_cons, execOne_remainingTime]
      omega
    · have hac : a.pid ≠ c := by
        intro hacid
        exact hnd.1 (by
          rw [hacid, ← hpid]
          exact List.mem_map_of_mem Process.pid hp0')
      rw [List.map_cons, if_neg hac, List.map_cons, List.sum_cons,
          List.map_cons, List.sum_cons]
      have := ih hnd.2 p0 hp0' hpid hrem
      omega

theorem rem_pos_of_nonterm {s : SchedulerState} (h : EngineInv s)
    {p : Process} (hp : p ∈ s.processes)
    (hst : p.state ≠ ProcessState.TERMINATED) : 1 ≤ p.remainingTime := by
  cases hstate : p.state with
  | NEW =>
    have h1 := (h.newBound p hp hstate).2.1
    have h2 := (h.validFields p hp).1
    omega
  | READY => exact h.readyRem p hp hstate
  | RUNNING =>
    have hcur := h.runningCur p hp hstate
    obtain ⟨q, hq, hqid, _, hqrem⟩ := h.curRes p.pid hcur
    have : q = p := pid_injective h.pidNodup q hq p hp hqid
    rw [← this]
    exact hqrem
  | WAITING => exact absurd hstate (h.noWaiting p hp)
  | TERMINATED => exact absurd hstate hst

theorem sumRem_pos {s : SchedulerState} (h : EngineInv s)
    (hnt : ¬ allTerminated s = true) : 0 < sumRem s := by
  rw [allTerminated, List.all_eq_true] at hnt
  push_neg at hnt
  obtain ⟨p, hp, hpt⟩ := hnt
  have hpt' : p.state ≠ ProcessState.TERMINATED := by simpa using hpt
  have h1 := rem_pos_of_nonterm h hp hpt'
  have h2 : p.remainingTime.toNat ≤ sumRem s := by
    refine List.single_le_sum (fun x _ => Nat.zero_le x) _ ?_
    exact List.mem_map_of_mem _ hp
  omega

theorem allTerm_of_measure_zero {s : SchedulerState} (h : EngineInv s)
    (hm : measureM2 s = 0) : allTerminated s = true := by
  by_contra hnt
  have h1 := sumRem_pos h hnt
  unfold measureM2 at hm
  omega

/-- Completion transport: if a phase keeps terminated processes
terminated, then a non-fully-terminated post-state implies a
non-fully-terminated pre-state. -/
theorem nonterm_rev {s s' : SchedulerState} (F : Process → Process)
    (hss : s'.processes = s.processes.map F)
    (hF : ∀ p, p.state = ProcessState.TERMINATED →
      (F p).state = ProcessState.TERMINATED)
    (hnt : ¬ allTerminated s' = true) : ¬ allTerminated s = true := by
  intro hall
  apply hnt
  rw [allTerminated, List.all_eq_true] at hall ⊢
  intro q hq
  rw [hss, List.mem_map] at hq
  obtain ⟨p, hp, rfl⟩ := hq
  have h1 := hall p hp
  simp only [decide_eq_true_eq] at h1 ⊢
  exact hF p h1

theorem nonterm_back_plain {sB : SchedulerState}
    (hnt : ¬ allTerminated (tickClock (agePhase (executePlain sB))) = true) :
    ¬ allTerminated sB = true := by
  have h1 : ¬ allTerminated (executePlain sB) = true := by
    refine nonterm_rev ageP rfl ?_ hnt
    intro p hp
    rw [ageP_of_not_ready (by rw [hp]; exact fun hw => ProcessState.noConfusion hw)]
    exact hp
  rcases hc : sB.current with _ | c
  · rw [executePlain_none hc] at h1
    exact h1
  · refine nonterm_rev
      (fun p => if p.pid = c then execOne sB.currentTime p else p) ?_ ?_ h1
    · by_cases hd : remOf sB c - 1 = 0
      · rw [executePlain_done hc hd]
      · rw [executePlain_cont hc hd]
    · intro p hp
      by_cases hpc : p.pid = c
      · show ((if p.pid = c then execOne sB.currentTime p else p) :
          Process).state = ProcessState.TERMINATED
        rw [if_pos hpc]
        by_cases hz : p.remainingTime - 1 = 0
        · rw [execOne_done_eq hz]
        · rw [execOne_cont_eq hz]
          exact hp
      · show ((if p.pid = c then execOne sB.currentTime p else p) :
          Process).state = ProcessState.TERMINATED
        rw [if_neg hpc]
        exact hp

theorem nonterm_back_rr {sB : SchedulerState}
    (hnt : ¬ allTerminated (tickClock (agePhase (executeRR sB))) = true) :
    ¬ allTerminated sB = true := by
  have heq : allTerminated (tickClock (agePhase (executeRR sB))) =
      allTerminated (tickClock (agePhase (executePlain sB))) := by
    unfold allTerminated
    show ((executeRR sB).processes.map ageP).all _ =
      ((executePlain sB).processes.map ageP).all _
    rw [executeRR_processes]
  rw [heq] at hnt
  exact nonterm_back_plain hnt

theorem sumRem_executePlain_some {sB : SchedulerState} {c : Nat}
    (hc : sB.current = some c)
    (hnd : (sB.processes.map Process.pid).Nodup)
    (p0 : Process) (hp0 : p0 ∈ sB.processes) (hpid : p0.pid = c)
    (hrem : 1 ≤ p0.remainingTime) :
    sumRem (executePlain sB) + 1 = sumRem sB := by
  have hps : (executePlain sB).processes =
      sB.processes.map
        (fun p => if p.pid = c then execOne sB.currentTime p else p) := by
    by_cases hd : remOf sB c - 1 = 0
    · rw [executePlain_done hc hd]
    · rw [executePlain_cont hc hd]
  unfold sumRem
  rw [hps]
  exact sum_exec sB.processes hnd p0 hp0 hpid hrem

theorem plumb_executePlain (sB : SchedulerState) :
    maxArrival (executePlain sB) = maxArrival sB ∧
    (executePlain sB).currentTime = sB.currentTime := by
  rcases hc : sB.current with _ | c
  · rw [executePlain_none hc]
    exact ⟨rfl, rfl⟩
  · have harr : ∀ p : Process,
        ((if p.pid = c then execOne sB.currentTime p else p) :
          Process).arrivalTime = p.arrivalTime := by
      intro p
      by_cases hpc : p.pid = c
      · rw [if_pos hpc, execOne_arrivalTime]
      · rw [if_neg hpc]
    by_cases hd : remOf sB c - 1 = 0
    · rw [executePlain_done hc hd]
      exact ⟨maxArrival_congr _ rfl harr, rfl⟩
    · rw [executePlain_cont hc hd]
      exact ⟨maxArrival_congr _ rfl harr, rfl⟩

/-- The central decrease argument for the plain schedulers: at a
mid-iteration state satisfying the dispatch postcondition, if not every
process is terminated, finishing the iteration strictly decreases the
measure (relative to a pre-state with the same metrics). -/
theorem measure_decrease_plain {s sB : SchedulerState} (hB : MidInvB sB)
    (hmax : maxArrival sB = maxArrival s)
    (hsum : sumRem sB = sumRem s)
    (htime : sB.currentTime = s.currentTime)
    (hnt : ¬ allTerminated sB = true) :
    measureM2 (tickClock (agePhase (executePlain sB))) < measureM2 s := by
  obtain ⟨hInv, hIdle⟩ := hB
  rcases hc : sB.current with _ | c
  · have hq := hIdle hc
    obtain ⟨hs2, hm2, ht2⟩ := plumb_agePhase_tick sB
    rw [executePlain_none hc]
    rw [allTerminated, List.all_eq_true] at hnt
    push_neg at hnt
    obtain ⟨p, hp, hpt⟩ := hnt
    have hpt' : p.state ≠ ProcessState.TERMINATED := by simpa using hpt
    have hnew : p.state = ProcessState.NEW := by
      cases hstv : p.state with
      | NEW => rfl
      | READY =>
        have hin := hInv.readyInQueue p hp hstv
        rw [hq] at hin
        cases hin
      | RUNNING =>
        have hcur := hInv.runningCur p hp hstv
        rw [hc] at hcur
        exact Option.noConfusion hcur
      | WAITING => exact absurd hstv (hInv.noWaiting p hp)
      | TERMINATED => exact absurd hstv hpt'
    have harr := (hInv.newBound p hp hnew).1
    have hmaxp : p.arrivalTime ≤ maxArrival sB := le_maxArrival hp
    have h1 : s.currentTime + 1 ≤ maxArrival s := by
      rw [← htime, ← hmax]
      omega
    unfold measureM2
    rw [hs2, hm2, ht2, hmax, hsum, htime]
    omega
  · obtain ⟨p0, hp0, hpid, hrun, hrem⟩ := hInv.curRes c hc
    have hdec := sumRem_executePlain_some hc hInv.pidNodup p0 hp0 hpid hrem
    obtain ⟨hs2, hm2, ht2⟩ := plumb_agePhase_tick (executePlain sB)
    obtain ⟨hmE, htE⟩ := plumb_executePlain sB
    have hd2 : sumRem (executePlain sB) + 1 = sumRem s := by
      rw [hdec, hsum]
    unfold measureM2
    rw [hs2, hm2, ht2, hmE, htE, hmax, htime]
    omega

theorem measure_decrease_rr {s sB : SchedulerState} (hB : MidInvB sB)
    (hmax : maxArrival sB = maxArrival s)
    (hsum : sumRem sB = sumRem s)
    (htime : sB.currentTime = s.currentTime)
    (hnt : ¬ allTerminated sB = true) :
    measureM2 (tickClock (agePhase (executeRR sB))) < measureM2 s := by
  have hkey := measure_decrease_plain hB hmax hsum htime hnt
  have heq : measureM2 (tickClock (agePhase (executeRR sB))) =
      measureM2 (tickClock (agePhase (executePlain sB))) := by
    have hp : (tickClock (agePhase (executeRR sB))).processes =
        (tickClock (agePhase (executePlain sB))).processes := by
      show (executeRR sB).processes.map ageP =
        (executePlain sB).processes.map ageP
      rw [executeRR_processes]
    have ht : (tickClock (agePhase (executeRR sB))).currentTime =
        (tickClock (agePhase (executePlain sB))).currentTime := by
      show (executeRR sB).currentTime + 1 =
        (executePlain sB).currentTime + 1
      rw [executeRR_currentTime]
    unfold measureM2 sumRem maxArrival
    rw [hp, ht]
  rw [heq]
  exact hkey

theorem measure_lt_fcfsStep {s : SchedulerState} (h : EngineInv s)
    (hnt : ¬ allTerminated (fcfsStep s) = true) :
    measureM2 (fcfsStep s) < measureM2 s := by
  have hmid : MidInvB (dispatchFCFS (checkArrivals s)) :=
    midInvB_dispatchFCFS (midInv_checkArrivals h)
  obtain ⟨hsC, hmC, htC, _⟩ := plumb_checkArrivals s
  obtain ⟨hsD, hmD, htD, _⟩ := plumb_dispatchFCFS (checkArrivals s)
  have hnt' : ¬ allTerminated
      (tickClock (agePhase (executePlain (dispatchFCFS (checkArrivals s))))) =
      true := hnt
  have hntB := nonterm_back_plain hnt'
  exact measure_decrease_plain hmid (by rw [hmD, hmC]) (by rw [hsD, hsC])
    (by rw [htD, htC]) hntB

theorem measure_lt_sjfStep {s : SchedulerState} (h : EngineInv s)
    (hnt : ¬ allTerminated (sjfStep s) = true) :
    measureM2 (sjfStep s) < measureM2 s := by
  have hmid : MidInvB (dispatchSJF (checkArrivals s)) :=
    midInvB_dispatchSJF (midInv_checkArrivals h)
  obtain ⟨hsC, hmC, htC, _⟩ := plumb_checkArrivals s
  obtain ⟨hsD, hmD, htD, _⟩ := plumb_dispatchSJF (checkArrivals s)
  have hnt' : ¬ allTerminated
      (tickClock (agePhase (executePlain (dispatchSJF (checkArrivals s))))) =
      true := hnt
  have hntB := nonterm_back_plain hnt'
  exact measure_decrease_plain hmid (by rw [hmD, hmC]) (by rw [hsD, hsC])
    (by rw [htD, htC]) hntB

theorem measure_lt_prioStep {s : SchedulerState} (h : EngineInv s)
    (hnt : ¬ allTerminated (prioStep s) = true) :
    measureM2 (prioStep s) < measureM2 s := by
  have hmid : MidInvB (dispatchPrio (checkArrivals s)) :=
    midInvB_dispatchPrio (midInv_checkArrivals h)
  obtain ⟨hsC, hmC, htC, _⟩ := plumb_checkArrivals s
  obtain ⟨hsD, hmD, htD, _⟩ := plumb_dispatchPrio (checkArrivals s)
  have hnt' : ¬ allTerminated
      (tickClock (agePhase (executePlain (dispatchPrio (checkArrivals s))))) =
      true := hnt
  have hntB := nonterm_back_plain hnt'
  exact measure_decrease_plain hmid (by rw [hmD, hmC]) (by rw [hsD, hsC])
    (by rw [htD, htC]) hntB

theorem measure_lt_rrStep {s : SchedulerState} (h : EngineInv s)
    (hnt : ¬ allTerminated (rrStep s) = true) :
    measureM2 (rrStep s) < measureM2 s := by
  have hmid : MidInvB (rrSwitch (checkArrivals s)) :=
    midInvB_rrSwitch (midInv_checkArrivals h)
  obtain ⟨hsC, hmC, htC, _⟩ := plumb_checkArrivals s
  obtain ⟨hsD, hmD, htD, _⟩ := plumb_rrSwitch (checkArrivals s)
  have hnt' : ¬ allTerminated
      (tickClock (agePhase (executeRR (rrSwitch (checkArrivals s))))) =
      true := hnt
  have hntB := nonterm_back_rr hnt'
  exact measure_decrease_rr hmid (by rw [hmD, hmC]) (by rw [hsD, hsC])
    (by rw [htD, htC]) hntB

/-- The fuelled loop exits with everything terminated whenever the fuel
covers the initial measure. -/
theorem runLoop_allTerm (step : SchedulerState → SchedulerState)
    (hstep : ∀ s, EngineInv s → EngineInv (step s))
    (hdec : ∀ s, EngineInv s → ¬ allTerminated (step s) = true →
      measureM2 (step s) < measureM2 s) :
    ∀ (fuel : Nat) (s : SchedulerState), EngineInv s → measureM2 s ≤ fuel →
      allTerminated (runLoop step fuel s) = true := by
  intro fuel
  induction fuel with
  | zero =>
    intro s h hm
    exact allTerm_of_measure_zero h (Nat.le_zero.1 hm)
  | succ n ih =>
    intro s h hm
    unfold runLoop
    split
    · rename_i ht
      exact ht
    · rename_i ht
      have hlt := hdec s h ht
      exact ih (step s) (hstep s h) (by omega)

theorem foldr_max_perm {l1 l2 : List Int} (h : l1.Perm l2) :
    List.foldr max (0 : Int) l1 = List.foldr max (0 : Int) l2 := by
  induction h with
  | nil => rfl
  | cons x h ih => rw [List.foldr_cons, List.foldr_cons, ih]
  | swap x y l =>
    rw [List.foldr_cons, List.foldr_cons, List.foldr_cons, List.foldr_cons,
        ← max_assoc, max_comm y x, max_assoc]
  | trans h1 h2 ih1 ih2 => rw [ih1, ih2]

/-- The initial measure of any reset state equals the fuel bound. -/
theorem measure_mkState_of (l ps : List Process) (tq qr : Int)
    (hperm : l.Perm (ps.map resetP)) :
    measureM2 (mkState l tq qr) = termBound ps := by
  have hmax : maxArrival (mkState l tq qr) =
      List.foldr max (0 : Int) (ps.map (fun p => p.arrivalTime)) := by
    show List.foldr max (0 : Int) (l.map (fun p => p.arrivalTime)) = _
    rw [foldr_max_perm (hperm.map (fun p => p.arrivalTime)), List.map_map]
    exact congrArg (List.foldr max (0 : Int))
      (List.map_congr_left (fun a _ => rfl))
  have hsum : sumRem (mkState l tq qr) =
      (ps.map (fun p => p.burstTime.toNat)).sum := by
    show (l.map (fun p => p.remainingTime.toNat)).sum = _
    rw [(hperm.map (fun p => p.remainingTime.toNat)).sum_eq, List.map_map]
    exact congrArg List.sum (List.map_congr_left (fun a _ => rfl))
  show (maxArrival (mkState l tq qr) - (mkState l tq qr).currentTime).toNat +
    sumRem (mkState l tq qr) = termBound ps
  rw [hmax, hsum]
  show (List.foldr max (0 : Int) (ps.map (fun p => p.arrivalTime)) - 0).toNat +
    (ps.map (fun p => p.burstTime.toNat)).sum = termBound ps
  rw [Int.sub_zero]
  rfl

theorem measure_fcfsInit (ps : List Process) :
    measureM2 (fcfsInit ps) = termBound ps :=
  measure_mkState_of (sortByArrival (ps.map resetP)) ps 0 0
    (sortByArrival_perm (ps.map resetP))

theorem measure_plainInit (ps : List Process) :
    measureM2 (plainInit ps) = termBound ps :=
  measure_mkState_of (ps.map resetP) ps 0 0 (List.Perm.refl _)

theorem measure_rrInit (tq : Int) (ps : List Process) :
    measureM2 (rrInit tq ps) = termBound ps :=
  measure_mkState_of (ps.map resetP) ps tq tq (List.Perm.refl _)

/-! ### Pid preservation through the loop -/

theorem pids_checkArrivals (s : SchedulerState) :
    (checkArrivals s).processes.map Process.pid =
      s.processes.map Process.pid := by
  show (s.processes.map (arriveP s.currentTime)).map Process.pid = _
  exact map_proj_comp' Process.pid (arriveP_pid s.currentTime)

theorem pids_dispatchFCFS (sA : SchedulerState) :
    (dispatchFCFS sA).processes.map Process.pid =
      sA.processes.map Process.pid := by
  rcases hc : sA.current with _ | c
  · match hqv : sA.readyQueue with
    | [] => rw [dispatchFCFS_idle_empty hc hqv]
    | j :: rest =>
      rw [dispatchFCFS_idle_pop hc hqv]
      exact map_proj_comp' Process.pid (ite_startP_pid sA.currentTime j)
  · rw [dispatchFCFS_busy hc]

theorem pids_dispatchSJF (sA : SchedulerState) :
    (dispatchSJF sA).processes.map Process.pid =
      sA.processes.map Process.pid := by
  rcases hc : sA.current with _ | c
  · match hqv : sA.readyQueue with
    | [] => rw [dispatchSJF_empty hqv]
    | j :: rest =>
      have hne : sA.readyQueue ≠ [] := by rw [hqv]; simp
      rcases hsel : selectFrom (burstOf sA) sA.readyQueue with _ | ⟨m, r⟩
      · rw [hqv, selectFrom] at hsel
        exact Option.noConfusion hsel
      · rw [dispatchSJF_go hc hne hsel]
        exact map_proj_comp' Process.pid (ite_startP_pid sA.currentTime m)
  · rw [dispatchSJF_busy hc]

theorem pids_dispatchPrio (sA : SchedulerState) :
    (dispatchPrio sA).processes.map Process.pid =
      sA.processes.map Process.pid := by
  rcases hc : sA.current with _ | c
  · match hqv : sA.readyQueue with
    | [] => rw [dispatchPrio_empty hqv]
    | j :: rest =>
      have hne : sA.readyQueue ≠ [] := by rw [hqv]; simp
      rcases hsel : selectFrom (prioOf sA) sA.readyQueue with _ | ⟨m, r⟩
      · rw [hqv, selectFrom] at hsel
        exact Option.noConfusion hsel
      · rw [dispatchPrio_go hc hne hsel]
        exact map_proj_comp' Process.pid (ite_startP_pid sA.currentTime m)
  · rw [dispatchPrio_busy hc]

theorem pids_rrPreempt (s : SchedulerState) :
    (rrPreempt s).processes.map Process.pid =
      s.processes.map Process.pid := by
  rcases hc : s.current with _ | c
  · rw [rrPreempt_none hc]
  · by_cases hg : s.quantumRemaining = 0 ∧ 0 < remOf s c
    · rw [rrPreempt_go hc hg.1 hg.2]
      exact map_proj_comp' Process.pid (ite_ready_pid c)
    · rw [rrPreempt_skip hc hg]

theorem pids_rrSwitch (sA : SchedulerState) :
    (rrSwitch sA).processes.map Process.pid =
      sA.processes.map Process.pid := by
  by_cases hcond : (sA.current = none ∨ sA.quantumRemaining = 0) ∧
      sA.readyQueue ≠ []
  · match hq1 : (rrPreempt sA).readyQueue with
    | [] =>
      rw [rrSwitch_go_empty hcond hq1]
      exact pids_rrPreempt sA
    | j :: rest =>
      rw [rrSwitch_go_pop hcond hq1]
      show ((rrPreempt sA).processes.map
        (fun p => if p.pid = j then startP (rrPreempt sA).currentTime p
          else p)).map Process.pid = _
      rw [map_proj_comp' Process.pid
        (ite_startP_pid (rrPreempt sA).currentTime j)]
      exact pids_rrPreempt sA
  · rw [rrSwitch_noswitch hcond]

theorem pids_executePlain (sB : SchedulerState) :
    (executePlain sB).processes.map Process.pid =
      sB.processes.map Process.pid := by
  rcases hc : sB.current with _ | c
  · rw [executePlain_none hc]
  · have hpid : ∀ p : Process,
        Process.pid ((if p.pid = c then execOne sB.currentTime p else p) :
          Process) = p.pid := by
      intro p
      by_cases hpc : p.pid = c
      · show ((if p.pid = c then execOne sB.currentTime p else p) :
          Process).pid = p.pid
        rw [if_pos hpc, execOne_pid]
      · show ((if p.pid = c then execOne sB.currentTime p else p) :
          Process).pid = p.pid
        rw [if_neg hpc]
    by_cases hd : remOf sB c - 1 = 0
    · rw [executePlain_done hc hd]
      exact map_proj_comp' Process.pid hpid
    · rw [executePlain_cont hc hd]
      exact map_proj_comp' Process.pid hpid

theorem pids_finish (sB : SchedulerState) :
    (tickClock (agePhase sB)).processes.map Process.pid =
      sB.processes.map Process.pid := by
  show (sB.processes.map ageP).map Process.pid = _
  exact map_proj_comp' Process.pid ageP_pid

theorem pids_fcfsStep (s : SchedulerState) :
    (fcfsStep s).processes.map Process.pid = s.processes.map Process.pid := by
  show (tickClock (agePhase (executePlain (dispatchFCFS
    (checkArrivals s))))).processes.map Process.pid = _
  rw [pids_finish, pids_executePlain, pids_dispatchFCFS, pids_checkArrivals]

theorem pids_sjfStep (s : SchedulerState) :
    (sjfStep s).processes.map Process.pid = s.processes.map Process.pid := by
  show (tickClock (agePhase (executePlain (dispatchSJF
    (checkArrivals s))))).processes.map Process.pid = _
  rw [pids_finish, pids_executePlain, pids_dispatchSJF, pids_checkArrivals]

theorem pids_prioStep (s : SchedulerState) :
    (prioStep s).processes.map Process.pid = s.processes.map Process.pid := by
  show (tickClock (agePhase (executePlain (dispatchPrio
    (checkArrivals s))))).processes.map Process.pid = _
  rw [pids_finish, pids_executePlain, pids_dispatchPrio, pids_checkArrivals]

theorem pids_rrStep (s : SchedulerState) :
    (rrStep s).processes.map Process.pid = s.processes.map Process.pid := by
  show (tickClock (agePhase (executeRR (rrSwitch
    (checkArrivals s))))).processes.map Process.pid = _
  rw [pids_finish]
  show (executeRR (rrSwitch (checkArrivals s))).processes.map Process.pid = _
  rw [executeRR_processes, pids_executePlain, pids_rrSwitch, pids_checkArrivals]

theorem pids_runLoop (step : SchedulerState → SchedulerState)
    (hstep : ∀ s, (step s).processes.map Process.pid =
      s.processes.map Process.pid) :
    ∀ (fuel : Nat) (s : SchedulerState),
      (runLoop step fuel s).processes.map Process.pid =
        s.processes.map Process.pid := by
  intro fuel
  induction fuel with
  | zero => intro s; rfl
  | succ n ih =>
    intro s
    unfold runLoop
    split
    · exact hstep s
    · rw [ih (step s), hstep s]

theorem pids_plainInit (ps : List Process) :
    (plainInit ps).processes.map Process.pid = ps.map Process.pid := by
  show (ps.map resetP).map Process.pid = _
  rw [List.map_map]
  exact List.map_congr_left (fun a _ => rfl)

theorem pids_rrInit (tq : Int) (ps : List Process) :
    (rrInit tq ps).processes.map Process.pid = ps.map Process.pid := by
  show (ps.map resetP).map Process.pid = _
  rw [List.map_map]
  exact List.map_congr_left (fun a _ => rfl)

theorem pids_fcfsInit (ps : List Process) :
    ((fcfsInit ps).processes.map Process.pid).Perm (ps.map Process.pid) := by
  show ((sortByArrival (ps.map resetP)).map Process.pid).Perm _
  have h1 := (sortByArrival_perm (ps.map resetP)).map Process.pid
  have h2 : (ps.map resetP).map Process.pid = ps.map Process.pid := by
    rw [List.map_map]
    exact List.map_congr_left (fun a _ => rfl)
  rw [h2] at h1
  exact h1

/-- **C8**: for every process set in which every process has positive
burst time and non-negative arrival time (with distinct pids, which
`Scheduler::addProcess` guarantees), each of the four schedulers' main
simulation loops exits within `termBound ps` iterations (largest arrival
plus total work), and at exit every registered process — the final
process list carries exactly the registered pids — is in state
`TERMINATED`. -/
theorem spec_c8 (ps : List Process) (tq : Int) (fuel : Nat)
    (hvalid : ∀ p ∈ ps, 0 < p.burstTime ∧ 0 ≤ p.arrivalTime)
    (hnd : (ps.map Process.pid).Nodup)
    (hfuel : termBound ps ≤ fuel) :
    (allTerminated (fcfsRun fuel ps) = true ∧
      ((fcfsRun fuel ps).processes.map Process.pid).Perm
        (ps.map Process.pid)) ∧
    (allTerminated (sjfRun fuel ps) = true ∧
      (sjfRun fuel ps).processes.map Process.pid = ps.map Process.pid) ∧
    (allTerminated (prioRun fuel ps) = true ∧
      (prioRun fuel ps).processes.map Process.pid = ps.map Process.pid) ∧
    (allTerminated (rrRun fuel tq ps) = true ∧
      (rrRun fuel tq ps).processes.map Process.pid = ps.map Process.pid) := by
  refine ⟨⟨?_, ?_⟩, ⟨?_, ?_⟩, ⟨?_, ?_⟩, ⟨?_, ?_⟩⟩
  · exact runLoop_allTerm fcfsStep (fun s h => engineInv_fcfsStep h)
      (fun s h hnt => measure_lt_fcfsStep h hnt) fuel (fcfsInit ps)
      (engineInv_fcfsInit ps hvalid hnd)
      (le_trans (le_of_eq (measure_fcfsInit ps)) hfuel)
  · show ((runLoop fcfsStep fuel (fcfsInit ps)).processes.map
      Process.pid).Perm _
    rw [pids_runLoop fcfsStep pids_fcfsStep fuel (fcfsInit ps)]
    exact pids_fcfsInit ps
  · exact runLoop_allTerm sjfStep (fun s h => engineInv_sjfStep h)
      (fun s h hnt => measure_lt_sjfStep h hnt) fuel (plainInit ps)
      (engineInv_plainInit ps hvalid hnd)
      (le_trans (le_of_eq (measure_plainInit ps)) hfuel)
  · show (runLoop sjfStep fuel (plainInit ps)).processes.map Process.pid = _
    rw [pids_runLoop sjfStep pids_sjfStep fuel (plainInit ps)]
    exact pids_plainInit ps
  · exact runLoop_allTerm prioStep (fun s h => engineInv_prioStep h)
      (fun s h hnt => measure_lt_prioStep h hnt) fuel (plainInit ps)
      (engineInv_plainInit ps hvalid hnd)
      (le_trans (le_of_eq (measure_plainInit ps)) hfuel)
  · show (runLoop prioStep fuel (plainInit ps)).processes.map Process.pid = _
    rw [pids_runLoop prioStep pids_prioStep fuel (plainInit ps)]
    exact pids_plainInit ps
  · exact runLoop_allTerm rrStep (fun s h => engineInv_rrStep h)
      (fun s h hnt => measure_lt_rrStep h hnt) fuel (rrInit tq ps)
      (engineInv_rrInit tq ps hvalid hnd)
      (le_trans (le_of_eq (measure_rrInit tq ps)) hfuel)
  · show (runLoop rrStep fuel (rrInit tq ps)).processes.map Process.pid = _
    rw [pids_runLoop rrStep pids_rrStep fuel (rrInit tq ps)]
    exact pids_rrInit tq ps

/-- Witness for C8 on the two-process demo set with fuel
`termBound demoPs = 9` and Round-Robin quantum 2. -/
theorem spec_c8_witness :
    ((∀ p ∈ demoPs, 0 < p.burstTime ∧ 0 ≤ p.arrivalTime) ∧
      (demoPs.map Process.pid).Nodup ∧ termBound demoPs ≤ 9) ∧
    ((allTerminated (fcfsRun 9 demoPs) = true ∧
      ((fcfsRun 9 demoPs).processes.map Process.pid).Perm
        (demoPs.map Process.pid)) ∧
     (allTerminated (sjfRun 9 demoPs) = true ∧
      (sjfRun 9 demoPs).processes.map Process.pid =
        demoPs.map Process.pid) ∧
     (allTerminated (prioRun 9 demoPs) = true ∧
      (prioRun 9 demoPs).processes.map Process.pid =
        demoPs.map Process.pid) ∧
     (allTerminated (rrRun 9 2 demoPs) = true ∧
      (rrRun 9 2 demoPs).processes.map Process.pid =
        demoPs.map Process.pid)) :=
  ⟨⟨by decide, by decide, by decide⟩,
    spec_c8 demoPs 2 9 (by decide) (by decide) (by decide)⟩

/-! ## `runSimulation` (claim C5) -/

theorem validate_true_iff (regs : List (Option Process)) :
    validateProcessSet regs = true ↔
      regs ≠ [] ∧ ∀ op ∈ regs, validP op = true := by
  unfold validateProcessSet
  rw [Bool.and_eq_true, List.all_eq_true]
  constructor
  · rintro ⟨h1, h2⟩
    refine ⟨?_, h2⟩
    intro he
    rw [he] at h1
    exact Bool.noConfusion h1
  · rintro ⟨h1, h2⟩
    refine ⟨?_, h2⟩
    cases regs with
    | nil => exact absurd rfl h1
    | cons a l => rfl

theorem validP_false_iff (op : Option Process) :
    validP op = false ↔
      op = none ∨
        ∃ p, op = some p ∧ (p.burstTime ≤ 0 ∨ p.arrivalTime < 0) := by
  cases op with
  | none => exact ⟨fun _ => Or.inl rfl, fun _ => rfl⟩
  | some p =>
    constructor
    · intro h
      refine Or.inr ⟨p, rfl, ?_⟩
      by_cases hb : 0 < p.burstTime
      · by_cases ha : 0 ≤ p.arrivalTime
        · exfalso
          have h' : (decide (0 < p.burstTime) &&
            decide (0 ≤ p.arrivalTime)) = false := h
          rw [decide_eq_true hb, decide_eq_true ha] at h'
          exact Bool.noConfusion h'
        · exact Or.inr (by omega)
      · exact Or.inl (by omega)
    · intro h
      rcases h with h | ⟨q, hq, hbad⟩
      · exact Option.noConfusion h
      · have hpq : p = q := Option.some.inj hq
        subst hpq
        rcases hbad with hb | ha
        · have hnb : ¬ 0 < p.burstTime := by omega
          simp [validP, hnb]
        · have hna : ¬ 0 ≤ p.arrivalTime := by omega
          simp [validP, hna]

theorem runSim_none_iff (step : SchedulerState → SchedulerState)
    (initOf : List Process → SchedulerState) (fuel : Nat)
    (regs : List (Option Process)) :
    runSimulation step initOf fuel regs = none ↔
      validateProcessSet regs = false := by
  unfold runSimulation
  cases hv : validateProcessSet regs with
  | true =>
    rw [if_pos rfl]
    exact ⟨fun h => Option.noConfusion h, fun h => Bool.noConfusion h⟩
  | false =>
    rw [if_neg (fun h => Bool.noConfusion h)]
    exact ⟨fun _ => rfl, fun _ => rfl⟩

theorem mem_filterMap_id {p : Process} {regs : List (Option Process)} :
    p ∈ regs.filterMap id ↔ some p ∈ regs := by
  rw [List.mem_filterMap]
  constructor
  · rintro ⟨op, hop, hid⟩
    have : op = some p := hid
    rw [this] at hop
    exact hop
  · intro h
    exact ⟨some p, h, rfl⟩

theorem runSim_success_of (step : SchedulerState → SchedulerState)
    (initOf : List Process → SchedulerState) (fuel : Nat)
    (regs : List (Option Process))
    (hv : validateProcessSet regs = true)
    (hterm : allTerminated
      (runLoop step fuel (initOf (regs.filterMap id))) = true) :
    ∃ final, runSimulation step initOf fuel regs = some final ∧
      allTerminated final = true := by
  refine ⟨calculateStatistics
    (runLoop step fuel (initOf (regs.filterMap id))), ?_, ?_⟩
  · show (if validateProcessSet regs then
        some (if allTerminated (runLoop step fuel (initOf (regs.filterMap id)))
          then calculateStatistics
            (runLoop step fuel (initOf (regs.filterMap id)))
          else runLoop step fuel (initOf (regs.filterMap id)))
      else none) = _
    rw [if_pos hv, if_pos hterm]
  · show allTerminated
      (runLoop step fuel (initOf (regs.filterMap id))) = true
    exact hterm

theorem valid_of_validate {regs : List (Option Process)}
    (hv : validateProcessSet regs = true) :
    ∀ p ∈ regs.filterMap id, 0 < p.burstTime ∧ 0 ≤ p.arrivalTime := by
  intro p hp
  have h1 := (validate_true_iff regs).1 hv
  have h2 : (decide (0 < p.burstTime) &&
      decide (0 ≤ p.arrivalTime)) = true :=
    h1.2 (some p) (mem_filterMap_id.1 hp)
  rw [Bool.and_eq_true] at h2
  exact ⟨of_decide_eq_true h2.1, of_decide_eq_true h2.2⟩

/-- **C5**: `runSimulation` returns failure — performing no simulation —
exactly when the registered set is empty, holds a null handle, a
non-positive burst or a negative arrival; otherwise the loop starts from
a state with the clock, ready queue and CPU cleared and every registered
process reset, and with fuel covering the run it returns success with
every registered process `TERMINATED`. -/
theorem spec_c5 (regs : List (Option Process)) (fuel : Nat) (tq : Int) :
    (∀ step initOf, runSimulation step initOf fuel regs = none ↔
      (regs = [] ∨ none ∈ regs ∨
        ∃ p, some p ∈ regs ∧ (p.burstTime ≤ 0 ∨ p.arrivalTime < 0))) ∧
    (∀ s0, (s0 = fcfsInit (regs.filterMap id) ∨
            s0 = plainInit (regs.filterMap id) ∨
            s0 = rrInit tq (regs.filterMap id)) →
      s0.currentTime = 0 ∧ s0.readyQueue = [] ∧ s0.current = none ∧
      ∀ q ∈ s0.processes, IsReset q ∧ ∃ p, some p ∈ regs ∧ q = resetP p) ∧
    (validateProcessSet regs = true →
      ((regs.filterMap id).map Process.pid).Nodup →
      termBound (regs.filterMap id) ≤ fuel →
      (∃ final, runSimulation fcfsStep fcfsInit fuel regs = some final ∧
        allTerminated final = true) ∧
      (∃ final, runSimulation sjfStep plainInit fuel regs = some final ∧
        allTerminated final = true) ∧
      (∃ final, runSimulation prioStep plainInit fuel regs = some final ∧
        allTerminated final = true) ∧
      (∃ final, runSimulation rrStep (rrInit tq) fuel regs = some final ∧
        allTerminated final = true)) := by
  refine ⟨?_, ?_, ?_⟩
  · intro step initOf
    rw [runSim_none_iff]
    constructor
    · intro h
      cases he : decide (regs = []) with
      | true => exact Or.inl (of_decide_eq_true he)
      | false =>
        have hne : regs ≠ [] := of_decide_eq_false he
        have hnot : ¬ ∀ op ∈ regs, validP op = true := by
          intro hall
          have := (validate_true_iff regs).2 ⟨hne, hall⟩
          rw [this] at h
          exact Bool.noConfusion h
        push_neg at hnot
        obtain ⟨op, hop, hbad⟩ := hnot
        have hfalse : validP op = false := by
          cases hb : validP op
          · rfl
          · exact absurd hb hbad
        rcases (validP_false_iff op).1 hfalse with h1 | ⟨p, hp, hcond⟩
        · exact Or.inr (Or.inl (h1 ▸ hop))
        · exact Or.inr (Or.inr ⟨p, hp ▸ hop, hcond⟩)
    · intro h
      cases hb : validateProcessSet regs with
      | false => rfl
      | true =>
        exfalso
        obtain ⟨hne, hall⟩ := (validate_true_iff regs).1 hb
        rcases h with h | h | ⟨p, hp, hcond⟩
        · exact hne h
        · exact Bool.noConfusion (hall none h)
        · have h2 : (decide (0 < p.burstTime) &&
              decide (0 ≤ p.arrivalTime)) = true := hall (some p) hp
          rw [Bool.and_eq_true] at h2
          have hb2 := of_decide_eq_true h2.1
          have ha2 := of_decide_eq_true h2.2
          rcases hcond with hc | hc <;> omega
  · intro s0 hs0
    rcases hs0 with rfl | rfl | rfl
    · refine ⟨rfl, rfl, rfl, ?_⟩
      intro q hq
      obtain ⟨p, hp, rfl⟩ :=
        List.mem_map.1 (mem_sortByArrival.1 hq)
      exact ⟨⟨rfl, rfl, rfl, rfl, rfl, rfl, rfl⟩,
        p, mem_filterMap_id.1 hp, rfl⟩
    · refine ⟨rfl, rfl, rfl, ?_⟩
      intro q hq
      obtain ⟨p, hp, rfl⟩ := List.mem_map.1 hq
      exact ⟨⟨rfl, rfl, rfl, rfl, rfl, rfl, rfl⟩,
        p, mem_filterMap_id.1 hp, rfl⟩
    · refine ⟨rfl, rfl, rfl, ?_⟩
      intro q hq
      obtain ⟨p, hp, rfl⟩ := List.mem_map.1 hq
      exact ⟨⟨rfl, rfl, rfl, rfl, rfl, rfl, rfl⟩,
        p, mem_filterMap_id.1 hp, rfl⟩
  · intro hv hnd hfuel
    have hvalid := valid_of_validate hv
    refine ⟨?_, ?_, ?_, ?_⟩
    · exact runSim_success_of fcfsStep fcfsInit fuel regs hv
        (runLoop_allTerm fcfsStep (fun s h => engineInv_fcfsStep h)
          (fun s h hnt => measure_lt_fcfsStep h hnt) fuel _
          (engineInv_fcfsInit _ hvalid hnd)
          (le_trans (le_of_eq (measure_fcfsInit _)) hfuel))
    · exact runSim_success_of sjfStep plainInit fuel regs hv
        (runLoop_allTerm sjfStep (fun s h => engineInv_sjfStep h)
          (fun s h hnt => measure_lt_sjfStep h hnt) fuel _
          (engineInv_plainInit _ hvalid hnd)
          (le_trans (le_of_eq (measure_plainInit _)) hfuel))
    · exact runSim_success_of prioStep plainInit fuel regs hv
        (runLoop_allTerm prioStep (fun s h => engineInv_prioStep h)
          (fun s h hnt => measure_lt_prioStep h hnt) fuel _
          (engineInv_plainInit _ hvalid hnd)
          (le_trans (le_of_eq (measure_plainInit _)) hfuel))
    · exact runSim_success_of rrStep (rrInit tq) fuel regs hv
        (runLoop_allTerm rrStep (fun s h => engineInv_rrStep h)
          (fun s h hnt => measure_lt_rrStep h hnt) fuel _
          (engineInv_rrInit tq _ hvalid hnd)
          (le_trans (le_of_eq (measure_rrInit tq _)) hfuel))

/-- Witness for C5 on the registered demo handles, fuel 9, quantum 2. -/
theorem spec_c5_witness :
    (validateProcessSet demoRegs = true ∧
     ((demoRegs.filterMap id).map Process.pid).Nodup ∧
     termBound (demoRegs.filterMap id) ≤ 9) ∧
    ((∃ final, runSimulation fcfsStep fcfsInit 9 demoRegs = some final ∧
        allTerminated final = true) ∧
     (∃ final, runSimulation sjfStep plainInit 9 demoRegs = some final ∧
        allTerminated final = true) ∧
     (∃ final, runSimulation prioStep plainInit 9 demoRegs = some final ∧
        allTerminated final = true) ∧
     (∃ final, runSimulation rrStep (rrInit 2) 9 demoRegs = some final ∧
        allTerminated final = true)) :=
  ⟨⟨by decide, by decide, by decide⟩,
    (spec_c5 demoRegs 9 2).2.2 (by decide) (by decide) (by decide)⟩

/-! ## Agreement of the two waiting-time computations (claim C4) -/

theorem completionNoop_of_midInvB {sB : SchedulerState} (h : MidInvB sB) :
    CompletionNoop sB := by
  intro c p hc hp hpid hrem1
  obtain ⟨q, hq, hqid, hqrun, hqrem⟩ := h.1.curRes c hc
  have hqp : q = p :=
    pid_injective h.1.pidNodup q hq p hp (by rw [hqid, hpid])
  subst hqp
  have hacct := h.1.acct q hq (Or.inr hqrun)
  have hremq : remOf sB c = q.remainingTime := by
    unfold remOf
    rw [procOf_eq_of_mem h.1.pidNodup hq hpid]
    rfl
  have hrem : q.remainingTime = 1 := by omega
  rw [execOne_done_eq (by omega : q.remainingTime - 1 = 0)]
  show (sB.currentTime + 1 - q.arrivalTime) - q.burstTime = q.waitingTime
  omega

/-- **C4**: at every loop-iteration boundary of every scheduler, the
per-tick aging of `READY` processes is the sole accrual mechanism — each
live process's waiting time equals its ticks spent ready — and when the
running process completes, the derived write `turnaround - burst` equals
the already-accrued waiting time, so the two computations agree. -/
theorem spec_c4 (ps : List Process) (tq : Int) (m : Nat)
    (hvalid : ∀ p ∈ ps, 0 < p.burstTime ∧ 0 ≤ p.arrivalTime)
    (hnd : (ps.map Process.pid).Nodup) :
    (AgedWaiting (stepN fcfsStep m (fcfsInit ps)) ∧
      CompletionNoop (dispatchFCFS (checkArrivals
        (stepN fcfsStep m (fcfsInit ps))))) ∧
    (AgedWaiting (stepN sjfStep m (plainInit ps)) ∧
      CompletionNoop (dispatchSJF (checkArrivals
        (stepN sjfStep m (plainInit ps))))) ∧
    (AgedWaiting (stepN prioStep m (plainInit ps)) ∧
      CompletionNoop (dispatchPrio (checkArrivals
        (stepN prioStep m (plainInit ps))))) ∧
    (AgedWaiting (stepN rrStep m (rrInit tq ps)) ∧
      CompletionNoop (rrSwitch (checkArrivals
        (stepN rrStep m (rrInit tq ps))))) := by
  have hf : EngineInv (stepN fcfsStep m (fcfsInit ps)) :=
    engineInv_stepN fcfsStep (fun s h => engineInv_fcfsStep h) m _
      (engineInv_fcfsInit ps hvalid hnd)
  have hs : EngineInv (stepN sjfStep m (plainInit ps)) :=
    engineInv_stepN sjfStep (fun s h => engineInv_sjfStep h) m _
      (engineInv_plainInit ps hvalid hnd)
  have hp : EngineInv (stepN prioStep m (plainInit ps)) :=
    engineInv_stepN prioStep (fun s h => engineInv_prioStep h) m _
      (engineInv_plainInit ps hvalid hnd)
  have hr : EngineInv (stepN rrStep m (rrInit tq ps)) :=
    engineInv_stepN rrStep (fun s h => engineInv_rrStep h) m _
      (engineInv_rrInit tq ps hvalid hnd)
  refine ⟨⟨?_, ?_⟩, ⟨?_, ?_⟩, ⟨?_, ?_⟩, ⟨?_, ?_⟩⟩
  · exact fun p hp0 hlive => hf.acct p hp0 hlive
  · exact completionNoop_of_midInvB
      (midInvB_dispatchFCFS (midInv_checkArrivals hf))
  · exact fun p hp0 hlive => hs.acct p hp0 hlive
  · exact completionNoop_of_midInvB
      (midInvB_dispatchSJF (midInv_checkArrivals hs))
  · exact fun p hp0 hlive => hp.acct p hp0 hlive
  · exact completionNoop_of_midInvB
      (midInvB_dispatchPrio (midInv_checkArrivals hp))
  · exact fun p hp0 hlive => hr.acct p hp0 hlive
  · exact completionNoop_of_midInvB
      (midInvB_rrSwitch (midInv_checkArrivals hr))

/-- Witness for C4 on the demo set, quantum 2, after 3 iterations. -/
theorem spec_c4_witness :
    ((∀ p ∈ demoPs, 0 < p.burstTime ∧ 0 ≤ p.arrivalTime) ∧
      (demoPs.map Process.pid).Nodup) ∧
    ((AgedWaiting (stepN fcfsStep 3 (fcfsInit demoPs)) ∧
      CompletionNoop (dispatchFCFS (checkArrivals
        (stepN fcfsStep 3 (fcfsInit demoPs))))) ∧
     (AgedWaiting (stepN sjfStep 3 (plainInit demoPs)) ∧
      CompletionNoop (dispatchSJF (checkArrivals
        (stepN sjfStep 3 (plainInit demoPs))))) ∧
     (AgedWaiting (stepN prioStep 3 (plainInit demoPs)) ∧
      CompletionNoop (dispatchPrio (checkArrivals
        (stepN prioStep 3 (plainInit demoPs))))) ∧
     (AgedWaiting (stepN rrStep 3 (rrInit 2 demoPs)) ∧
      CompletionNoop (rrSwitch (checkArrivals
        (stepN rrStep 3 (rrInit 2 demoPs)))))) :=
  ⟨⟨by decide, by decide⟩, spec_c4 demoPs 2 3 (by decide) (by decide)⟩

/-! ## Round-Robin fairness bound (claim C3) -/

theorem rrPreempt_timeQuantum (s : SchedulerState) :
    (rrPreempt s).timeQuantum = s.timeQuantum := by
  rcases hc : s.current with _ | c
  · rw [rrPreempt_none hc]
  · by_cases hg : s.quantumRemaining = 0 ∧ 0 < remOf s c
    · rw [rrPreempt_go hc hg.1 hg.2]
      rfl
    · rw [rrPreempt_skip hc hg]

theorem rrSwitch_timeQuantum (s : SchedulerState) :
    (rrSwitch s).timeQuantum = s.timeQuantum := by
  by_cases hcond : (s.current = none ∨ s.quantumRemaining = 0) ∧
      s.readyQueue ≠ []
  · match hq1 : (rrPreempt s).readyQueue with
    | [] =>
      rw [rrSwitch_go_empty hcond hq1]
      exact rrPreempt_timeQuantum s
    | j :: rest =>
      rw [rrSwitch_go_pop hcond hq1]
      show (rrPreempt s).timeQuantum = s.timeQuantum
      exact rrPreempt_timeQuantum s
  · rw [rrSwitch_noswitch hcond]

theorem executeRR_timeQuantum (s : SchedulerState) :
    (executeRR s).timeQuantum = s.timeQuantum := by
  rcases hc : s.current with _ | c
  · rw [executeRR_none hc]
  · by_cases hd : remOf s c - 1 = 0
    · rw [executeRR_done hc hd]
    · rw [executeRR_cont hc hd]

theorem executeRR_queue_self (s : SchedulerState) :
    (executeRR s).readyQueue = s.readyQueue := by
  rcases hc : s.current with _ | c
  · rw [executeRR_none hc]
  · by_cases hd : remOf s c - 1 = 0
    · rw [executeRR_done hc hd]
    · rw [executeRR_cont hc hd]

theorem rrStep_timeQuantum (s : SchedulerState) :
    (rrStep s).timeQuantum = s.timeQuantum := by
  show (tickClock (agePhase (executeRR (rrSwitch
    (checkArrivals s))))).timeQuantum = _
  rw [tickClock_timeQuantum, agePhase_timeQuantum, executeRR_timeQuantum,
      rrSwitch_timeQuantum, checkArrivals_timeQuantum]

theorem stepN_rr_timeQuantum :
    ∀ (m : Nat) (s : SchedulerState),
      (stepN rrStep m s).timeQuantum = s.timeQuantum := by
  intro m
  induction m with
  | zero => intro s; rfl
  | succ n ih =>
    intro s
    show (stepN rrStep n (rrStep s)).timeQuantum = _
    rw [ih, rrStep_timeQuantum]

/-- When the front of the ready queue is the watched process and the
switch condition holds, the iteration from `t` dispatches it. -/
theorem rr_dispatch_now {t : SchedulerState} {pp : Nat}
    (hInv : EngineInv t) {l2 : List Nat} (hq : t.readyQueue = pp :: l2)
    (hcr : t.current = none ∨ t.quantumRemaining = 0) :
    whoRunsRR t = some pp := by
  have hqA : (checkArrivals t).readyQueue =
      pp :: (l2 ++ newlyArrived t.currentTime t.processes) := by
    rw [checkArrivals_readyQueue, hq]
    rfl
  have hcond : ((checkArrivals t).current = none ∨
      (checkArrivals t).quantumRemaining = 0) ∧
      (checkArrivals t).readyQueue ≠ [] := by
    constructor
    · rw [checkArrivals_current, checkArrivals_quantumRemaining]
      exact hcr
    · rw [hqA]
      simp
  rcases hc : t.current with _ | c
  · have hq1 : (rrPreempt (checkArrivals t)).readyQueue =
        pp :: (l2 ++ newlyArrived t.currentTime t.processes) := by
      rw [rrPreempt_none (by rw [checkArrivals_current]; exact hc), hqA]
    show (rrSwitch (checkArrivals t)).current = some pp
    rw [rrSwitch_go_pop hcond hq1]
  · have hqr0 : t.quantumRemaining = 0 := by
      rcases hcr with h | h
      · rw [hc] at h
        exact Option.noConfusion h
      · exact h
    obtain ⟨p, hp, hpid, hrun, hrem⟩ := hInv.curRes c hc
    have hremA : 0 < remOf (checkArrivals t) c := by
      rw [remOf_checkArrivals]
      unfold remOf
      rw [procOf_eq_of_mem hInv.pidNodup hp hpid]
      show 0 < p.remainingTime
      omega
    have hpre := rrPreempt_go
      (by rw [checkArrivals_current]; exact hc)
      (by rw [checkArrivals_quantumRemaining]; exact hqr0) hremA
    have hq1 : (rrPreempt (checkArrivals t)).readyQueue =
        pp :: ((l2 ++ newlyArrived t.currentTime t.processes) ++ [c]) := by
      rw [hpre]
      show (checkArrivals t).readyQueue ++ [c] = _
      rw [hqA]
      rfl
    show (rrSwitch (checkArrivals t)).current = some pp
    rw [rrSwitch_go_pop hcond hq1]

/-- Core fairness induction: a process sitting at position `i` of the
ready queue, while the current slice has `r` ticks left, is dispatched
within `i * Q + r` iterations. -/
theorem rr_wait_bound :
    ∀ (N : Nat), ∀ (i r : Nat) (t : SchedulerState) (pp : Nat),
    EngineInv t → 1 ≤ t.timeQuantum →
    i * t.timeQuantum.toNat + r ≤ N →
    (∃ l1 l2, t.readyQueue = l1 ++ pp :: l2 ∧ l1.length = i) →
    ((t.current = none ∧ r = 0) ∨
      (∃ c, t.current = some c ∧ t.quantumRemaining = (r : Int) ∧
        (r : Int) ≤ t.timeQuantum - 1)) →
    ∃ m, m ≤ i * t.timeQuantum.toNat + r ∧
      whoRunsRR (stepN rrStep m t) = some pp := by
  intro N
  induction N with
  | zero =>
    intro i r t pp hInv htq hN hpos hslice
    have hQ1 : 1 ≤ t.timeQuantum.toNat := by omega
    have hi0 : i = 0 := by
      have h1 : i * t.timeQuantum.toNat = 0 := by omega
      rcases Nat.mul_eq_zero.1 h1 with h | h
      · exact h
      · omega
    have hr0 : r = 0 := by omega
    subst hi0
    subst hr0
    obtain ⟨l1, l2, hq, hlen⟩ := hpos
    have hl1 : l1 = [] := List.length_eq_zero.1 hlen
    subst hl1
    have hcr : t.current = none ∨ t.quantumRemaining = 0 := by
      rcases hslice with ⟨h, _⟩ | ⟨c, hc, hqr, _⟩
      · exact Or.inl h
      · exact Or.inr (by omega)
    exact ⟨0, by omega, rr_dispatch_now hInv hq hcr⟩
  | succ N ih =>
    intro i r t pp hInv htq hN hpos hslice
    obtain ⟨l1, l2, hq, hlen⟩ := hpos
    have hQ1 : 1 ≤ t.timeQuantum.toNat := by omega
    by_cases hir : i = 0 ∧ r = 0
    · obtain ⟨hi0, hr0⟩ := hir
      subst hi0
      subst hr0
      have hl1 : l1 = [] := List.length_eq_zero.1 hlen
      subst hl1
      have hcr : t.current = none ∨ t.quantumRemaining = 0 := by
        rcases hslice with ⟨h, _⟩ | ⟨c, hc, hqr, _⟩
        · exact Or.inl h
        · exact Or.inr (by omega)
      exact ⟨0, by omega, rr_dispatch_now hInv hq hcr⟩
    · by_cases hr : r = 0
      · -- quantum boundary: a switch pops the head, the watched process
        -- moves one slot forward and a fresh slice begins.
        subst hr
        have hi : i ≠ 0 := fun h => hir ⟨h, rfl⟩
        obtain ⟨j, rfl⟩ : ∃ j, i = j + 1 := ⟨i - 1, by omega⟩
        cases l1 with
        | nil => simp at hlen
        | cons h0 l1t =>
          have hlent : l1t.length = j := by simpa using hlen
          have hcr : (checkArrivals t).current = none ∨
              (checkArrivals t).quantumRemaining = 0 := by
            rw [checkArrivals_current, checkArrivals_quantumRemaining]
            rcases hslice with ⟨h, _⟩ | ⟨c, hc, hqr, _⟩
            · exact Or.inl h
            · exact Or.inr (by omega)
          have hqA : (checkArrivals t).readyQueue =
              (h0 :: l1t) ++ pp ::
                (l2 ++ newlyArrived t.currentTime t.processes) := by
            rw [checkArrivals_readyQueue, hq]
            simp
          have hne : (checkArrivals t).readyQueue ≠ [] := by
            rw [hqA]
            simp
          have hcond : ((checkArrivals t).current = none ∨
              (checkArrivals t).quantumRemaining = 0) ∧
              (checkArrivals t).readyQueue ≠ [] := ⟨hcr, hne⟩
          have hq1 : ∃ l2b, (rrPreempt (checkArrivals t)).readyQueue =
              (h0 :: l1t) ++ pp :: l2b := by
            rcases hslice with ⟨hcn, _⟩ | ⟨c, hc, hqr, _⟩
            · exact ⟨l2 ++ newlyArrived t.currentTime t.processes, by
                rw [rrPreempt_none
                  (by rw [checkArrivals_current]; exact hcn), hqA]⟩
            · obtain ⟨p, hp, hpid, hrun, hrem⟩ := hInv.curRes c hc
              have hremA : 0 < remOf (checkArrivals t) c := by
                rw [remOf_checkArrivals]
                unfold remOf
                rw [procOf_eq_of_mem hInv.pidNodup hp hpid]
                show 0 < p.remainingTime
                omega
              have hpre := rrPreempt_go
                (by rw [checkArrivals_current]; exact hc)
                (by rw [checkArrivals_quantumRemaining]; omega) hremA
              refine ⟨(l2 ++ newlyArrived t.currentTime t.processes) ++ [c],
                ?_⟩
              rw [hpre]
              show (checkArrivals t).readyQueue ++ [c] = _
              rw [hqA]
              simp
          obtain ⟨l2b, hq1⟩ := hq1
          have hq1' : (rrPreempt (checkArrivals t)).readyQueue =
              h0 :: (l1t ++ pp :: l2b) := by
            rw [hq1]
            rfl
          have hsw := rrSwitch_go_pop hcond hq1'
          have hswq : (rrSwitch (checkArrivals t)).readyQueue =
              l1t ++ pp :: l2b := by rw [hsw]
          have hswc : (rrSwitch (checkArrivals t)).current = some h0 := by
            rw [hsw]
          have hswqr : (rrSwitch (checkArrivals t)).quantumRemaining =
              t.timeQuantum := by
            rw [hsw]
            show (rrPreempt (checkArrivals t)).timeQuantum = t.timeQuantum
            rw [rrPreempt_timeQuantum, checkArrivals_timeQuantum]
          have hsteptq : (rrStep t).timeQuantum = t.timeQuantum :=
            rrStep_timeQuantum t
          have hInv1 : EngineInv (rrStep t) := engineInv_rrStep hInv
          have hstepq : (rrStep t).readyQueue = l1t ++ pp :: l2b := by
            show (tickClock (agePhase (executeRR (rrSwitch
              (checkArrivals t))))).readyQueue = _
            rw [tickClock_readyQueue, agePhase_readyQueue,
                executeRR_queue_self, hswq]
          have hmul : (j + 1) * t.timeQuantum.toNat =
              j * t.timeQuantum.toNat + t.timeQuantum.toNat :=
            Nat.succ_mul _ _
          by_cases hd : remOf (rrSwitch (checkArrivals t)) h0 - 1 = 0
          · have hstepc : (rrStep t).current = none := by
              show (tickClock (agePhase (executeRR (rrSwitch
                (checkArrivals t))))).current = _
              rw [tickClock_current, agePhase_current,
                  executeRR_done hswc hd]
            obtain ⟨m, hm, hwho⟩ := ih j 0 (rrStep t) pp hInv1
              (by rw [hsteptq]; exact htq)
              (by rw [hsteptq]; omega)
              ⟨l1t, l2b, hstepq, hlent⟩
              (Or.inl ⟨hstepc, rfl⟩)
            rw [hsteptq] at hm
            exact ⟨m + 1, by omega, hwho⟩
          · have hstepc : (rrStep t).current = some h0 := by
              show (tickClock (agePhase (executeRR (rrSwitch
                (checkArrivals t))))).current = _
              rw [tickClock_current, agePhase_current,
                  executeRR_cont hswc hd]
              exact hswc
            have hstepqr : (rrStep t).quantumRemaining =
                t.timeQuantum - 1 := by
              show (tickClock (agePhase (executeRR (rrSwitch
                (checkArrivals t))))).quantumRemaining = _
              rw [tickClock_quantumRemaining, agePhase_quantumRemaining,
                  executeRR_cont hswc hd]
              show (rrSwitch (checkArrivals t)).quantumRemaining - 1 = _
              rw [hswqr]
            obtain ⟨m, hm, hwho⟩ := ih j (t.timeQuantum.toNat - 1)
              (rrStep t) pp hInv1
              (by rw [hsteptq]; exact htq)
              (by rw [hsteptq]; omega)
              ⟨l1t, l2b, hstepq, hlent⟩
              (Or.inr ⟨h0, hstepc, by rw [hstepqr]; omega,
                by rw [hsteptq]; omega⟩)
            rw [hsteptq] at hm
            exact ⟨m + 1, by omega, hwho⟩
      · -- mid-slice: no switch, the slice just shortens by one tick.
        have hr1 : 1 ≤ r := Nat.one_le_iff_ne_zero.2 hr
        rcases hslice with ⟨hcn, hr0⟩ | ⟨c, hc, hqr, hle⟩
        · exact absurd hr0 hr
        · have hnosw : rrSwitch (checkArrivals t) = checkArrivals t := by
            apply rrSwitch_noswitch
            intro hcontra
            rcases hcontra.1 with h | h
            · rw [checkArrivals_current, hc] at h
              exact Option.noConfusion h
            · rw [checkArrivals_quantumRemaining, hqr] at h
              omega
          have hcA : (checkArrivals t).current = some c := by
            rw [checkArrivals_current]
            exact hc
          have hInv1 : EngineInv (rrStep t) := engineInv_rrStep hInv
          have hsteptq : (rrStep t).timeQuantum = t.timeQuantum :=
            rrStep_timeQuantum t
          have hstepq : (rrStep t).readyQueue =
              l1 ++ pp :: (l2 ++ newlyArrived t.currentTime t.processes) := by
            show (tickClock (agePhase (executeRR (rrSwitch
              (checkArrivals t))))).readyQueue = _
            rw [tickClock_readyQueue, agePhase_readyQueue,
                executeRR_queue_self, hnosw, checkArrivals_readyQueue, hq]
            simp
          by_cases hd : remOf (checkArrivals t) c - 1 = 0
          · have hstepc : (rrStep t).current = none := by
              show (tickClock (agePhase (executeRR (rrSwitch
                (checkArrivals t))))).current = _
              rw [tickClock_current, agePhase_current, hnosw,
                  executeRR_done hcA hd]
            obtain ⟨m, hm, hwho⟩ := ih i 0 (rrStep t) pp hInv1
              (by rw [hsteptq]; exact htq)
              (by rw [hsteptq]; omega)
              ⟨l1, l2 ++ newlyArrived t.currentTime t.processes,
                hstepq, hlen⟩
              (Or.inl ⟨hstepc, rfl⟩)
            rw [hsteptq] at hm
            exact ⟨m + 1, by omega, hwho⟩
          · have hstepc : (rrStep t).current = some c := by
              show (tickClock (agePhase (executeRR (rrSwitch
                (checkArrivals t))))).current = _
              rw [tickClock_current, agePhase_current, hnosw,
                  executeRR_cont hcA hd]
              exact hcA
            have hstepqr : (rrStep t).quantumRemaining =
                t.quantumRemaining - 1 := by
              show (tickClock (agePhase (executeRR (rrSwitch
                (checkArrivals t))))).quantumRemaining = _
              rw [tickClock_quantumRemaining, agePhase_quantumRemaining,
                  hnosw, executeRR_cont hcA hd]
              show (checkArrivals t).quantumRemaining - 1 = _
              rw [checkArrivals_quantumRemaining]
            obtain ⟨m, hm, hwho⟩ := ih i (r - 1) (rrStep t) pp hInv1
              (by rw [hsteptq]; exact htq)
              (by rw [hsteptq]; omega)
              ⟨l1, l2 ++ newlyArrived t.currentTime t.processes,
                hstepq, hlen⟩
              (Or.inr ⟨c, hstepc, by rw [hstepqr, hqr]; omega,
                by rw [hsteptq]; omega⟩)
            rw [hsteptq] at hm
            exact ⟨m + 1, by omega, hwho⟩

/-- **C3**: under Round-Robin with quantum `Q ≥ 1`, whenever the running
process is preempted at a quantum boundary (counter at 0, non-empty ready
queue), it is dispatched again within `(n-1) × Q` ticks, where `n` is the
number of concurrently ready processes at that instant (the queue contents
plus the preempted process itself): the ready process waits at most
`(n-1) × Q` between two consecutive dispatches. -/
theorem spec_c3 (ps : List Process) (tq : Int) (j : Nat) (pp : Nat)
    (s : SchedulerState) (n : Nat)
    (hvalid : ∀ p ∈ ps, 0 < p.burstTime ∧ 0 ≤ p.arrivalTime)
    (hnd : (ps.map Process.pid).Nodup)
    (htq : 1 ≤ tq)
    (hs : s = stepN rrStep j (rrInit tq ps))
    (hcur : s.current = some pp)
    (hqr : s.quantumRemaining = 0)
    (hn : n = (checkArrivals s).readyQueue.length + 1)
    (hne : (checkArrivals s).readyQueue ≠ []) :
    ∃ m, m + 1 ≤ (n - 1) * tq.toNat ∧
      whoRunsRR (stepN rrStep m (rrStep s)) = some pp := by
  have hInv : EngineInv s := by
    rw [hs]
    exact engineInv_stepN rrStep (fun s1 h => engineInv_rrStep h) j _
      (engineInv_rrInit tq ps hvalid hnd)
  have hstq : s.timeQuantum = tq := by
    rw [hs, stepN_rr_timeQuantum]
    rfl
  obtain ⟨q1, qs, hqA⟩ : ∃ q1 qs,
      (checkArrivals s).readyQueue = q1 :: qs := by
    cases hv : (checkArrivals s).readyQueue with
    | nil => exact absurd hv hne
    | cons a l => exact ⟨a, l, rfl⟩
  obtain ⟨p, hp, hpid, hrun, hrem⟩ := hInv.curRes pp hcur
  have hremA : 0 < remOf (checkArrivals s) pp := by
    rw [remOf_checkArrivals]
    unfold remOf
    rw [procOf_eq_of_mem hInv.pidNodup hp hpid]
    show 0 < p.remainingTime
    omega
  have hpre := rrPreempt_go
    (by rw [checkArrivals_current]; exact hcur)
    (by rw [checkArrivals_quantumRemaining]; exact hqr) hremA
  have hq1 : (rrPreempt (checkArrivals s)).readyQueue =
      q1 :: (qs ++ [pp]) := by
    rw [hpre]
    show (checkArrivals s).readyQueue ++ [pp] = _
    rw [hqA]
    rfl
  have hcond : ((checkArrivals s).current = none ∨
      (checkArrivals s).quantumRemaining = 0) ∧
      (checkArrivals s).readyQueue ≠ [] :=
    ⟨Or.inr (by rw [checkArrivals_quantumRemaining]; exact hqr), hne⟩
  have hsw := rrSwitch_go_pop hcond hq1
  have hswq : (rrSwitch (checkArrivals s)).readyQueue = qs ++ [pp] := by
    rw [hsw]
  have hswc : (rrSwitch (checkArrivals s)).current = some q1 := by
    rw [hsw]
  have hswqr : (rrSwitch (checkArrivals s)).quantumRemaining =
      s.timeQuantum := by
    rw [hsw]
    show (rrPreempt (checkArrivals s)).timeQuantum = s.timeQuantum
    rw [rrPreempt_timeQuantum, checkArrivals_timeQuantum]
  have hsteptq : (rrStep s).timeQuantum = tq := by
    rw [rrStep_timeQuantum, hstq]
  have hInv1 : EngineInv (rrStep s) := engineInv_rrStep hInv
  have hstepq : (rrStep s).readyQueue = qs ++ [pp] := by
    show (tickClock (agePhase (executeRR (rrSwitch
      (checkArrivals s))))).readyQueue = _
    rw [tickClock_readyQueue, agePhase_readyQueue,
        executeRR_queue_self, hswq]
  have hposition : ∃ l1 l2, (rrStep s).readyQueue = l1 ++ pp :: l2 ∧
      l1.length = qs.length := ⟨qs, [], by rw [hstepq], rfl⟩
  have hQ1 : 1 ≤ tq.toNat := by omega
  have hn' : n - 1 = qs.length + 1 := by
    rw [hn, hqA]
    simp
  have hmul : (qs.length + 1) * tq.toNat =
      qs.length * tq.toNat + tq.toNat := Nat.succ_mul _ _
  by_cases hd : remOf (rrSwitch (checkArrivals s)) q1 - 1 = 0
  · have hstepc : (rrStep s).current = none := by
      show (tickClock (agePhase (executeRR (rrSwitch
        (checkArrivals s))))).current = _
      rw [tickClock_current, agePhase_current, executeRR_done hswc hd]
    obtain ⟨m, hm, hwho⟩ := rr_wait_bound (qs.length * tq.toNat)
      qs.length 0 (rrStep s) pp hInv1
      (by rw [hsteptq]; exact htq)
      (by rw [hsteptq]; omega)
      hposition (Or.inl ⟨hstepc, rfl⟩)
    rw [hsteptq] at hm
    refine ⟨m, ?_, hwho⟩
    rw [hn']
    omega
  · have hstepc : (rrStep s).current = some q1 := by
      show (tickClock (agePhase (executeRR (rrSwitch
        (checkArrivals s))))).current = _
      rw [tickClock_current, agePhase_current, executeRR_cont hswc hd]
      exact hswc
    have hstepqr : (rrStep s).quantumRemaining = s.timeQuantum - 1 := by
      show (tickClock (agePhase (executeRR (rrSwitch
        (checkArrivals s))))).quantumRemaining = _
      rw [tickClock_quantumRemaining, agePhase_quantumRemaining,
          executeRR_cont hswc hd]
      show (rrSwitch (checkArrivals s)).quantumRemaining - 1 = _
      rw [hswqr]
    obtain ⟨m, hm, hwho⟩ := rr_wait_bound
      (qs.length * tq.toNat + (tq.toNat - 1))
      qs.length (tq.toNat - 1) (rrStep s) pp hInv1
      (by rw [hsteptq]; exact htq)
      (by rw [hsteptq])
      hposition
      (Or.inr ⟨q1, hstepc, by rw [hstepqr, hstq]; omega,
        by rw [hsteptq]; omega⟩)
    rw [hsteptq] at hm
    refine ⟨m, ?_, hwho⟩
    rw [hn']
    omega

/-- Witness for C3: quantum 2 on `P1(0,4)`, `P2(0,9)`; after two
iterations `P1` is preempted with `P2` ready (`n = 2`), and it runs again
within `(2-1) × 2 = 2` ticks. -/
theorem spec_c3_witness :
    ((∀ p ∈ fairPs, 0 < p.burstTime ∧ 0 ≤ p.arrivalTime) ∧
     (fairPs.map Process.pid).Nodup ∧ (1 : Int) ≤ 2 ∧
     fairS2 = stepN rrStep 2 (rrInit 2 fairPs) ∧
     fairS2.current = some 1 ∧ fairS2.quantumRemaining = 0 ∧
     (2 : Nat) = (checkArrivals fairS2).readyQueue.length + 1 ∧
     (checkArrivals fairS2).readyQueue ≠ []) ∧
    (∃ m, m + 1 ≤ (2 - 1) * (2 : Int).toNat ∧
      whoRunsRR (stepN rrStep m (rrStep fairS2)) = some 1) :=
  ⟨⟨by decide, by decide, by decide, rfl, by decide, by decide,
    by decide, by decide⟩,
    spec_c3 fairPs 2 2 1 fairS2 2 (by decide) (by decide) (by decide) rfl
      (by decide) (by decide) (by decide) (by decide)⟩

end OSSched
